import Mathlib

/-!
# TourOfGo: the depth-bounded, caching web crawler

A shallow embedding of `crawl` (src/concurrency.go), of `SafeCache`, `FakeFetcher`
and `FakeFetcherImpl` (src/fetcher.go), together with an interleaving semantics for
the goroutines that `crawl` starts with `go crawl(u, depth-1, fetcher, safeCache)`.

Modelling conventions.

* A Go `map[string]string` is a function `String → Option String`: a key is present
  exactly when the function returns `some`.  The mutex of `SafeCache` makes `Get` and
  `Add` atomic; in the interleaving semantics each of them is one step.
* A Go `error` is `Option String`: `none` is `nil`, `some msg` an error with that text.
* A `Fetcher` is a total, deterministic function from a URL to the triple that
  `Fetch` returns.
* Every observable action of a task (cache read, fetch, cache write, print, start of a
  goroutine) is appended to a trace of events.
-/

namespace TourOfGo

/-! ## Data model -/

/-- The triple `(body, urls, err)` returned by `Fetcher.Fetch`. -/
structure FetchResult where
  body : String
  urls : List String
  err : Option String
deriving DecidableEq, Repr

/-- The interface `Fetcher`: one method `Fetch(url) (body, urls, err)`. -/
structure Fetcher where
  Fetch : String → FetchResult

/-- The struct `FakeResult`: the data returned from fetching a single page. -/
structure FakeResult where
  body : String
  urls : List String
deriving DecidableEq, Repr

/-- The type `FakeFetcher`, a Go `map[string]*FakeResult`, with every entry a pointer
to a result, as in `FakeFetcherImpl`: an association list with distinct keys;
`FakeFetcher.find` is the map index `f[url]`. A map that may hold nil pointers is a
`Go.FakeFetcher`. -/
abbrev FakeFetcher := List (String × FakeResult)

/-- The map index `res, ok := f[url]`. -/
def FakeFetcher.find (f : FakeFetcher) (url : String) : Option FakeResult :=
  match f with
  | [] => none
  | (k, v) :: rest => if url = k then some v else FakeFetcher.find rest url

/-- The method `FakeFetcher.Fetch`: the canned result for a key, and the error
`not found: <url>` otherwise. -/
def FakeFetcher.Fetch (f : FakeFetcher) (url : String) : FetchResult :=
  match FakeFetcher.find f url with
  | some res => ⟨res.body, res.urls, none⟩
  | none => ⟨"", [], some ("not found: " ++ url)⟩

/-- A `FakeFetcher` used through the `Fetcher` interface. -/
def FakeFetcher.toFetcher (f : FakeFetcher) : Fetcher := ⟨FakeFetcher.Fetch f⟩

/-- The variable `FakeFetcherImpl`, a populated `FakeFetcher`. -/
def FakeFetcherImpl : FakeFetcher :=
  [ ("https://golang.org/",
      ⟨"The Go Programming Language",
       ["https://golang.org/pkg/", "https://golang.org/cmd/"]⟩),
    ("https://golang.org/pkg/",
      ⟨"Packages",
       ["https://golang.org/", "https://golang.org/cmd/",
        "https://golang.org/pkg/fmt/", "https://golang.org/pkg/os/"]⟩),
    ("https://golang.org/pkg/fmt/",
      ⟨"Package fmt", ["https://golang.org/", "https://golang.org/pkg/"]⟩),
    ("https://golang.org/pkg/os/",
      ⟨"Package os", ["https://golang.org/", "https://golang.org/pkg/"]⟩) ]

/-- The struct `SafeCache` with its map made, as in every cache the program builds: a
map of url to body (the mutex is the atomicity of `Get` and `Add`). The zero value
`SafeCache{}`, whose map is nil, is `Go.SafeCache.zero`. -/
structure SafeCache where
  cache : String → Option String

/-- The cache made by `SafeCache{cache: make(map[string]string)}`. -/
def SafeCache.empty : SafeCache := ⟨fun _ => none⟩

/-- The method `SafeCache.Add`: `safeCache.cache[url] = body`. -/
def SafeCache.Add (safeCache : SafeCache) (url : String) (body : String) : SafeCache :=
  ⟨fun u => if u = url then some body else safeCache.cache u⟩

/-- The method `SafeCache.Get`: `body, ok = safeCache.cache[url]`; a missing key
gives the zero value `""` and `false`. -/
def SafeCache.Get (safeCache : SafeCache) (url : String) : String × Bool :=
  match safeCache.cache url with
  | some body => (body, true)
  | none => ("", false)

/-- The observable actions of a `crawl` task, in the order the task performs them. -/
inductive Ev where
  /-- the call `safeCache.Get(url)` -/
  | get (url : String)
  /-- the line `Cache Hit: url body` printed on a hit -/
  | hit (url : String) (body : String)
  /-- the call `fetcher.Fetch(url)` -/
  | fetch (url : String)
  /-- the error printed by `fmt.Println(err)` -/
  | err (msg : String)
  /-- the line `200 OK: url body` -/
  | ok (url : String) (body : String)
  /-- the call `safeCache.Add(url, body)` -/
  | add (url : String) (body : String)
  /-- the statement `go crawl(u, depth-1, fetcher, safeCache)`, with the depth passed -/
  | spawn (url : String) (depth : Int)
deriving DecidableEq, Repr

/-- What one uninterrupted call of `crawl` leaves behind: the cache and the events,
the goroutines it started being the `spawn` events. -/
structure Effects where
  cache : SafeCache
  trace : List Ev

/-- The function `crawl`, run without interruption; `go crawl(u, depth-1, ...)` only
records the goroutine it starts. -/
def crawl (url : String) (depth : Int) (fetcher : Fetcher) (safeCache : SafeCache) :
    Effects :=
  if depth ≤ 0 then ⟨safeCache, []⟩
  else
    match safeCache.Get url with
    | (cachedBody, true) => ⟨safeCache, [Ev.get url, Ev.hit url cachedBody]⟩
    | (_, false) =>
      match (fetcher.Fetch url).err with
      | some e => ⟨safeCache, [Ev.get url, Ev.fetch url, Ev.err e]⟩
      | none =>
        ⟨safeCache.Add url (fetcher.Fetch url).body,
         [Ev.get url, Ev.fetch url, Ev.ok url (fetcher.Fetch url).body,
          Ev.add url (fetcher.Fetch url).body]
           ++ (fetcher.Fetch url).urls.map (fun u => Ev.spawn u (depth - 1))⟩

/-- The goroutines started in a trace: url and depth of each `spawn`, in order. -/
def spawnsOf : List Ev → List (String × Int)
  | [] => []
  | Ev.spawn u d :: rest => (u, d) :: spawnsOf rest
  | _ :: rest => spawnsOf rest

/-- The URLs on which `Fetch` was called in a trace, in order. -/
def fetchesOf : List Ev → List String
  | [] => []
  | Ev.fetch u :: rest => u :: fetchesOf rest
  | _ :: rest => fetchesOf rest

/-- The number of calls of `Fetch` on `url` in a trace. -/
def fetchCount (url : String) (tr : List Ev) : Nat := (fetchesOf tr).count url

/-! ## Interleaving semantics -/

/-- The control state of one `crawl` goroutine. -/
inductive Task where
  /-- started, nothing executed yet -/
  | start (url : String) (depth : Int)
  /-- after the depth test and a miss in `Get`, before `Fetch` -/
  | got (url : String) (depth : Int)
  /-- after a successful `Fetch`, before `Add` -/
  | fetched (url : String) (depth : Int) (body : String) (urls : List String)
  /-- in the loop over `urls`, with the links still to be visited -/
  | spawning (url : String) (depth : Int) (rest : List String)
  /-- returned -/
  | done
deriving DecidableEq, Repr

/-- The task state at a loop head: the function returns when no link is left. -/
def afterLoop (url : String) (depth : Int) (rest : List String) : Task :=
  match rest with
  | [] => Task.done
  | _ :: _ => Task.spawning url depth rest

/-- What one atomic action of a task yields: its next control state, the cache, the
events of the action and the goroutines it started. -/
structure Action where
  task : Task
  cache : SafeCache
  events : List Ev
  started : List Task

/-- One atomic action of a task, `none` for a task that has returned. -/
def act (fetcher : Fetcher) (c : SafeCache) : Task → Option Action
  | Task.start url depth =>
    if depth ≤ 0 then some ⟨Task.done, c, [], []⟩
    else
      match c.Get url with
      | (cachedBody, true) => some ⟨Task.done, c, [Ev.get url, Ev.hit url cachedBody], []⟩
      | (_, false) => some ⟨Task.got url depth, c, [Ev.get url], []⟩
  | Task.got url depth =>
    match (fetcher.Fetch url).err with
    | some e => some ⟨Task.done, c, [Ev.fetch url, Ev.err e], []⟩
    | none =>
      some ⟨Task.fetched url depth (fetcher.Fetch url).body (fetcher.Fetch url).urls, c,
            [Ev.fetch url, Ev.ok url (fetcher.Fetch url).body], []⟩
  | Task.fetched url depth body urls =>
    some ⟨afterLoop url depth urls, c.Add url body, [Ev.add url body], []⟩
  | Task.spawning url depth (u :: rest) =>
    some ⟨afterLoop url depth rest, c, [Ev.spawn u (depth - 1)], [Task.start u (depth - 1)]⟩
  | Task.spawning _ _ [] => some ⟨Task.done, c, [], []⟩
  | Task.done => none

/-- The state of a crawl: the shared cache, the goroutines in creation order (a
goroutine keeps its index after it returns) and the events so far. -/
structure State where
  cache : SafeCache
  pool : List Task
  trace : List Ev

/-- The state in which `crawl(root, depth, fetcher, &safeCache)` is called on an
empty cache. -/
def State.init (root : String) (depth : Int) : State :=
  ⟨SafeCache.empty, [Task.start root depth], []⟩

/-- One step of goroutine `i`; `none` when there is no such goroutine or it has
returned. -/
def step (fetcher : Fetcher) (s : State) (i : Nat) : Option State :=
  match s.pool[i]? with
  | none => none
  | some t =>
    match act fetcher s.cache t with
    | none => none
    | some a => some ⟨a.cache, s.pool.set i a.task ++ a.started, s.trace ++ a.events⟩

/-- The state after the scheduler picks the goroutines of `sched` one after another;
picking a goroutine that cannot move changes nothing. -/
def run (fetcher : Fetcher) (s : State) : List Nat → State
  | [] => s
  | i :: sched => run fetcher ((step fetcher s i).getD s) sched

/-- Strict execution: every pick of `sched` must be a goroutine that can move. -/
def exec (fetcher : Fetcher) (s : State) : List Nat → Option State
  | [] => some s
  | i :: sched =>
    match step fetcher s i with
    | none => none
    | some s' => exec fetcher s' sched

/-- All goroutines have returned. -/
def State.allDone (s : State) : Prop := ∀ t ∈ s.pool, t = Task.done

/-- One whole call of `crawl` by goroutine `i`, which must not have started yet:
the goroutine runs to completion before any other moves. -/
def stepAtomic (fetcher : Fetcher) (s : State) (i : Nat) : Option State :=
  match s.pool[i]? with
  | some (Task.start url depth) =>
    let e := crawl url depth fetcher s.cache
    some ⟨e.cache, s.pool.set i Task.done ++ (spawnsOf e.trace).map (fun p => Task.start p.1 p.2),
          s.trace ++ e.trace⟩
  | _ => none

/-- The state after the goroutines of `sched` run to completion one at a time. -/
def runAtomic (fetcher : Fetcher) (s : State) : List Nat → State
  | [] => s
  | i :: sched => runAtomic fetcher ((stepAtomic fetcher s i).getD s) sched

/-! ## Specification vocabulary -/

/-- The URL `u` is reached from `root` by a chain of `k` links, each link taken from
the link list of a page whose `Fetch` succeeds. -/
inductive ReachIn (fetcher : Fetcher) (root : String) : Nat → String → Prop where
  | root : ReachIn fetcher root 0 root
  | link {k : Nat} {v u : String} : ReachIn fetcher root k v →
      (fetcher.Fetch v).err = none → u ∈ (fetcher.Fetch v).urls →
      ReachIn fetcher root (k + 1) u

/-- The URL `u` lies `k` links from `root` and a task for it holds depth `d`, the
budget `depth` less the `k` links already followed. -/
def AtDepth (fetcher : Fetcher) (root : String) (depth : Int) (u : String) (d : Int) : Prop :=
  ∃ k : Nat, ReachIn fetcher root k u ∧ d = depth - k

/-- What holds of every goroutine of a crawl of `root` with budget `depth`. -/
def TaskOk (fetcher : Fetcher) (root : String) (depth : Int) : Task → Prop
  | Task.start u d => AtDepth fetcher root depth u d
  | Task.got u d => 0 < d ∧ AtDepth fetcher root depth u d
  | Task.fetched u d b urls =>
      0 < d ∧ AtDepth fetcher root depth u d ∧ (fetcher.Fetch u).err = none ∧
      b = (fetcher.Fetch u).body ∧ urls = (fetcher.Fetch u).urls
  | Task.spawning u d rest =>
      0 < d ∧ AtDepth fetcher root depth u d ∧ (fetcher.Fetch u).err = none ∧
      ∀ v ∈ rest, v ∈ (fetcher.Fetch u).urls
  | Task.done => True

/-- The invariant of a crawl of `root` with budget `depth`: every goroutine is at the
depth its distance from the root allows, and every fetch, cache entry and started
goroutine respects the budget. -/
def Inv (fetcher : Fetcher) (root : String) (depth : Int) (s : State) : Prop :=
  (∀ t ∈ s.pool, TaskOk fetcher root depth t) ∧
  (∀ u, Ev.fetch u ∈ s.trace → ∃ k : Nat, (k : Int) < depth ∧ ReachIn fetcher root k u) ∧
  (∀ u b, s.cache.cache u = some b →
    (∃ k : Nat, (k : Int) < depth ∧ ReachIn fetcher root k u) ∧
    (fetcher.Fetch u).err = none ∧ b = (fetcher.Fetch u).body) ∧
  (∀ u d, Ev.spawn u d ∈ s.trace → 0 ≤ d)

/-! ## Termination measure -/

/-- An upper bound on the number of steps that a task for `u` with `n` levels of
depth left, and all the tasks it transitively starts, can take. -/
def cost (fetcher : Fetcher) : Nat → String → Nat
  | 0, _ => 1
  | n + 1, u => 4 + ((fetcher.Fetch u).urls.map (fun v => 1 + cost fetcher n v)).sum

/-- The bound for the remaining iterations of the loop over `rest` at depth `d`. -/
def loopCost (fetcher : Fetcher) (d : Int) (rest : List String) : Nat :=
  (rest.map (fun v => 1 + cost fetcher (d - 1).toNat v)).sum

/-- The bound for a goroutine in a given control state. -/
def Task.cost (fetcher : Fetcher) : Task → Nat
  | Task.start u d => TourOfGo.cost fetcher d.toNat u
  | Task.got u d => 3 + loopCost fetcher d (fetcher.Fetch u).urls
  | Task.fetched _ d _ urls => 2 + loopCost fetcher d urls
  | Task.spawning _ d rest => 1 + loopCost fetcher d rest
  | Task.done => 0

/-- The bound for a state: the sum over its goroutines. -/
def State.cost (fetcher : Fetcher) (s : State) : Nat :=
  (s.pool.map (Task.cost fetcher)).sum

/-! ## Schedules used as examples -/

/-- The program of `ConcurrencyMain`: the fetcher `FakeFetcherImpl` behind the
interface. -/
def mainFetcher : Fetcher := FakeFetcher.toFetcher FakeFetcherImpl

/-- The state in which `ConcurrencyMain` calls
`crawl("https://golang.org/", 4, FakeFetcherImpl, &safeCache)`. -/
def mainInit : State := State.init "https://golang.org/" 4

/-- The schedule that runs the goroutines of the crawl of `ConcurrencyMain` to
completion one at a time, in the order of their creation. -/
def mainSchedule : List Nat := [0, 1, 2, 3, 4, 5, 6, 7, 8, 9, 10]

/-! ## The two-page cycle -/

/-- The fetcher whose link graph is the cycle `root → [a]`, `a → [root]`, with bodies
`b1` and `b2`. -/
def cycleFetcher (root a b1 b2 : String) : Fetcher :=
  FakeFetcher.toFetcher [(root, ⟨b1, [a]⟩), (a, ⟨b2, [root]⟩)]

/-- The cache holding `root` alone. -/
def cycleCache1 (root b1 : String) : SafeCache := SafeCache.empty.Add root b1

/-- The cache holding `root` and `a`. -/
def cycleCache2 (root a b1 b2 : String) : SafeCache := (cycleCache1 root b1).Add a b2

/-- The states that the crawl of the cycle with depth 5 passes through, in order;
from the ninth on every goroutine has returned. -/
def cycleChain (root a b1 b2 : String) : Nat → State
  | 0 => ⟨SafeCache.empty, [Task.start root 5], []⟩
  | 1 => ⟨SafeCache.empty, [Task.got root 5], [Ev.get root]⟩
  | 2 => ⟨SafeCache.empty, [Task.fetched root 5 b1 [a]],
          [Ev.get root, Ev.fetch root, Ev.ok root b1]⟩
  | 3 => ⟨cycleCache1 root b1, [Task.spawning root 5 [a]],
          [Ev.get root, Ev.fetch root, Ev.ok root b1, Ev.add root b1]⟩
  | 4 => ⟨cycleCache1 root b1, [Task.done, Task.start a 4],
          [Ev.get root, Ev.fetch root, Ev.ok root b1, Ev.add root b1, Ev.spawn a 4]⟩
  | 5 => ⟨cycleCache1 root b1, [Task.done, Task.got a 4],
          [Ev.get root, Ev.fetch root, Ev.ok root b1, Ev.add root b1, Ev.spawn a 4,
           Ev.get a]⟩
  | 6 => ⟨cycleCache1 root b1, [Task.done, Task.fetched a 4 b2 [root]],
          [Ev.get root, Ev.fetch root, Ev.ok root b1, Ev.add root b1, Ev.spawn a 4,
           Ev.get a, Ev.fetch a, Ev.ok a b2]⟩
  | 7 => ⟨cycleCache2 root a b1 b2, [Task.done, Task.spawning a 4 [root]],
          [Ev.get root, Ev.fetch root, Ev.ok root b1, Ev.add root b1, Ev.spawn a 4,
           Ev.get a, Ev.fetch a, Ev.ok a b2, Ev.add a b2]⟩
  | 8 => ⟨cycleCache2 root a b1 b2, [Task.done, Task.done, Task.start root 3],
          [Ev.get root, Ev.fetch root, Ev.ok root b1, Ev.add root b1, Ev.spawn a 4,
           Ev.get a, Ev.fetch a, Ev.ok a b2, Ev.add a b2, Ev.spawn root 3]⟩
  | _ => ⟨cycleCache2 root a b1 b2, [Task.done, Task.done, Task.done],
          [Ev.get root, Ev.fetch root, Ev.ok root b1, Ev.add root b1, Ev.spawn a 4,
           Ev.get a, Ev.fetch a, Ev.ok a b2, Ev.add a b2, Ev.spawn root 3,
           Ev.get root, Ev.hit root b1]⟩

/-! ## Removing a link -/

/-- The fetcher that differs from `fetcher` only in the link list of page `p`, from
which every occurrence of `u` is removed. -/
def dropLink (fetcher : Fetcher) (p u : String) : Fetcher :=
  ⟨fun x =>
    if x = p then
      ⟨(fetcher.Fetch x).body, (fetcher.Fetch x).urls.filter (fun v => decide (v ≠ u)),
       (fetcher.Fetch x).err⟩
    else fetcher.Fetch x⟩

/-- The pool `q` is the pool `p` without some of its goroutines for `u`, each of them
not yet started or already returned. -/
inductive Skips (u : String) : List Task → List Task → Prop where
  | nil : Skips u [] []
  | keep (t : Task) {p q : List Task} : Skips u p q → Skips u (t :: p) (t :: q)
  | dropStart (d : Int) {p q : List Task} : Skips u p q → Skips u (Task.start u d :: p) q
  | dropDone {p q : List Task} : Skips u p q → Skips u (Task.done :: p) q

/-- The number of goroutines of a pool that have not returned. -/
def liveCount (pool : List Task) : Nat :=
  (pool.map (fun t => if t = Task.done then 0 else 1)).sum

/-! ## The crawl of `ConcurrencyMain`, goroutines run one at a time -/

/-- The line that `crawl` prints when the fetch of `https://golang.org/cmd/` fails. -/
def mainErr : Ev := Ev.err "not found: https://golang.org/cmd/"

/-- The stages of the crawl of `ConcurrencyMain`: before the root page is cached;
with the root cached, `pkg/` not yet cached and its goroutine of depth 3 waiting; with
both cached and `pkg/fmt/` and `pkg/os/` cached or waiting at depth 2. From the
second stage on the error for `cmd/` is printed or a goroutine for it is waiting. -/
def MainPhase (s : State) : Prop :=
  ((∀ x, s.cache.cache x = none) ∧ s.pool = [Task.start "https://golang.org/" 4]) ∨
  ((s.cache.cache "https://golang.org/").isSome ∧ s.cache.cache "https://golang.org/pkg/" = none ∧
    Task.start "https://golang.org/pkg/" 3 ∈ s.pool ∧
    (∀ t ∈ s.pool, t = Task.done ∨ t = Task.start "https://golang.org/pkg/" 3 ∨ t = Task.start "https://golang.org/cmd/" 3) ∧
    (mainErr ∈ s.trace ∨ Task.start "https://golang.org/cmd/" 3 ∈ s.pool)) ∨
  ((s.cache.cache "https://golang.org/").isSome ∧ (s.cache.cache "https://golang.org/pkg/").isSome ∧
    ((s.cache.cache "https://golang.org/pkg/fmt/").isSome ∨ Task.start "https://golang.org/pkg/fmt/" 2 ∈ s.pool) ∧
    ((s.cache.cache "https://golang.org/pkg/os/").isSome ∨ Task.start "https://golang.org/pkg/os/" 2 ∈ s.pool) ∧
    (mainErr ∈ s.trace ∨ ∃ d : Int, 0 < d ∧ Task.start "https://golang.org/cmd/" d ∈ s.pool))

/-- A fetcher whose root page links twice to the page `a`, which has no links. -/
def twinFetcher : Fetcher :=
  FakeFetcher.toFetcher [("root", ⟨"r", ["a", "a"]⟩), ("a", ⟨"x", []⟩)]

/-- A schedule for `crawl("root", 2, twinFetcher, ...)`: the root goroutine runs to its
end, then the two goroutines for `a` take turns, so that both read the cache before
either writes it. -/
def twinSchedule : List Nat := [0, 0, 0, 0, 0, 1, 2, 1, 2, 1, 2]

/-! ## Sequences of cache writes -/

/-- The cache after the calls `Add(k, v)` for the pairs of `adds`, in order. -/
def addAll (c : SafeCache) : List (String × String) → SafeCache
  | [] => c
  | (k, v) :: rest => addAll (c.Add k v) rest

/-- The URLs on which `Add` was called in a trace, in order. -/
def addsOf : List Ev → List String
  | [] => []
  | Ev.add u _ :: rest => u :: addsOf rest
  | _ :: rest => addsOf rest

/-- The number of calls of `Add` on `url` in a trace. -/
def addCount (url : String) (tr : List Ev) : Nat := (addsOf tr).count url

/-! ## A diamond of links, and a page behind a short and a long path -/

/-- A fetcher in which the pages `a` and `b` both link to `c`, which links to `d`. -/
def raceFetcher : Fetcher :=
  FakeFetcher.toFetcher
    [("root", ⟨"r", ["a", "b"]⟩), ("a", ⟨"x", ["c"]⟩), ("b", ⟨"y", ["c"]⟩),
     ("c", ⟨"z", ["d"]⟩), ("d", ⟨"w", []⟩)]

/-- A schedule for `crawl("root", 4, raceFetcher, ...)`: the goroutines for `root`,
`a` and `b` run to their ends, then the two goroutines for `c` (numbers 3 and 4) take
turns, and the two goroutines for `d` run last. -/
def raceSchedule : List Nat :=
  [0, 0, 0, 0, 0, 1, 1, 1, 1, 2, 2, 2, 2, 3, 4, 3, 4, 3, 4, 3, 4, 5, 5, 5, 6]

/-- A fetcher in which `b` is linked from the root and from `a`, and links to `c`. -/
def gapFetcher : Fetcher :=
  FakeFetcher.toFetcher
    [("root", ⟨"r", ["a", "b"]⟩), ("a", ⟨"x", ["b"]⟩), ("b", ⟨"y", ["c"]⟩), ("c", ⟨"z", []⟩)]

/-- A schedule for `crawl("root", 3, gapFetcher, ...)`, goroutines run one at a time:
the root, then `a`, then the goroutine for `b` that `a` started (depth 1), then the one
the root started (depth 2), then the one for `c` (depth 0). -/
def gapSchedule : List Nat := [0, 1, 3, 2, 4]

/-- The task is one that will put `v` in the cache when its fetch succeeds: it is for
`v` and has passed, or will pass, the depth test. -/
def Task.serves (v : String) : Task → Prop
  | Task.start u d => u = v ∧ 0 < d
  | Task.got u _ => u = v
  | Task.fetched u _ _ _ => u = v
  | Task.spawning _ _ _ => False
  | Task.done => False

/-- The URL `v` is in the cache or some goroutine is about to put it there. -/
def Served (s : State) (v : String) : Prop :=
  (s.cache.cache v).isSome ∨ ∃ t ∈ s.pool, Task.serves v t

/-- The two stages of the root goroutine of a crawl whose root page can be fetched:
before its `Add`, when it is alone and the root is not cached; and in or after its
loop, when every link of the root page is still to be visited or has its goroutine
started with depth `depth - 1`. -/
def RootStage (fetcher : Fetcher) (root : String) (depth : Int) (s : State) : Prop :=
  (s.cache.cache root = none ∧
    (s.pool = [Task.start root depth] ∨ s.pool = [Task.got root depth] ∨
     s.pool = [Task.fetched root depth (fetcher.Fetch root).body (fetcher.Fetch root).urls])) ∨
  (∃ rest, s.pool[0]? = some (afterLoop root depth rest) ∧
    ∀ v ∈ (fetcher.Fetch root).urls, v ∈ rest ∨ Ev.spawn v (depth - 1) ∈ s.trace)

/-! ## Tree traversal over channels -/

/-- Modelled from the spec: the type `tree.Tree` of the package `./tree`, which is not
among the sources. It is the binary tree that `Walk` traverses through its fields
`Left`, `Value` and `Right`; the nil pointer is the empty tree. -/
inductive Tree where
  | nil
  | node (Left : Tree) (Value : Int) (Right : Tree)
deriving DecidableEq, Repr

/-- The function `Walk`: the values it sends to the channel, in the order of the
sends: those of the left subtree, the value of the node, those of the right subtree. -/
def Walk : Tree → List Int
  | Tree.nil => []
  | Tree.node l v r => Walk l ++ v :: Walk r

/-- A channel `make(chan int, 1)` together with the goroutine that sends to it:
the values the goroutine has still to send, whether it closes the channel at its end
(`WalkAndClose`) or not (`Walk`), the buffer and whether the channel is closed. -/
structure Chan where
  todo : List Int
  closes : Bool
  buf : List Int
  closed : Bool
deriving DecidableEq, Repr

/-- The statement `go Walk(t, ch)` on a new channel. -/
def goWalk (t : Tree) : Chan := ⟨Walk t, false, [], false⟩

/-- The statement `go WalkAndClose(t, ch)` on a new channel. -/
def goWalkAndClose (t : Tree) : Chan := ⟨Walk t, true, [], false⟩

/-- One step of the sending goroutine: the send `ch <- v`, which needs room in the
buffer of capacity 1, or after the last send the `close(ch)` of `WalkAndClose`;
`none` when the goroutine is blocked or has returned. -/
def Chan.send (c : Chan) : Option Chan :=
  match c.todo with
  | v :: rest =>
    if c.buf.length < 1 then some ⟨rest, c.closes, c.buf ++ [v], c.closed⟩ else none
  | [] => if c.closes && !c.closed then some ⟨[], c.closes, c.buf, true⟩ else none

/-- The receive `v, ok = <-ch`: the oldest buffered value with `true`; the zero value
with `false` from a closed and drained channel; `none` when the receive blocks. -/
def Chan.recv (c : Chan) : Option (Int × Bool × Chan) :=
  match c.buf with
  | v :: rest => some (v, true, ⟨c.todo, c.closes, rest, c.closed⟩)
  | [] => if c.closed then some (0, false, c) else none

/-- The control state of `SameInOrderTraversalGeneric`. -/
inductive GenericPc where
  /-- at `first, ok = <-ch` -/
  | recvFirst
  /-- at `second, ok2 = <-ch2`, with the values just received from `ch` -/
  | recvSecond (first : Int) (ok : Bool)
  /-- returned, with the result -/
  | returned (result : Bool)
deriving DecidableEq, Repr

/-- The state of a call of `SameInOrderTraversalGeneric`: the two channels with their
goroutines, and the caller. -/
structure GenericState where
  ch : Chan
  ch2 : Chan
  pc : GenericPc
deriving DecidableEq, Repr

/-- The state after `go WalkAndClose(t1, ch)` and `go WalkAndClose(t2, ch2)`. -/
def GenericState.init (t1 t2 : Tree) : GenericState :=
  ⟨goWalkAndClose t1, goWalkAndClose t2, GenericPc.recvFirst⟩

/-- One step of the caller in `SameInOrderTraversalGeneric`: a receive, and after
the second receive of an iteration the three tests of the loop body. -/
def genericCaller (s : GenericState) : Option GenericState :=
  match s.pc with
  | GenericPc.recvFirst =>
    match s.ch.recv with
    | none => none
    | some (first, ok, c) => some ⟨c, s.ch2, GenericPc.recvSecond first ok⟩
  | GenericPc.recvSecond first ok =>
    match s.ch2.recv with
    | none => none
    | some (second, ok2, c2) =>
      if (ok && !ok2) || (!ok && ok2) then some ⟨s.ch, c2, GenericPc.returned false⟩
      else if !ok then some ⟨s.ch, c2, GenericPc.returned (first == second)⟩
      else if first != second then some ⟨s.ch, c2, GenericPc.returned false⟩
      else some ⟨s.ch, c2, GenericPc.recvFirst⟩
  | GenericPc.returned _ => none

/-- One step of process `i` of `SameInOrderTraversalGeneric`: 0 and 1 are the walking
goroutines, 2 is the caller; `none` when the process is blocked or has returned. -/
def genericStep (s : GenericState) (i : Nat) : Option GenericState :=
  match i with
  | 0 => (s.ch.send).map (fun c => ⟨c, s.ch2, s.pc⟩)
  | 1 => (s.ch2.send).map (fun c => ⟨s.ch, c, s.pc⟩)
  | 2 => genericCaller s
  | _ => none

/-- The state after the scheduler picks the processes of `sched` one after another;
picking a process that cannot move changes nothing. -/
def genericRun (s : GenericState) : List Nat → GenericState
  | [] => s
  | i :: sched => genericRun ((genericStep s i).getD s) sched

/-- The schedule that gives each of the three processes a turn, `n` times. -/
def roundRobin : Nat → List Nat
  | 0 => []
  | n + 1 => 0 :: 1 :: 2 :: roundRobin n

/-- A bound on the steps left for a channel and its goroutine. -/
def Chan.cost (c : Chan) : Nat :=
  3 * c.todo.length + 2 * c.buf.length + (if c.closes && !c.closed then 1 else 0)

/-- A bound on the steps left in a call of `SameInOrderTraversalGeneric`. -/
def GenericState.cost (s : GenericState) : Nat :=
  s.ch.cost + s.ch2.cost +
    (match s.pc with
     | GenericPc.recvFirst => 2
     | GenericPc.recvSecond _ _ => 1
     | GenericPc.returned _ => 0)

/-- The function `SameInOrderTraversalGeneric`: its result under the round-robin
schedule, `none` if the caller has not returned when the schedule ends. -/
def SameInOrderTraversalGeneric (t1 t2 : Tree) : Option Bool :=
  match (genericRun (GenericState.init t1 t2)
      (roundRobin (GenericState.init t1 t2).cost)).pc with
  | GenericPc.returned b => some b
  | _ => none

/-- The control state of `SameInOrderTraversal`. -/
inductive TenPc where
  /-- at the test `i < 10` of the loop, before `<-ch` -/
  | loop (i : Nat)
  /-- at `<-ch2`, with the value just received from `ch` -/
  | recvSecond (i : Nat) (first : Int)
  /-- returned, with the result -/
  | returned (result : Bool)
deriving DecidableEq, Repr

/-- The state of a call of `SameInOrderTraversal`. -/
structure TenState where
  ch : Chan
  ch2 : Chan
  pc : TenPc
deriving DecidableEq, Repr

/-- The state after `go Walk(t1, ch)` and `go Walk(t2, ch2)`. -/
def TenState.init (t1 t2 : Tree) : TenState :=
  ⟨goWalk t1, goWalk t2, TenPc.loop 0⟩

/-- One step of the caller in `SameInOrderTraversal`: the loop test with the receive
from `ch`, or the receive from `ch2` with the comparison. -/
def tenCaller (s : TenState) : Option TenState :=
  match s.pc with
  | TenPc.loop i =>
    if i < 10 then
      match s.ch.recv with
      | none => none
      | some (first, _, c) => some ⟨c, s.ch2, TenPc.recvSecond i first⟩
    else some ⟨s.ch, s.ch2, TenPc.returned true⟩
  | TenPc.recvSecond i first =>
    match s.ch2.recv with
    | none => none
    | some (second, _, c2) =>
      if first != second then some ⟨s.ch, c2, TenPc.returned false⟩
      else some ⟨s.ch, c2, TenPc.loop (i + 1)⟩
  | TenPc.returned _ => none

/-- One step of process `i` of `SameInOrderTraversal`, numbered as in `genericStep`. -/
def tenStep (s : TenState) (i : Nat) : Option TenState :=
  match i with
  | 0 => (s.ch.send).map (fun c => ⟨c, s.ch2, s.pc⟩)
  | 1 => (s.ch2.send).map (fun c => ⟨s.ch, c, s.pc⟩)
  | 2 => tenCaller s
  | _ => none

/-- The state after the scheduler picks the processes of `sched` one after another. -/
def tenRun (s : TenState) : List Nat → TenState
  | [] => s
  | i :: sched => tenRun ((tenStep s i).getD s) sched

/-- A bound on the steps left in a call of `SameInOrderTraversal`. -/
def TenState.cost (s : TenState) : Nat :=
  s.ch.cost + s.ch2.cost +
    (match s.pc with
     | TenPc.returned _ => 0
     | _ => 1)

/-- The function `SameInOrderTraversal`: its result under the round-robin schedule,
`none` if the caller has not returned when the schedule ends (it blocks for ever when
a tree has fewer than 10 values). -/
def SameInOrderTraversal (t1 t2 : Tree) : Option Bool :=
  match (tenRun (TenState.init t1 t2) (roundRobin (TenState.init t1 t2).cost)).pc with
  | TenPc.returned b => some b
  | _ => none

/-- The tree with the values of the list, each the right child of the one before. -/
def Tree.ofList : List Int → Tree
  | [] => Tree.nil
  | v :: rest => Tree.node Tree.nil v (Tree.ofList rest)

/-- What the channel with its goroutine owes to the walk `w` once the caller has
received the values `pre`: the rest of the walk is in the buffer or still to be sent,
and a closed channel has nothing more to be sent. -/
def ChanOk (w pre : List Int) (c : Chan) : Prop :=
  w = pre ++ c.buf ++ c.todo ∧ (c.closed = true → c.todo = [])

/-- The invariant of a call of `SameInOrderTraversalGeneric` on trees with walks `w1`
and `w2`: both goroutines close their channel, the values received so far are common
prefixes of the two walks, and a result returned is the equality of the walks. -/
def GenericOk (w1 w2 : List Int) (s : GenericState) : Prop :=
  s.ch.closes = true ∧ s.ch2.closes = true ∧
  ∃ pre1 pre2, ChanOk w1 pre1 s.ch ∧ ChanOk w2 pre2 s.ch2 ∧
    match s.pc with
    | GenericPc.recvFirst => pre1 = pre2
    | GenericPc.recvSecond first ok =>
      (ok = true ∧ pre1 = pre2 ++ [first]) ∨
      (ok = false ∧ first = 0 ∧ pre1 = pre2 ∧ w1 = pre1)
    | GenericPc.returned b => b = decide (w1 = w2)

/-- The invariant of a call of `SameInOrderTraversal` on trees with walks `w1` and
`w2`: no channel is closed, the loop counter is the number of values received from
each channel, these values agree, and a result returned is the equality of the
walks. -/
def TenOk (w1 w2 : List Int) (s : TenState) : Prop :=
  s.ch.closes = false ∧ s.ch2.closes = false ∧ s.ch.closed = false ∧ s.ch2.closed = false ∧
  ∃ pre1 pre2, ChanOk w1 pre1 s.ch ∧ ChanOk w2 pre2 s.ch2 ∧
    match s.pc with
    | TenPc.loop i => pre1 = pre2 ∧ pre1.length = i
    | TenPc.recvSecond i first => pre1 = pre2 ++ [first] ∧ pre2.length = i ∧ i < 10
    | TenPc.returned b => b = decide (w1 = w2)

/-! ## Values of the Go types that the program never builds -/

/-- A value of the struct type `SafeCache`: the zero value `SafeCache{}`, whose map is
nil, or a cache whose map was made. -/
inductive Go.SafeCache where
  | zero
  | made (c : TourOfGo.SafeCache)

/-- The method `SafeCache.Get` on any value of the type: indexing a nil map finds no
key and gives the zero value `""` and `false`. -/
def Go.SafeCache.Get : Go.SafeCache → String → String × Bool
  | Go.SafeCache.zero, _ => ("", false)
  | Go.SafeCache.made c, url => TourOfGo.SafeCache.Get c url

/-- The method `SafeCache.Add` on any value of the type; `none` is the panic of
`safeCache.cache[url] = body` on a nil map. -/
def Go.SafeCache.Add : Go.SafeCache → String → String → Option Go.SafeCache
  | Go.SafeCache.zero, _, _ => none
  | Go.SafeCache.made c, url, body => some (Go.SafeCache.made (TourOfGo.SafeCache.Add c url body))

/-- How a call of `crawl` ends: it returns, leaving a cache and its events, or it
panics after some events. -/
inductive Go.Outcome where
  | returned (safeCache : Go.SafeCache) (trace : List Ev)
  | panicked (trace : List Ev)

/-- The function `crawl` on any value of the type `SafeCache`, run without
interruption; `go crawl(u, depth-1, ...)` only records the goroutine it starts. -/
def Go.crawl (url : String) (depth : Int) (fetcher : Fetcher) (safeCache : Go.SafeCache) :
    Go.Outcome :=
  if depth ≤ 0 then Go.Outcome.returned safeCache []
  else
    match Go.SafeCache.Get safeCache url with
    | (cachedBody, true) => Go.Outcome.returned safeCache [Ev.get url, Ev.hit url cachedBody]
    | (_, false) =>
      match (fetcher.Fetch url).err with
      | some e => Go.Outcome.returned safeCache [Ev.get url, Ev.fetch url, Ev.err e]
      | none =>
        match Go.SafeCache.Add safeCache url (fetcher.Fetch url).body with
        | none =>
          Go.Outcome.panicked [Ev.get url, Ev.fetch url, Ev.ok url (fetcher.Fetch url).body]
        | some c =>
          Go.Outcome.returned c
            ([Ev.get url, Ev.fetch url, Ev.ok url (fetcher.Fetch url).body,
              Ev.add url (fetcher.Fetch url).body]
               ++ (fetcher.Fetch url).urls.map (fun u => Ev.spawn u (depth - 1)))

/-- A value of the type `FakeFetcher`, `map[string]*FakeResult`: an association list
with distinct keys in which `none` is a nil pointer. -/
abbrev Go.FakeFetcher := List (String × Option FakeResult)

/-- The map index `res, ok := f[url]`: `none` when `url` is not a key, and the
pointer stored, nil or not, when it is. -/
def Go.FakeFetcher.find (f : Go.FakeFetcher) (url : String) : Option (Option FakeResult) :=
  match f with
  | [] => none
  | (k, v) :: rest => if url = k then some v else Go.FakeFetcher.find rest url

/-- The method `FakeFetcher.Fetch` on any value of the type; `none` is the panic of
reading `res.body` through a nil pointer. -/
def Go.FakeFetcher.Fetch (f : Go.FakeFetcher) (url : String) : Option FetchResult :=
  match Go.FakeFetcher.find f url with
  | some (some res) => some ⟨res.body, res.urls, none⟩
  | some none => none
  | none => some ⟨"", [], some ("not found: " ++ url)⟩

/-- A map of results seen as a map of pointers, none of them nil. -/
def FakeFetcher.toGo (f : FakeFetcher) : Go.FakeFetcher :=
  f.map (fun kv => (kv.1, some kv.2))

/-! ## Contract of one call of `crawl` -/

theorem Get_of_some {c : SafeCache} {url b : String} (h : c.cache url = some b) :
    c.Get url = (b, true) := by
  simp [SafeCache.Get, h]

theorem Get_of_none {c : SafeCache} {url : String} (h : c.cache url = none) :
    c.Get url = ("", false) := by
  simp [SafeCache.Get, h]

theorem spawnsOf_append (a b : List Ev) : spawnsOf (a ++ b) = spawnsOf a ++ spawnsOf b := by
  induction a with
  | nil => rfl
  | cons e a ih => cases e <;> simp [spawnsOf, ih]

theorem spawnsOf_map_spawn (urls : List String) (d : Int) :
    spawnsOf (urls.map (fun u => Ev.spawn u d)) = urls.map (fun u => (u, d)) := by
  induction urls with
  | nil => rfl
  | cons u urls ih => simp [spawnsOf, ih]

theorem fetchesOf_append (a b : List Ev) :
    fetchesOf (a ++ b) = fetchesOf a ++ fetchesOf b := by
  induction a with
  | nil => rfl
  | cons e a ih => cases e <;> simp [fetchesOf, ih]

theorem fetchesOf_map_spawn (urls : List String) (d : Int) :
    fetchesOf (urls.map (fun u => Ev.spawn u d)) = [] := by
  induction urls with
  | nil => rfl
  | cons u urls ih => simp [fetchesOf, ih]

theorem mem_fetchesOf {u : String} {tr : List Ev} : u ∈ fetchesOf tr ↔ Ev.fetch u ∈ tr := by
  induction tr with
  | nil => simp [fetchesOf]
  | cons e tr ih => cases e <;> simp [fetchesOf, ih]

theorem mem_spawnsOf {u : String} {d : Int} {tr : List Ev} :
    (u, d) ∈ spawnsOf tr ↔ Ev.spawn u d ∈ tr := by
  induction tr with
  | nil => simp [spawnsOf]
  | cons e tr ih => cases e <;> simp [spawnsOf, ih]

theorem crawl_hit {url : String} {depth : Int} (fetcher : Fetcher) {c : SafeCache} {b : String}
    (hd : 0 < depth) (hc : c.cache url = some b) :
    crawl url depth fetcher c = ⟨c, [Ev.get url, Ev.hit url b]⟩ := by
  simp [crawl, not_le.mpr hd, Get_of_some hc]

theorem crawl_exhausted (url : String) {depth : Int} (fetcher : Fetcher) (c : SafeCache)
    (hd : depth ≤ 0) : crawl url depth fetcher c = ⟨c, []⟩ := by
  simp [crawl, hd]

theorem crawl_failed {url : String} {depth : Int} {fetcher : Fetcher} {c : SafeCache}
    {e : String} (hd : 0 < depth) (hc : c.cache url = none)
    (he : (fetcher.Fetch url).err = some e) :
    crawl url depth fetcher c = ⟨c, [Ev.get url, Ev.fetch url, Ev.err e]⟩ := by
  simp [crawl, not_le.mpr hd, Get_of_none hc, he]

theorem crawl_fetched {url : String} {depth : Int} {fetcher : Fetcher} {c : SafeCache}
    (hd : 0 < depth) (hc : c.cache url = none) (he : (fetcher.Fetch url).err = none) :
    crawl url depth fetcher c =
      ⟨c.Add url (fetcher.Fetch url).body,
       [Ev.get url, Ev.fetch url, Ev.ok url (fetcher.Fetch url).body,
        Ev.add url (fetcher.Fetch url).body]
         ++ (fetcher.Fetch url).urls.map (fun u => Ev.spawn u (depth - 1))⟩ := by
  simp [crawl, not_le.mpr hd, Get_of_none hc, he]

/-! ## Steps and runs -/

theorem step_some {fetcher : Fetcher} {s s' : State} {i : Nat}
    (h : step fetcher s i = some s') :
    ∃ t a, s.pool[i]? = some t ∧ act fetcher s.cache t = some a ∧
      s' = ⟨a.cache, s.pool.set i a.task ++ a.started, s.trace ++ a.events⟩ := by
  unfold step at h
  cases ht : s.pool[i]? with
  | none => simp [ht] at h
  | some t =>
    cases ha : act fetcher s.cache t with
    | none => simp [ht, ha] at h
    | some a =>
      simp [ht, ha] at h
      exact ⟨t, a, rfl, ha, h.symm⟩

theorem run_append (fetcher : Fetcher) (s : State) (a b : List Nat) :
    run fetcher s (a ++ b) = run fetcher (run fetcher s a) b := by
  induction a generalizing s with
  | nil => rfl
  | cons i a ih => simp [run, ih]

/-- Induction over the states of a run: a property of the first state that every step
preserves holds after every schedule. -/
theorem run_invariant {fetcher : Fetcher} (P : State → Prop)
    (hstep : ∀ s i s', P s → step fetcher s i = some s' → P s')
    (s : State) (h0 : P s) (sched : List Nat) : P (run fetcher s sched) := by
  induction sched generalizing s with
  | nil => exact h0
  | cons i sched ih =>
    simp only [run]
    apply ih
    cases h : step fetcher s i with
    | none => simpa using h0
    | some s' => simpa using hstep s i s' h0 h

theorem exec_eq_run {fetcher : Fetcher} {s s' : State} {sched : List Nat}
    (h : exec fetcher s sched = some s') : run fetcher s sched = s' := by
  induction sched generalizing s with
  | nil => simpa [exec, run] using h
  | cons i sched ih =>
    simp only [exec] at h
    cases hs : step fetcher s i with
    | none => simp [hs] at h
    | some s1 =>
      simp only [hs] at h
      simpa [run, hs] using ih h

theorem mem_set_append {t x : Task} {l z : List Task} {i : Nat}
    (h : t ∈ l.set i x ++ z) : t ∈ l ∨ t = x ∨ t ∈ z := by
  rcases List.mem_append.mp h with h | h
  · rcases List.mem_or_eq_of_mem_set h with h | h
    · exact Or.inl h
    · exact Or.inr (Or.inl h)
  · exact Or.inr (Or.inr h)

theorem mem_of_getElem {t : Task} {l : List Task} {i : Nat} (h : l[i]? = some t) : t ∈ l :=
  List.getElem?_mem h

theorem mem_set_self {t x : Task} {l : List Task} {i : Nat} (hi : l[i]? = some t) :
    x ∈ l.set i x := by
  have hlt : i < l.length := by
    by_contra hge
    rw [List.getElem?_eq_none (by omega)] at hi
    cases hi
  exact List.mem_iff_getElem?.mpr ⟨i, by simp [List.getElem?_set, hlt]⟩

/-- A member of the pool other than the one replaced is still a member. -/
theorem mem_set_of_ne {t x y : Task} {l : List Task} {i : Nat}
    (hx : x ∈ l) (hi : l[i]? = some t) (hne : x ≠ t) : x ∈ l.set i y := by
  induction l generalizing i with
  | nil => simp at hx
  | cons a l ih =>
    cases i with
    | zero =>
      simp at hi
      subst hi
      rcases List.mem_cons.mp hx with h | h
      · exact absurd h hne
      · simp [h]
    | succ i =>
      simp at hi
      rcases List.mem_cons.mp hx with h | h
      · simp [h]
      · simp only [List.set_cons_succ, List.mem_cons]
        exact Or.inr (ih h (by simpa using hi))

theorem afterLoop_ok {fetcher : Fetcher} {root : String} {depth : Int} {u : String} {d : Int}
    {rest : List String} (hd : 0 < d) (hat : AtDepth fetcher root depth u d)
    (he : (fetcher.Fetch u).err = none) (hr : ∀ v ∈ rest, v ∈ (fetcher.Fetch u).urls) :
    TaskOk fetcher root depth (afterLoop u d rest) := by
  cases rest with
  | nil => simp [afterLoop, TaskOk]
  | cons v rest => exact ⟨hd, hat, he, hr⟩

theorem AtDepth.lt {fetcher : Fetcher} {root : String} {depth : Int} {u : String} {d : Int}
    (hat : AtDepth fetcher root depth u d) (hd : 0 < d) :
    ∃ k : Nat, (k : Int) < depth ∧ ReachIn fetcher root k u := by
  obtain ⟨k, hk, rfl⟩ := hat
  exact ⟨k, by omega, hk⟩

theorem AtDepth.child {fetcher : Fetcher} {root : String} {depth : Int} {u v : String} {d : Int}
    (hat : AtDepth fetcher root depth u d) (he : (fetcher.Fetch u).err = none)
    (hv : v ∈ (fetcher.Fetch u).urls) : AtDepth fetcher root depth v (d - 1) := by
  obtain ⟨k, hk, rfl⟩ := hat
  exact ⟨k + 1, ReachIn.link hk he hv, by push_cast; ring⟩

theorem Inv_init (fetcher : Fetcher) (root : String) (depth : Int) :
    Inv fetcher root depth (State.init root depth) := by
  refine ⟨?_, ?_, ?_, ?_⟩
  · intro t ht
    simp [State.init] at ht
    subst ht
    exact ⟨0, ReachIn.root, by simp⟩
  · intro u hu
    simp [State.init] at hu
  · intro u b hu
    simp [State.init, SafeCache.empty] at hu
  · intro u d hu
    simp [State.init] at hu

theorem Inv_step {fetcher : Fetcher} {root : String} {depth : Int} (s : State) (i : Nat)
    (s' : State) (hinv : Inv fetcher root depth s) (h : step fetcher s i = some s') :
    Inv fetcher root depth s' := by
  obtain ⟨t, a, ht, ha, rfl⟩ := step_some h
  obtain ⟨hpool, hfetch, hcache, hspawn⟩ := hinv
  have htok := hpool t (mem_of_getElem ht)
  cases t with
  | start u d =>
    simp only [act] at ha
    split at ha
    · cases ha
      refine ⟨?_, by simpa using hfetch, hcache, by simpa using hspawn⟩
      intro t' ht'
      rcases mem_set_append ht' with h1 | h1 | h1
      · exact hpool t' h1
      · subst h1; trivial
      · simp at h1
    · rename_i hd
      have hd' : 0 < d := not_le.mp hd
      split at ha
      · cases ha
        refine ⟨?_, ?_, hcache, ?_⟩
        · intro t' ht'
          rcases mem_set_append ht' with h1 | h1 | h1
          · exact hpool t' h1
          · subst h1; trivial
          · simp at h1
        · intro x hx
          simp at hx
          exact hfetch x hx
        · intro x e hx
          simp at hx
          exact hspawn x e hx
      · cases ha
        refine ⟨?_, ?_, hcache, ?_⟩
        · intro t' ht'
          rcases mem_set_append ht' with h1 | h1 | h1
          · exact hpool t' h1
          · subst h1; exact ⟨hd', htok⟩
          · simp at h1
        · intro x hx
          simp at hx
          exact hfetch x hx
        · intro x e hx
          simp at hx
          exact hspawn x e hx
  | got u d =>
    obtain ⟨hd, hat⟩ := htok
    simp only [act] at ha
    split at ha
    · cases ha
      refine ⟨?_, ?_, hcache, ?_⟩
      · intro t' ht'
        rcases mem_set_append ht' with h1 | h1 | h1
        · exact hpool t' h1
        · subst h1; trivial
        · simp at h1
      · intro x hx
        simp at hx
        rcases hx with hx | hx
        · exact hfetch x hx
        · subst hx; exact hat.lt hd
      · intro x e hx
        simp at hx
        exact hspawn x e hx
    · rename_i he
      cases ha
      refine ⟨?_, ?_, hcache, ?_⟩
      · intro t' ht'
        rcases mem_set_append ht' with h1 | h1 | h1
        · exact hpool t' h1
        · subst h1; exact ⟨hd, hat, he, rfl, rfl⟩
        · simp at h1
      · intro x hx
        simp at hx
        rcases hx with hx | hx
        · exact hfetch x hx
        · subst hx; exact hat.lt hd
      · intro x e hx
        simp at hx
        exact hspawn x e hx
  | fetched u d b urls =>
    obtain ⟨hd, hat, he, hb, hurls⟩ := htok
    simp only [act] at ha
    cases ha
    refine ⟨?_, by simpa using hfetch, ?_, by simpa using hspawn⟩
    · intro t' ht'
      rcases mem_set_append ht' with h1 | h1 | h1
      · exact hpool t' h1
      · subst h1
        exact afterLoop_ok hd hat he (by intro v hv; rw [← hurls]; exact hv)
      · simp at h1
    · intro x y hx
      simp only [SafeCache.Add] at hx
      split at hx
      · rename_i hxu
        subst hxu
        cases hx
        exact ⟨hat.lt hd, he, hb⟩
      · exact hcache x y hx
  | spawning u d rest =>
    obtain ⟨hd, hat, he, hrest⟩ := htok
    cases rest with
    | nil =>
      simp only [act] at ha
      cases ha
      refine ⟨?_, by simpa using hfetch, hcache, by simpa using hspawn⟩
      intro t' ht'
      rcases mem_set_append ht' with h1 | h1 | h1
      · exact hpool t' h1
      · subst h1; trivial
      · simp at h1
    | cons v rest =>
      simp only [act] at ha
      cases ha
      refine ⟨?_, ?_, hcache, ?_⟩
      · intro t' ht'
        rcases mem_set_append ht' with h1 | h1 | h1
        · exact hpool t' h1
        · subst h1
          exact afterLoop_ok hd hat he (fun w hw => hrest w (List.mem_cons_of_mem _ hw))
        · simp at h1
          subst h1
          exact hat.child he (hrest v (List.mem_cons_self _ _))
      · intro x hx
        simp at hx
        exact hfetch x hx
      · intro x e hx
        simp at hx
        rcases hx with hx | ⟨rfl, rfl⟩
        · exact hspawn x e hx
        · omega
  | done => simp [act] at ha

theorem Inv_run (fetcher : Fetcher) (root : String) (depth : Int) (sched : List Nat) :
    Inv fetcher root depth (run fetcher (State.init root depth) sched) :=
  run_invariant (Inv fetcher root depth) Inv_step _ (Inv_init fetcher root depth) sched

/-! ## Termination -/

theorem sum_map_set {g : Task → Nat} {l : List Task} {i : Nat} {t : Task} (x : Task)
    (h : l[i]? = some t) : ((l.set i x).map g).sum + g t = (l.map g).sum + g x := by
  induction l generalizing i with
  | nil => simp at h
  | cons a l ih =>
    cases i with
    | zero =>
      simp at h
      subst h
      simp
      omega
    | succ i =>
      have h' : l[i]? = some t := by simpa using h
      have := ih h'
      simp only [List.set_cons_succ, List.map_cons, List.sum_cons]
      omega

theorem cost_start_pos (fetcher : Fetcher) (u : String) {d : Int} (hd : 0 < d) :
    Task.cost fetcher (Task.start u d) = 4 + loopCost fetcher d (fetcher.Fetch u).urls := by
  obtain ⟨n, hn⟩ : ∃ n : Nat, d.toNat = n + 1 := ⟨d.toNat - 1, by omega⟩
  have h1 : (d - 1).toNat = n := by omega
  simp [Task.cost, loopCost, hn, h1, cost]

theorem cost_afterLoop_le (fetcher : Fetcher) (u : String) (d : Int) (rest : List String) :
    Task.cost fetcher (afterLoop u d rest) ≤ 1 + loopCost fetcher d rest := by
  cases rest <;> simp [afterLoop, Task.cost]

/-- Every action of a task lowers the bound: the new control state and the goroutines
started together cost less than the old control state. -/
theorem act_cost_lt {fetcher : Fetcher} {c : SafeCache} {t : Task} {a : Action}
    (h : act fetcher c t = some a) :
    Task.cost fetcher a.task + (a.started.map (Task.cost fetcher)).sum < Task.cost fetcher t := by
  cases t with
  | start u d =>
    simp only [act] at h
    split at h
    · rename_i hd
      cases h
      have : d.toNat = 0 := by omega
      simp [Task.cost, this, cost]
    · rename_i hd
      rw [cost_start_pos fetcher u (not_le.mp hd)]
      split at h <;> cases h <;> simp [Task.cost]
  | got u d =>
    simp only [act] at h
    split at h <;> cases h <;> simp [Task.cost]
  | fetched u d b urls =>
    simp only [act] at h
    cases h
    have := cost_afterLoop_le fetcher u d urls
    have e1 : Task.cost fetcher (Task.fetched u d b urls) = 2 + loopCost fetcher d urls := rfl
    simp only [List.map_nil, List.sum_nil, e1]
    omega
  | spawning u d rest =>
    cases rest with
    | nil =>
      simp only [act] at h
      cases h
      simp [Task.cost]
    | cons v rest =>
      simp only [act] at h
      cases h
      have := cost_afterLoop_le fetcher u d rest
      have e1 : Task.cost fetcher (Task.spawning u d (v :: rest)) =
          1 + (1 + cost fetcher (d - 1).toNat v + loopCost fetcher d rest) := by
        simp [Task.cost, loopCost]
      have e2 : ([Task.start v (d - 1)].map (Task.cost fetcher)).sum =
          cost fetcher (d - 1).toNat v := by
        simp [Task.cost]
      show Task.cost fetcher (afterLoop u d rest) +
          ([Task.start v (d - 1)].map (Task.cost fetcher)).sum <
          Task.cost fetcher (Task.spawning u d (v :: rest))
      rw [e1, e2]
      omega
  | done => simp [act] at h

theorem step_cost_lt {fetcher : Fetcher} {s s' : State} {i : Nat}
    (h : step fetcher s i = some s') : State.cost fetcher s' < State.cost fetcher s := by
  obtain ⟨t, a, ht, ha, rfl⟩ := step_some h
  have h1 := act_cost_lt ha
  have h2 := sum_map_set (g := Task.cost fetcher) a.task ht
  simp only [State.cost, List.map_append, List.sum_append]
  omega

theorem act_started_le {fetcher : Fetcher} {c : SafeCache} {t : Task} {a : Action}
    (h : act fetcher c t = some a) : a.started.length ≤ 1 := by
  cases t with
  | start u d =>
    simp only [act] at h
    split at h
    · cases h; simp
    · split at h <;> cases h <;> simp
  | got u d =>
    simp only [act] at h
    split at h <;> cases h <;> simp
  | fetched u d b urls =>
    simp only [act] at h
    cases h; simp
  | spawning u d rest =>
    cases rest <;> simp only [act] at h <;> cases h <;> simp
  | done => simp [act] at h

theorem step_pool_length {fetcher : Fetcher} {s s' : State} {i : Nat}
    (h : step fetcher s i = some s') : s'.pool.length ≤ s.pool.length + 1 := by
  obtain ⟨t, a, ht, ha, rfl⟩ := step_some h
  have := act_started_le ha
  simp
  omega

/-- A strict execution of `n` steps lowers the bound by at least `n` and starts at
most `n` goroutines. -/
theorem exec_cost {fetcher : Fetcher} {s s' : State} {sched : List Nat}
    (h : exec fetcher s sched = some s') :
    State.cost fetcher s' + sched.length ≤ State.cost fetcher s ∧
    s'.pool.length ≤ s.pool.length + sched.length := by
  induction sched generalizing s with
  | nil =>
    simp [exec] at h
    subst h
    simp
  | cons i sched ih =>
    simp only [exec] at h
    cases hs : step fetcher s i with
    | none => simp [hs] at h
    | some s1 =>
      simp only [hs] at h
      have h1 := ih h
      have h2 := step_cost_lt hs
      have h3 := step_pool_length hs
      simp only [List.length_cons]
      omega

theorem act_isSome_of_ne_done (fetcher : Fetcher) (c : SafeCache) {t : Task}
    (h : t ≠ Task.done) : ∃ a, act fetcher c t = some a := by
  cases t with
  | start u d =>
    simp only [act]
    split
    · exact ⟨_, rfl⟩
    · split <;> exact ⟨_, rfl⟩
  | got u d =>
    simp only [act]
    split <;> exact ⟨_, rfl⟩
  | fetched u d b urls => exact ⟨_, rfl⟩
  | spawning u d rest => cases rest <;> exact ⟨_, rfl⟩
  | done => exact absurd rfl h

/-- No deadlock: while some goroutine has not returned, some goroutine can move. -/
theorem progress (fetcher : Fetcher) (s : State) (h : ¬ s.allDone) :
    ∃ i s', step fetcher s i = some s' := by
  simp only [State.allDone, not_forall] at h
  obtain ⟨t, ht, hne⟩ := h
  obtain ⟨i, hi⟩ := List.getElem?_of_mem ht
  obtain ⟨a, ha⟩ := act_isSome_of_ne_done fetcher s.cache hne
  refine ⟨i, ?_⟩
  simp [step, hi, ha]

theorem exec_append {fetcher : Fetcher} {s s1 s2 : State} {a b : List Nat}
    (h1 : exec fetcher s a = some s1) (h2 : exec fetcher s1 b = some s2) :
    exec fetcher s (a ++ b) = some s2 := by
  induction a generalizing s with
  | nil =>
    simp [exec] at h1
    subst h1
    simpa using h2
  | cons i a ih =>
    simp only [exec] at h1
    cases hs : step fetcher s i with
    | none => simp [hs] at h1
    | some s0 =>
      simp only [hs] at h1
      simp only [List.cons_append, exec, hs]
      exact ih h1

/-- From every state some strict execution reaches a state in which all goroutines
have returned. -/
theorem exists_exec_allDone (fetcher : Fetcher) (n : Nat) :
    ∀ s : State, State.cost fetcher s ≤ n → ∃ sched s', exec fetcher s sched = some s' ∧ s'.allDone := by
  induction n with
  | zero =>
    intro s hs
    by_cases hdone : s.allDone
    · exact ⟨[], s, rfl, hdone⟩
    · obtain ⟨i, s1, h1⟩ := progress fetcher s hdone
      have := step_cost_lt h1
      omega
  | succ n ih =>
    intro s hs
    by_cases hdone : s.allDone
    · exact ⟨[], s, rfl, hdone⟩
    · obtain ⟨i, s1, h1⟩ := progress fetcher s hdone
      have hlt := step_cost_lt h1
      obtain ⟨sched, s2, h2, h3⟩ := ih s1 (by omega)
      exact ⟨i :: sched, s2, by simp [exec, h1, h2], h3⟩

/-! ## The contract of `crawl`, case by case -/

/-- C4 (cache hit). With `depth > 0` and an entry for `url` in the cache, a call of
`crawl` leaves the cache as it was, calls `Fetch` on nothing, starts no goroutine,
and its goroutine returns in its first step: it only reads the cache and prints the
hit. -/
theorem crawl_cache_hit (url : String) (depth : Int) (fetcher : Fetcher) (c : SafeCache)
    (b : String) (hd : 0 < depth) (hc : c.cache url = some b) :
    (crawl url depth fetcher c).cache = c ∧
    fetchesOf (crawl url depth fetcher c).trace = [] ∧
    spawnsOf (crawl url depth fetcher c).trace = [] ∧
    (crawl url depth fetcher c).trace = [Ev.get url, Ev.hit url b] ∧
    act fetcher c (Task.start url depth) =
      some ⟨Task.done, c, [Ev.get url, Ev.hit url b], []⟩ := by
  rw [crawl_hit fetcher hd hc]
  refine ⟨rfl, rfl, rfl, rfl, ?_⟩
  simp [act, not_le.mpr hd, Get_of_some hc]

theorem crawl_cache_hit_witness :
    (SafeCache.empty.Add "https://golang.org/" "seen").cache "https://golang.org/" = some "seen" ∧
    fetchesOf (crawl "https://golang.org/" 4 (FakeFetcher.toFetcher FakeFetcherImpl)
      (SafeCache.empty.Add "https://golang.org/" "seen")).trace = [] :=
  ⟨rfl, (crawl_cache_hit "https://golang.org/" 4 (FakeFetcher.toFetcher FakeFetcherImpl)
    (SafeCache.empty.Add "https://golang.org/" "seen") "seen" (by decide) rfl).2.1⟩

/-- C5 (depth exhausted). With `depth ≤ 0` a call of `crawl` does nothing: the cache
is the one passed in and the trace is empty, so there is no `Get`, no `Add`, no
`Fetch` and no `go`; its goroutine returns in its first step. -/
theorem crawl_depth_exhausted (url : String) (depth : Int) (fetcher : Fetcher)
    (c : SafeCache) (hd : depth ≤ 0) :
    (crawl url depth fetcher c).cache = c ∧
    (crawl url depth fetcher c).trace = [] ∧
    act fetcher c (Task.start url depth) = some ⟨Task.done, c, [], []⟩ := by
  rw [crawl_exhausted url fetcher c hd]
  refine ⟨rfl, rfl, ?_⟩
  simp [act, hd]

theorem crawl_depth_exhausted_witness :
    (crawl "https://golang.org/" 0 (FakeFetcher.toFetcher FakeFetcherImpl)
      SafeCache.empty).trace = [] ∧
    (crawl "https://golang.org/" (-3) (FakeFetcher.toFetcher FakeFetcherImpl)
      SafeCache.empty).trace = [] :=
  ⟨(crawl_depth_exhausted _ 0 _ _ (by decide)).2.1,
   (crawl_depth_exhausted _ (-3) _ _ (by decide)).2.1⟩

/-- C6 (fetch failure is local). With `depth > 0`, no entry for `url` in the cache
and `Fetch(url)` returning an error, a call of `crawl` leaves the cache as it was (so
`url` is not inserted), starts no goroutine and calls `Fetch` on `url` exactly once:
it reads the cache, fetches, prints the error and returns. -/
theorem crawl_fetch_failure (url : String) (depth : Int) (fetcher : Fetcher) (c : SafeCache)
    (e : String) (hd : 0 < depth) (hc : c.cache url = none)
    (he : (fetcher.Fetch url).err = some e) :
    (crawl url depth fetcher c).cache = c ∧
    (crawl url depth fetcher c).cache.cache url = none ∧
    spawnsOf (crawl url depth fetcher c).trace = [] ∧
    fetchCount url (crawl url depth fetcher c).trace = 1 ∧
    fetchesOf (crawl url depth fetcher c).trace = [url] ∧
    (crawl url depth fetcher c).trace = [Ev.get url, Ev.fetch url, Ev.err e] := by
  rw [crawl_failed hd hc he]
  refine ⟨rfl, hc, rfl, ?_, rfl, rfl⟩
  simp [fetchCount, fetchesOf]

theorem crawl_fetch_failure_witness :
    ((FakeFetcher.toFetcher FakeFetcherImpl).Fetch "https://golang.org/cmd/").err =
      some "not found: https://golang.org/cmd/" ∧
    fetchCount "https://golang.org/cmd/"
      (crawl "https://golang.org/cmd/" 3 (FakeFetcher.toFetcher FakeFetcherImpl)
        SafeCache.empty).trace = 1 :=
  ⟨by decide,
   (crawl_fetch_failure "https://golang.org/cmd/" 3 (FakeFetcher.toFetcher FakeFetcherImpl)
     SafeCache.empty "not found: https://golang.org/cmd/" (by decide) rfl (by decide)).2.2.2.1⟩

/-- On a cache whose map was made, `Go.crawl` is `crawl`. -/
theorem crawl_made (url : String) (depth : Int) (fetcher : Fetcher) (c : SafeCache) :
    Go.crawl url depth fetcher (Go.SafeCache.made c) =
      Go.Outcome.returned (Go.SafeCache.made (crawl url depth fetcher c).cache)
        (crawl url depth fetcher c).trace := by
  by_cases hd : depth ≤ 0
  · rw [crawl_exhausted url fetcher c hd]
    simp [Go.crawl, hd]
  · have hd' : 0 < depth := not_le.mp hd
    cases hc : c.cache url with
    | some b =>
      rw [crawl_hit fetcher hd' hc]
      simp [Go.crawl, hd, Go.SafeCache.Get, Get_of_some hc]
    | none =>
      cases he : (fetcher.Fetch url).err with
      | some er =>
        rw [crawl_failed hd' hc he]
        simp [Go.crawl, hd, Go.SafeCache.Get, Get_of_none hc, he]
      | none =>
        rw [crawl_fetched hd' hc he]
        simp [Go.crawl, hd, Go.SafeCache.Get, Get_of_none hc, he, Go.SafeCache.Add]

/-- C7 as stated fails on the zero value `SafeCache{}`: the url is not in the cache,
the depth is 4 and the fetch succeeds, and `crawl` panics at `safeCache.Add`, after
the fetch, having stored nothing and started no goroutine. -/
theorem crawl_panics_on_zero_cache :
    Go.SafeCache.Get Go.SafeCache.zero "https://golang.org/" = ("", false) ∧
    (mainFetcher.Fetch "https://golang.org/").err = none ∧
    Go.crawl "https://golang.org/" 4 mainFetcher Go.SafeCache.zero =
      Go.Outcome.panicked [Ev.get "https://golang.org/", Ev.fetch "https://golang.org/",
        Ev.ok "https://golang.org/" "The Go Programming Language"] := by
  refine ⟨rfl, by decide, ?_⟩
  have he : (mainFetcher.Fetch "https://golang.org/").err = none := by decide
  have hb : (mainFetcher.Fetch "https://golang.org/").body = "The Go Programming Language" := by
    decide
  simp [Go.crawl, Go.SafeCache.Get, Go.SafeCache.Add, he, hb]

/-- C7, amended (successful fetch on a made cache). For a cache whose map was made,
with `depth > 0`, no entry for `url` in the cache and `Fetch(url)` returning
`(body, links)` with a nil error, a call of `crawl` returns and ends with the cache
`Add url body`: `url` maps to `body` and every other key is as before; it starts one
goroutine per element of `links`, in the order of `links`, each with depth
`depth - 1`; and in a crawl these goroutines are new `crawl` tasks added, in that
order, to the pool that shares the cache and the fetcher. -/
theorem crawl_fetch_success (url : String) (depth : Int) (fetcher : Fetcher) (c : SafeCache)
    (body : String) (links : List String) (hd : 0 < depth) (hc : c.cache url = none)
    (hf : fetcher.Fetch url = ⟨body, links, none⟩) :
    Go.crawl url depth fetcher (Go.SafeCache.made c) =
      Go.Outcome.returned (Go.SafeCache.made (c.Add url body))
        ([Ev.get url, Ev.fetch url, Ev.ok url body, Ev.add url body]
          ++ links.map (fun l => Ev.spawn l (depth - 1))) ∧
    (crawl url depth fetcher c).cache = c.Add url body ∧
    (crawl url depth fetcher c).cache.cache url = some body ∧
    (∀ u, u ≠ url → (crawl url depth fetcher c).cache.cache u = c.cache u) ∧
    spawnsOf (crawl url depth fetcher c).trace = links.map (fun l => (l, depth - 1)) ∧
    fetchCount url (crawl url depth fetcher c).trace = 1 ∧
    ∀ (pool : List Task) (tr : List Ev) (i : Nat), pool[i]? = some (Task.start url depth) →
      ∃ s', stepAtomic fetcher ⟨c, pool, tr⟩ i = some s' ∧ s'.cache = c.Add url body ∧
        s'.pool = pool.set i Task.done ++ links.map (fun l => Task.start l (depth - 1)) := by
  have he : (fetcher.Fetch url).err = none := by rw [hf]
  have hcr := crawl_fetched hd hc he
  rw [hf] at hcr
  simp only at hcr
  have hsp : spawnsOf (crawl url depth fetcher c).trace = links.map (fun l => (l, depth - 1)) := by
    rw [hcr]
    simp [spawnsOf, spawnsOf_map_spawn]
  refine ⟨by rw [crawl_made, hcr], by rw [hcr], by rw [hcr]; simp [SafeCache.Add], ?_, hsp,
    ?_, ?_⟩
  · intro u hu
    rw [hcr]
    simp [SafeCache.Add, hu]
  · rw [hcr]
    simp [fetchCount, fetchesOf, fetchesOf_map_spawn]
  · intro pool tr i hi
    refine ⟨_, by simp only [stepAtomic, hi]; rfl, by rw [hcr], ?_⟩
    simp only [hsp, List.map_map]
    rfl

theorem crawl_fetch_success_witness :
    Go.crawl "https://golang.org/" 4 (FakeFetcher.toFetcher FakeFetcherImpl)
      (Go.SafeCache.made SafeCache.empty) =
      Go.Outcome.returned
        (Go.SafeCache.made (SafeCache.empty.Add "https://golang.org/"
          "The Go Programming Language"))
        ([Ev.get "https://golang.org/", Ev.fetch "https://golang.org/",
          Ev.ok "https://golang.org/" "The Go Programming Language",
          Ev.add "https://golang.org/" "The Go Programming Language"]
          ++ ["https://golang.org/pkg/", "https://golang.org/cmd/"].map
            (fun l => Ev.spawn l (4 - 1))) ∧
    spawnsOf (crawl "https://golang.org/" 4 (FakeFetcher.toFetcher FakeFetcherImpl)
      SafeCache.empty).trace =
      [("https://golang.org/pkg/", 3), ("https://golang.org/cmd/", 3)] :=
  ⟨(crawl_fetch_success "https://golang.org/" 4 (FakeFetcher.toFetcher FakeFetcherImpl)
    SafeCache.empty "The Go Programming Language"
    ["https://golang.org/pkg/", "https://golang.org/cmd/"] (by decide) rfl (by decide)).1,
   (crawl_fetch_success "https://golang.org/" 4 (FakeFetcher.toFetcher FakeFetcherImpl)
    SafeCache.empty "The Go Programming Language"
    ["https://golang.org/pkg/", "https://golang.org/cmd/"] (by decide) rfl
    (by decide)).2.2.2.2.1⟩

/-! ## Properties of a whole crawl -/

/-- C2 (depth bound). In a crawl of `root` with budget `depth`, after any schedule of
the goroutines: every URL on which `Fetch` was called, and every URL in the cache, is
reached from `root` by a chain of fewer than `depth` links through pages whose fetch
succeeds; and every goroutine was started with a depth that is not negative. -/
theorem crawl_depth_bound (fetcher : Fetcher) (root : String) (depth : Int)
    (sched : List Nat) :
    (∀ u, Ev.fetch u ∈ (run fetcher (State.init root depth) sched).trace →
      ∃ k : Nat, (k : Int) < depth ∧ ReachIn fetcher root k u) ∧
    (∀ u b, (run fetcher (State.init root depth) sched).cache.cache u = some b →
      ∃ k : Nat, (k : Int) < depth ∧ ReachIn fetcher root k u) ∧
    (∀ u d, Ev.spawn u d ∈ (run fetcher (State.init root depth) sched).trace → 0 ≤ d) := by
  obtain ⟨_, hfetch, hcache, hspawn⟩ := Inv_run fetcher root depth sched
  exact ⟨hfetch, fun u b h => (hcache u b h).1, hspawn⟩

theorem crawl_depth_bound_witness :
    Ev.fetch "https://golang.org/pkg/" ∈ (run mainFetcher mainInit [0, 0, 0, 0, 0, 1, 1]).trace ∧
    ∃ k : Nat, (k : Int) < 4 ∧ ReachIn mainFetcher "https://golang.org/" k "https://golang.org/pkg/" :=
  ⟨by decide,
   (crawl_depth_bound mainFetcher "https://golang.org/" 4 [0, 0, 0, 0, 0, 1, 1]).1
     "https://golang.org/pkg/" (by decide)⟩

/-- C3 (termination). For every fetcher, root and integer depth: a strict execution
of the crawl has at most `cost fetcher depth.toNat root` steps and at most that many
goroutines besides the root one; while some goroutine has not returned, some goroutine
can move (no deadlock); and some execution ends with every goroutine returned. The
bound `cost` is defined by recursion on the depth. -/
theorem crawl_terminates (fetcher : Fetcher) (root : String) (depth : Int) :
    (∀ sched s', exec fetcher (State.init root depth) sched = some s' →
      sched.length ≤ cost fetcher depth.toNat root ∧
      s'.pool.length ≤ 1 + cost fetcher depth.toNat root) ∧
    (∀ sched, ¬ (run fetcher (State.init root depth) sched).allDone →
      ∃ i s', step fetcher (run fetcher (State.init root depth) sched) i = some s') ∧
    (∃ sched s', exec fetcher (State.init root depth) sched = some s' ∧ s'.allDone) := by
  have h0 : State.cost fetcher (State.init root depth) = cost fetcher depth.toNat root := by
    simp [State.cost, State.init, Task.cost]
  refine ⟨?_, fun sched h => progress fetcher _ h, exists_exec_allDone fetcher _ _ le_rfl⟩
  intro sched s' h
  have := exec_cost h
  rw [h0] at this
  simp only [State.init, List.length_singleton] at this
  omega

theorem crawl_terminates_witness :
    ∃ s', exec mainFetcher (State.init "https://golang.org/" 4) [0, 0, 0] = some s' ∧
      ([0, 0, 0] : List Nat).length ≤ cost mainFetcher (4 : Int).toNat "https://golang.org/" ∧
      cost mainFetcher (4 : Int).toNat "https://golang.org/" = 96 :=
  ⟨_, rfl, ((crawl_terminates mainFetcher "https://golang.org/" 4).1 [0, 0, 0] _ rfl).1,
   by decide⟩

/-! ## Cache consistency -/

theorem pending_keep {u : String} {pool z : List Task} {i : Nat} {t x : Task}
    (h : ∃ d b urls, Task.fetched u d b urls ∈ pool) (hi : pool[i]? = some t)
    (hne : ∀ d b urls, t ≠ Task.fetched u d b urls) :
    ∃ d b urls, Task.fetched u d b urls ∈ pool.set i x ++ z := by
  obtain ⟨d, b, urls, hm⟩ := h
  exact ⟨d, b, urls, List.mem_append_left _ (mem_set_of_ne hm hi (fun e => hne d b urls e.symm))⟩

/-- Every URL fetched with success is in the cache, or the goroutine that fetched it
is about to add it. -/
theorem pending_step {fetcher : Fetcher} (s : State) (i : Nat) (s' : State)
    (hinv : ∀ u, Ev.fetch u ∈ s.trace → (fetcher.Fetch u).err = none →
      (s.cache.cache u).isSome ∨ ∃ d b urls, Task.fetched u d b urls ∈ s.pool)
    (h : step fetcher s i = some s') :
    ∀ u, Ev.fetch u ∈ s'.trace → (fetcher.Fetch u).err = none →
      (s'.cache.cache u).isSome ∨ ∃ d b urls, Task.fetched u d b urls ∈ s'.pool := by
  obtain ⟨t, a, ht, ha, rfl⟩ := step_some h
  intro u hu he
  cases t with
  | start x d =>
    simp only [act] at ha
    have key : ∀ a' : Action, a'.cache = s.cache → (Ev.fetch u ∈ s.trace ++ a'.events → Ev.fetch u ∈ s.trace) →
        Ev.fetch u ∈ s.trace ++ a'.events →
        (a'.cache.cache u).isSome ∨ ∃ d b urls, Task.fetched u d b urls ∈ s.pool.set i a'.task ++ a'.started := by
      intro a' hc hev hu'
      rw [hc]
      rcases hinv u (hev hu') he with h1 | h1
      · exact Or.inl h1
      · exact Or.inr (pending_keep h1 ht (by intro d b urls; simp))
    split at ha
    · cases ha; exact key _ rfl (by simp) hu
    · split at ha <;> cases ha <;> exact key _ rfl (by simp) hu
  | got x d =>
    simp only [act] at ha
    split at ha
    · rename_i e hx
      cases ha
      simp at hu
      rcases hu with hu | hu
      · rcases hinv u hu he with h1 | h1
        · exact Or.inl h1
        · exact Or.inr (pending_keep h1 ht (by intro d b urls; simp))
      · subst hu
        rw [hx] at he
        cases he
    · cases ha
      simp at hu
      rcases hu with hu | hu
      · rcases hinv u hu he with h1 | h1
        · exact Or.inl h1
        · exact Or.inr (pending_keep h1 ht (by intro d b urls; simp))
      · subst hu
        exact Or.inr ⟨d, (fetcher.Fetch u).body, (fetcher.Fetch u).urls,
          List.mem_append_left _ (mem_set_self ht)⟩
  | fetched x d b urls =>
    simp only [act] at ha
    cases ha
    simp at hu
    by_cases hxu : u = x
    · subst hxu
      left
      simp [SafeCache.Add]
    · rcases hinv u hu he with h1 | h1
      · left
        simpa [SafeCache.Add, hxu] using h1
      · exact Or.inr (pending_keep h1 ht (by
          intro d' b' urls' e
          cases e
          exact hxu rfl))
  | spawning x d rest =>
    have key : ∀ a' : Action, a'.cache = s.cache → (Ev.fetch u ∈ s.trace ++ a'.events → Ev.fetch u ∈ s.trace) →
        Ev.fetch u ∈ s.trace ++ a'.events →
        (a'.cache.cache u).isSome ∨ ∃ d b urls, Task.fetched u d b urls ∈ s.pool.set i a'.task ++ a'.started := by
      intro a' hc hev hu'
      rw [hc]
      rcases hinv u (hev hu') he with h1 | h1
      · exact Or.inl h1
      · exact Or.inr (pending_keep h1 ht (by intro d b urls; simp))
    cases rest <;> simp only [act] at ha <;> cases ha <;> exact key _ rfl (by simp) hu
  | done => simp [act] at ha

/-- C8 (cache consistency). In a crawl started on an empty cache, after any schedule:
every URL in the cache is mapped to the body that `Fetch` returns for it, and its
fetch is a success; no URL whose `Fetch` fails is in the cache; and once every
goroutine has returned, every URL that was fetched with success is in the cache with
that body. -/
theorem crawl_cache_consistent (fetcher : Fetcher) (root : String) (depth : Int)
    (sched : List Nat) :
    (∀ u b, (run fetcher (State.init root depth) sched).cache.cache u = some b →
      (fetcher.Fetch u).err = none ∧ b = (fetcher.Fetch u).body) ∧
    (∀ u, (fetcher.Fetch u).err ≠ none →
      (run fetcher (State.init root depth) sched).cache.cache u = none) ∧
    ((run fetcher (State.init root depth) sched).allDone →
      ∀ u, Ev.fetch u ∈ (run fetcher (State.init root depth) sched).trace →
        (fetcher.Fetch u).err = none →
        (run fetcher (State.init root depth) sched).cache.cache u =
          some (fetcher.Fetch u).body) := by
  obtain ⟨_, _, hcache, _⟩ := Inv_run fetcher root depth sched
  refine ⟨fun u b h => (hcache u b h).2, ?_, ?_⟩
  · intro u hu
    cases hc : (run fetcher (State.init root depth) sched).cache.cache u with
    | none => rfl
    | some b => exact absurd (hcache u b hc).2.1 hu
  · intro hdone u hu he
    have hpend := run_invariant
      (fun s => ∀ u, Ev.fetch u ∈ s.trace → (fetcher.Fetch u).err = none →
        (s.cache.cache u).isSome ∨ ∃ d b urls, Task.fetched u d b urls ∈ s.pool)
      pending_step (State.init root depth) (by intro u hu; simp [State.init] at hu) sched
    rcases hpend u hu he with h1 | ⟨d, b, urls, hm⟩
    · obtain ⟨b, hb⟩ := Option.isSome_iff_exists.mp h1
      rw [hb, (hcache u b hb).2.2]
    · cases hdone _ hm

theorem crawl_cache_consistent_witness :
    (run mainFetcher mainInit [0, 0, 0, 0, 0, 1, 1, 1]).cache.cache "https://golang.org/" =
      some "The Go Programming Language" ∧
    (run mainFetcher mainInit [0, 0, 0, 0, 0, 1, 1, 1]).cache.cache "https://golang.org/cmd/" =
      none :=
  ⟨rfl, (crawl_cache_consistent mainFetcher "https://golang.org/" 4 [0, 0, 0, 0, 0, 1, 1, 1]).2.1
    "https://golang.org/cmd/" (by decide)⟩

/-! ## At-most-once fetch -/

/-- C1 (at-most-once fetch) fails on the program of `ConcurrencyMain`: when the
goroutines run to completion one at a time in creation order, `Fetch` is called twice
on `https://golang.org/cmd/`, whose fetch fails and which is therefore never cached;
every goroutine has returned at the end of that schedule. It fails for a page whose
fetch succeeds as well: when two goroutines for the page `a` both read the cache
before either writes it, `Fetch` is called twice on `a`. -/
theorem crawl_fetches_url_twice :
    fetchCount "https://golang.org/cmd/" (runAtomic mainFetcher mainInit mainSchedule).trace = 2 ∧
    (runAtomic mainFetcher mainInit mainSchedule).allDone ∧
    fetchCount "a" (run twinFetcher (State.init "root" 2) twinSchedule).trace = 2 ∧
    (twinFetcher.Fetch "a").err = none ∧
    (run twinFetcher (State.init "root" 2) twinSchedule).allDone := by
  refine ⟨by decide, ?_, by decide, by decide, ?_⟩
  · intro t ht
    have : (runAtomic mainFetcher mainInit mainSchedule).pool = List.replicate 11 Task.done := by
      decide
    rw [this] at ht
    exact List.eq_of_mem_replicate ht
  · intro t ht
    have : (run twinFetcher (State.init "root" 2) twinSchedule).pool =
        List.replicate 3 Task.done := by
      decide
    rw [this] at ht
    exact List.eq_of_mem_replicate ht

/-! ## Cycle safety -/

theorem cycle_fetch_root (root a b1 b2 : String) :
    (cycleFetcher root a b1 b2).Fetch root = ⟨b1, [a], none⟩ := by
  simp [cycleFetcher, FakeFetcher.toFetcher, FakeFetcher.Fetch, FakeFetcher.find]

theorem cycle_fetch_a {root a : String} (b1 b2 : String) (hne : root ≠ a) :
    (cycleFetcher root a b1 b2).Fetch a = ⟨b2, [root], none⟩ := by
  simp [cycleFetcher, FakeFetcher.toFetcher, FakeFetcher.Fetch, FakeFetcher.find, Ne.symm hne]

theorem cycle_get_empty (u : String) : SafeCache.empty.Get u = ("", false) := by
  simp [SafeCache.Get, SafeCache.empty]

theorem cycle_get1 {root a : String} (b1 : String) (hne : root ≠ a) :
    (cycleCache1 root b1).Get a = ("", false) := by
  simp [SafeCache.Get, cycleCache1, SafeCache.Add, SafeCache.empty, Ne.symm hne]

theorem cycle_get2 {root a : String} (b1 b2 : String) (hne : root ≠ a) :
    (cycleCache2 root a b1 b2).Get root = (b1, true) := by
  simp [SafeCache.Get, cycleCache2, cycleCache1, SafeCache.Add, SafeCache.empty, hne]

/-- In the crawl of the cycle only one goroutine can move at a time, and its step
leads to the next state of the chain. -/
theorem cycle_step {root a : String} (b1 b2 : String) (hne : root ≠ a) (k i : Nat)
    (s' : State) (h : step (cycleFetcher root a b1 b2) (cycleChain root a b1 b2 k) i = some s') :
    k < 9 ∧ s' = cycleChain root a b1 b2 (k + 1) := by
  have hf1 := cycle_fetch_root root a b1 b2
  have hf2 := cycle_fetch_a b1 b2 hne
  have hg0 := cycle_get_empty root
  have hg1 := cycle_get1 b1 hne
  have hg2 := cycle_get2 b1 b2 hne
  simp only [cycleCache1, cycleCache2] at hg1 hg2
  rcases k with _ | _ | _ | _ | _ | _ | _ | _ | _ | k
  all_goals
    rcases i with _ | _ | _ | i
    all_goals
      simp [step, cycleChain, act, afterLoop, hf1, hf2, hg0, hg1, hg2, cycleCache1,
        cycleCache2] at h
  all_goals
    subst h
    refine ⟨by omega, ?_⟩
    simp [cycleChain, cycleCache1, cycleCache2]

theorem cycle_run {root a : String} (b1 b2 : String) (hne : root ≠ a) (sched : List Nat) :
    ∀ k, ∃ j, run (cycleFetcher root a b1 b2) (cycleChain root a b1 b2 k) sched =
      cycleChain root a b1 b2 j := by
  induction sched with
  | nil => exact fun k => ⟨k, rfl⟩
  | cons i sched ih =>
    intro k
    simp only [run]
    cases h : step (cycleFetcher root a b1 b2) (cycleChain root a b1 b2 k) i with
    | none => simpa using ih k
    | some s' =>
      obtain ⟨_, rfl⟩ := cycle_step b1 b2 hne k i s' h
      simpa using ih (k + 1)

theorem cycle_exec {root a : String} (b1 b2 : String) (hne : root ≠ a) (sched : List Nat) :
    ∀ k s', exec (cycleFetcher root a b1 b2) (cycleChain root a b1 b2 k) sched = some s' →
      k + sched.length ≤ 9 ∨ sched = [] := by
  induction sched with
  | nil => exact fun _ _ _ => Or.inr rfl
  | cons i sched ih =>
    intro k s' h
    simp only [exec] at h
    cases hs : step (cycleFetcher root a b1 b2) (cycleChain root a b1 b2 k) i with
    | none => simp [hs] at h
    | some s1 =>
      simp only [hs] at h
      obtain ⟨hk, rfl⟩ := cycle_step b1 b2 hne k i s1 hs
      rcases ih (k + 1) s' h with h1 | h1
      · left
        simp only [List.length_cons]
        omega
      · left
        subst h1
        simp only [List.length_cons, List.length_nil]
        omega

theorem cycle_allDone (root a b1 b2 : String) (j : Nat)
    (h : (cycleChain root a b1 b2 j).allDone) :
    cycleChain root a b1 b2 j = cycleChain root a b1 b2 9 := by
  rcases j with _ | _ | _ | _ | _ | _ | _ | _ | _ | j
  all_goals first
    | rfl
    | (exfalso; simp [State.allDone, cycleChain] at h)

/-- C9 (cycle safety). For the fetcher of the cycle `root → [a]`, `a → [root]` with
`root ≠ a`, the crawl `crawl(root, 5, ...)` on an empty cache terminates: a strict
execution has at most 9 steps and some execution ends with every goroutine returned.
Whatever the schedule, once every goroutine has returned `Fetch` was called exactly
once on `root` and exactly once on `a` and on nothing else, and the keys of the cache
are exactly `root` and `a`. -/
theorem cycle_safety (root a b1 b2 : String) (hne : root ≠ a) :
    (∀ sched s', exec (cycleFetcher root a b1 b2) (State.init root 5) sched = some s' →
      sched.length ≤ 9) ∧
    (∃ sched s', exec (cycleFetcher root a b1 b2) (State.init root 5) sched = some s' ∧
      s'.allDone) ∧
    (∀ sched, (run (cycleFetcher root a b1 b2) (State.init root 5) sched).allDone →
      fetchCount root (run (cycleFetcher root a b1 b2) (State.init root 5) sched).trace = 1 ∧
      fetchCount a (run (cycleFetcher root a b1 b2) (State.init root 5) sched).trace = 1 ∧
      fetchesOf (run (cycleFetcher root a b1 b2) (State.init root 5) sched).trace = [root, a] ∧
      ∀ u, ((run (cycleFetcher root a b1 b2) (State.init root 5) sched).cache.cache u).isSome
        ↔ u = root ∨ u = a) := by
  have h0 : State.init root 5 = cycleChain root a b1 b2 0 := rfl
  refine ⟨?_, exists_exec_allDone _ _ _ le_rfl, ?_⟩
  · intro sched s' h
    rw [h0] at h
    rcases cycle_exec b1 b2 hne sched 0 s' h with h1 | h1
    · omega
    · simp [h1]
  · intro sched hdone
    obtain ⟨j, hj⟩ := cycle_run b1 b2 hne sched 0
    rw [h0, hj] at hdone ⊢
    rw [cycle_allDone root a b1 b2 j hdone]
    refine ⟨?_, ?_, ?_, ?_⟩
    · simp [fetchCount, fetchesOf, cycleChain, hne]
    · simp [fetchCount, fetchesOf, cycleChain, Ne.symm hne]
    · simp [fetchesOf, cycleChain]
    · intro u
      simp only [cycleChain, cycleCache2, cycleCache1, SafeCache.Add, SafeCache.empty]
      by_cases h1 : u = a
      · simp [h1]
      · by_cases h2 : u = root
        · simp [h2, hne]
        · simp [h1, h2]

theorem cycle_safety_witness :
    "root" ≠ "A" ∧
    ∀ sched, (run (cycleFetcher "root" "A" "r" "a") (State.init "root" 5) sched).allDone →
      fetchesOf (run (cycleFetcher "root" "A" "r" "a") (State.init "root" 5) sched).trace =
        ["root", "A"] :=
  ⟨by decide, fun sched h =>
    ((cycle_safety "root" "A" "r" "a" (by decide)).2.2 sched h).2.2.1⟩

/-! ## Goroutines run one at a time -/

theorem stepAtomic_some {fetcher : Fetcher} {s s' : State} {i : Nat}
    (h : stepAtomic fetcher s i = some s') :
    ∃ x d, s.pool[i]? = some (Task.start x d) ∧
      s' = ⟨(crawl x d fetcher s.cache).cache,
            s.pool.set i Task.done ++
              (spawnsOf (crawl x d fetcher s.cache).trace).map (fun p => Task.start p.1 p.2),
            s.trace ++ (crawl x d fetcher s.cache).trace⟩ := by
  unfold stepAtomic at h
  split at h
  · rename_i x d hx
    simp only [Option.some.injEq] at h
    exact ⟨x, d, hx, h.symm⟩
  · cases h

theorem stepAtomic_start (fetcher : Fetcher) {s : State} {i : Nat} {x : String} {d : Int}
    (h : s.pool[i]? = some (Task.start x d)) :
    stepAtomic fetcher s i =
      some ⟨(crawl x d fetcher s.cache).cache,
            s.pool.set i Task.done ++
              (spawnsOf (crawl x d fetcher s.cache).trace).map (fun p => Task.start p.1 p.2),
            s.trace ++ (crawl x d fetcher s.cache).trace⟩ := by
  simp only [stepAtomic, h]

theorem runAtomic_append (fetcher : Fetcher) (s : State) (a b : List Nat) :
    runAtomic fetcher s (a ++ b) = runAtomic fetcher (runAtomic fetcher s a) b := by
  induction a generalizing s with
  | nil => rfl
  | cons i a ih => simp [runAtomic, ih]

theorem runAtomic_invariant {fetcher : Fetcher} (P : State → Prop)
    (hstep : ∀ s i s', P s → stepAtomic fetcher s i = some s' → P s')
    (s : State) (h0 : P s) (sched : List Nat) : P (runAtomic fetcher s sched) := by
  induction sched generalizing s with
  | nil => exact h0
  | cons i sched ih =>
    simp only [runAtomic]
    apply ih
    cases h : stepAtomic fetcher s i with
    | none => simpa using h0
    | some s' => simpa using hstep s i s' h0 h

/-- The four ways in which a call of `crawl` ends. -/
theorem crawl_cases (x : String) (d : Int) (fetcher : Fetcher) (c : SafeCache) :
    (d ≤ 0 ∧ crawl x d fetcher c = ⟨c, []⟩) ∨
    (0 < d ∧ ∃ b, c.cache x = some b ∧ crawl x d fetcher c = ⟨c, [Ev.get x, Ev.hit x b]⟩) ∨
    (0 < d ∧ c.cache x = none ∧ ∃ e, (fetcher.Fetch x).err = some e ∧
      crawl x d fetcher c = ⟨c, [Ev.get x, Ev.fetch x, Ev.err e]⟩) ∨
    (0 < d ∧ c.cache x = none ∧ (fetcher.Fetch x).err = none ∧
      crawl x d fetcher c =
        ⟨c.Add x (fetcher.Fetch x).body,
         [Ev.get x, Ev.fetch x, Ev.ok x (fetcher.Fetch x).body,
          Ev.add x (fetcher.Fetch x).body]
           ++ (fetcher.Fetch x).urls.map (fun v => Ev.spawn v (d - 1))⟩) := by
  by_cases hd : d ≤ 0
  · exact Or.inl ⟨hd, crawl_exhausted x fetcher c hd⟩
  · have hd' : 0 < d := not_le.mp hd
    cases hc : c.cache x with
    | some b => exact Or.inr (Or.inl ⟨hd', b, rfl, crawl_hit fetcher hd' hc⟩)
    | none =>
      cases he : (fetcher.Fetch x).err with
      | some e => exact Or.inr (Or.inr (Or.inl ⟨hd', rfl, e, rfl, crawl_failed hd' hc he⟩))
      | none => exact Or.inr (Or.inr (Or.inr ⟨hd', rfl, rfl, crawl_fetched hd' hc he⟩))

theorem spawns_fetched (x : String) (d : Int) (b : String) (urls : List String) :
    (spawnsOf ([Ev.get x, Ev.fetch x, Ev.ok x b, Ev.add x b]
      ++ urls.map (fun v => Ev.spawn v (d - 1)))).map (fun p => Task.start p.1 p.2) =
    urls.map (fun v => Task.start v (d - 1)) := by
  simp [spawnsOf, spawnsOf_map_spawn]

/-- A goroutine for a URL whose fetch fails changes neither the cache nor the pool. -/
theorem crawl_failing_noop {fetcher : Fetcher} {u : String} (d : Int) (c : SafeCache)
    (hfail : (fetcher.Fetch u).err ≠ none) :
    (crawl u d fetcher c).cache = c ∧ spawnsOf (crawl u d fetcher c).trace = [] := by
  rcases crawl_cases u d fetcher c with ⟨_, h⟩ | ⟨_, b, _, h⟩ | ⟨_, _, e, _, h⟩ | ⟨_, _, he, _⟩
  · rw [h]; exact ⟨rfl, rfl⟩
  · rw [h]; exact ⟨rfl, rfl⟩
  · rw [h]; exact ⟨rfl, rfl⟩
  · exact absurd he hfail

/-! ## Pools that differ by goroutines for one URL -/

theorem Skips.refl (u : String) (l : List Task) : Skips u l l := by
  induction l with
  | nil => exact Skips.nil
  | cons t l ih => exact Skips.keep t ih

theorem Skips.append {u : String} {a a' b b' : List Task} (h1 : Skips u a a')
    (h2 : Skips u b b') : Skips u (a ++ b) (a' ++ b') := by
  induction h1 with
  | nil => simpa using h2
  | keep t _ ih => exact Skips.keep t ih
  | dropStart d _ ih => exact Skips.dropStart d ih
  | dropDone _ ih => exact Skips.dropDone ih

theorem Skips.links (u : String) (d : Int) (urls : List String) :
    Skips u (urls.map (fun v => Task.start v d))
      ((urls.filter (fun v => decide (v ≠ u))).map (fun v => Task.start v d)) := by
  induction urls with
  | nil => exact Skips.nil
  | cons v urls ih =>
    by_cases hv : v = u
    · subst hv
      simpa using Skips.dropStart d ih
    · simpa [hv] using Skips.keep (Task.start v d) ih

/-- A goroutine of the larger pool is a goroutine of the smaller one, at an index
where both pools can be updated alike, or it is one of those left out. -/
theorem Skips.forward {u : String} {p q : List Task} (h : Skips u p q) :
    ∀ (i : Nat) (t : Task), p[i]? = some t →
      (∃ j, q[j]? = some t ∧ ∀ x, Skips u (p.set i x) (q.set j x)) ∨
      ((t = Task.done ∨ ∃ d, t = Task.start u d) ∧ Skips u (p.set i Task.done) q) := by
  induction h with
  | nil => intro i t hi; simp at hi
  | keep t0 hpq ih =>
    intro i t hi
    cases i with
    | zero =>
      simp at hi
      subst hi
      exact Or.inl ⟨0, by simp, fun x => by simpa using Skips.keep x hpq⟩
    | succ i =>
      rcases ih i t (by simpa using hi) with ⟨j, hj, hset⟩ | ⟨ht, hset⟩
      · exact Or.inl ⟨j + 1, by simpa using hj, fun x => by simpa using Skips.keep t0 (hset x)⟩
      · exact Or.inr ⟨ht, by simpa using Skips.keep t0 hset⟩
  | dropStart d hpq ih =>
    intro i t hi
    cases i with
    | zero =>
      simp at hi
      subst hi
      exact Or.inr ⟨Or.inr ⟨d, rfl⟩, by simpa using Skips.dropDone hpq⟩
    | succ i =>
      rcases ih i t (by simpa using hi) with ⟨j, hj, hset⟩ | ⟨ht, hset⟩
      · exact Or.inl ⟨j, hj, fun x => by simpa using Skips.dropStart d (hset x)⟩
      · exact Or.inr ⟨ht, by simpa using Skips.dropStart d hset⟩
  | dropDone hpq ih =>
    intro i t hi
    cases i with
    | zero =>
      simp at hi
      subst hi
      exact Or.inr ⟨Or.inl rfl, by simpa using Skips.dropDone hpq⟩
    | succ i =>
      rcases ih i t (by simpa using hi) with ⟨j, hj, hset⟩ | ⟨ht, hset⟩
      · exact Or.inl ⟨j, hj, fun x => by simpa using Skips.dropDone (hset x)⟩
      · exact Or.inr ⟨ht, by simpa using Skips.dropDone hset⟩

/-- A goroutine of the smaller pool is a goroutine of the larger one, at an index
where both pools can be updated alike. -/
theorem Skips.backward {u : String} {p q : List Task} (h : Skips u p q) :
    ∀ (j : Nat) (t : Task), q[j]? = some t →
      ∃ i, p[i]? = some t ∧ ∀ x, Skips u (p.set i x) (q.set j x) := by
  induction h with
  | nil => intro j t hj; simp at hj
  | keep t0 hpq ih =>
    intro j t hj
    cases j with
    | zero =>
      simp at hj
      subst hj
      exact ⟨0, by simp, fun x => by simpa using Skips.keep x hpq⟩
    | succ j =>
      obtain ⟨i, hi, hset⟩ := ih j t (by simpa using hj)
      exact ⟨i + 1, by simpa using hi, fun x => by simpa using Skips.keep t0 (hset x)⟩
  | dropStart d hpq ih =>
    intro j t hj
    obtain ⟨i, hi, hset⟩ := ih j t hj
    exact ⟨i + 1, by simpa using hi, fun x => by simpa using Skips.dropStart d (hset x)⟩
  | dropDone hpq ih =>
    intro j t hj
    obtain ⟨i, hi, hset⟩ := ih j t hj
    exact ⟨i + 1, by simpa using hi, fun x => by simpa using Skips.dropDone (hset x)⟩

theorem Skips.mem_right {u : String} {p q : List Task} (h : Skips u p q) :
    ∀ t ∈ q, t ∈ p := by
  induction h with
  | nil => intro t ht; exact ht
  | keep t0 _ ih =>
    intro t ht
    rcases List.mem_cons.mp ht with h1 | h1
    · simp [h1]
    · exact List.mem_cons_of_mem _ (ih t h1)
  | dropStart d _ ih => intro t ht; exact List.mem_cons_of_mem _ (ih t ht)
  | dropDone _ ih => intro t ht; exact List.mem_cons_of_mem _ (ih t ht)

theorem Skips.mem_left {u : String} {p q : List Task} (h : Skips u p q) :
    ∀ t ∈ p, t ∈ q ∨ t = Task.done ∨ ∃ d, t = Task.start u d := by
  induction h with
  | nil => intro t ht; simp at ht
  | keep t0 _ ih =>
    intro t ht
    rcases List.mem_cons.mp ht with h1 | h1
    · simp [h1]
    · rcases ih t h1 with h2 | h2
      · exact Or.inl (List.mem_cons_of_mem _ h2)
      · exact Or.inr h2
  | dropStart d _ ih =>
    intro t ht
    rcases List.mem_cons.mp ht with h1 | h1
    · exact Or.inr (Or.inr ⟨d, h1⟩)
    · exact ih t h1
  | dropDone _ ih =>
    intro t ht
    rcases List.mem_cons.mp ht with h1 | h1
    · exact Or.inr (Or.inl h1)
    · exact ih t h1

/-! ## A failing link can be left out -/

theorem dropLink_err (fetcher : Fetcher) (p u x : String) :
    ((dropLink fetcher p u).Fetch x).err = (fetcher.Fetch x).err := by
  simp only [dropLink]
  split <;> rfl

theorem dropLink_body (fetcher : Fetcher) (p u x : String) :
    ((dropLink fetcher p u).Fetch x).body = (fetcher.Fetch x).body := by
  simp only [dropLink]
  split <;> rfl

theorem dropLink_links (fetcher : Fetcher) (p u x : String) (d : Int) :
    Skips u ((fetcher.Fetch x).urls.map (fun v => Task.start v d))
      (((dropLink fetcher p u).Fetch x).urls.map (fun v => Task.start v d)) := by
  simp only [dropLink]
  split
  · exact Skips.links u d _
  · exact Skips.refl u _

/-- One call of `crawl` under the two fetchers: the same cache, and the same
goroutines started but for those for `u` that the removed link would have started. -/
theorem crawl_dropLink (fetcher : Fetcher) (p u x : String) (d : Int) (c : SafeCache) :
    (crawl x d (dropLink fetcher p u) c).cache = (crawl x d fetcher c).cache ∧
    Skips u ((spawnsOf (crawl x d fetcher c).trace).map (fun q => Task.start q.1 q.2))
      ((spawnsOf (crawl x d (dropLink fetcher p u) c).trace).map
        (fun q => Task.start q.1 q.2)) := by
  rcases crawl_cases x d fetcher c with
    ⟨hd, h⟩ | ⟨hd, b, hc, h⟩ | ⟨hd, hc, e, he, h⟩ | ⟨hd, hc, he, h⟩
  · rw [h, crawl_exhausted x _ c hd]
    exact ⟨rfl, Skips.nil⟩
  · rw [h, crawl_hit _ hd hc]
    exact ⟨rfl, Skips.nil⟩
  · rw [h, crawl_failed hd hc (by rw [dropLink_err]; exact he)]
    exact ⟨rfl, Skips.nil⟩
  · rw [h, crawl_fetched hd hc (by rw [dropLink_err]; exact he), dropLink_body,
      spawns_fetched, spawns_fetched]
    exact ⟨rfl, dropLink_links fetcher p u x (d - 1)⟩

theorem sim_forward_step {fetcher : Fetcher} {u : String} (p : String)
    (hfail : (fetcher.Fetch u).err ≠ none) {s s' : State} (hc : s.cache = s'.cache)
    (hp : Skips u s.pool s'.pool) (i : Nat) :
    ∃ sched', (runAtomic fetcher s [i]).cache =
        (runAtomic (dropLink fetcher p u) s' sched').cache ∧
      Skips u (runAtomic fetcher s [i]).pool
        (runAtomic (dropLink fetcher p u) s' sched').pool := by
  cases h : stepAtomic fetcher s i with
  | none => exact ⟨[], by simpa [runAtomic, h] using hc, by simpa [runAtomic, h] using hp⟩
  | some s1 =>
    obtain ⟨x, d, hx, rfl⟩ := stepAtomic_some h
    rcases hp.forward i _ hx with ⟨j, hj, hset⟩ | ⟨ht, hset⟩
    · have h' := stepAtomic_start (dropLink fetcher p u) hj
      obtain ⟨e1, e2⟩ := crawl_dropLink fetcher p u x d s.cache
      refine ⟨[j], ?_, ?_⟩
      · simp only [runAtomic, h, h', Option.getD_some, ← hc, e1]
      · simp only [runAtomic, h, h', Option.getD_some, ← hc]
        exact (hset Task.done).append e2
    · rcases ht with ht | ⟨d', ht⟩
      · cases ht
      · cases ht
        obtain ⟨e1, e2⟩ := crawl_failing_noop d s.cache hfail
        refine ⟨[], ?_, ?_⟩
        · simp only [runAtomic, h, Option.getD_some, e1]
          exact hc
        · simp only [runAtomic, h, Option.getD_some, e2, List.map_nil, List.append_nil]
          exact hset

theorem sim_forward {fetcher : Fetcher} {u : String} (p : String)
    (hfail : (fetcher.Fetch u).err ≠ none) (sched : List Nat) :
    ∀ s s' : State, s.cache = s'.cache → Skips u s.pool s'.pool →
    ∃ sched', (runAtomic fetcher s sched).cache =
        (runAtomic (dropLink fetcher p u) s' sched').cache ∧
      Skips u (runAtomic fetcher s sched).pool
        (runAtomic (dropLink fetcher p u) s' sched').pool := by
  induction sched with
  | nil => exact fun s s' hc hp => ⟨[], hc, hp⟩
  | cons i sched ih =>
    intro s s' hc hp
    obtain ⟨a, ha1, ha2⟩ := sim_forward_step p hfail hc hp i
    obtain ⟨b, hb1, hb2⟩ := ih _ _ ha1 ha2
    refine ⟨a ++ b, ?_, ?_⟩
    · rw [runAtomic_append]
      exact hb1
    · rw [runAtomic_append]
      exact hb2

theorem sim_backward_step (fetcher : Fetcher) (p u : String) {s s' : State}
    (hc : s.cache = s'.cache) (hp : Skips u s.pool s'.pool) (j : Nat) :
    ∃ sched, (runAtomic fetcher s sched).cache =
        (runAtomic (dropLink fetcher p u) s' [j]).cache ∧
      Skips u (runAtomic fetcher s sched).pool
        (runAtomic (dropLink fetcher p u) s' [j]).pool := by
  cases h : stepAtomic (dropLink fetcher p u) s' j with
  | none => exact ⟨[], by simpa [runAtomic, h] using hc, by simpa [runAtomic, h] using hp⟩
  | some s1 =>
    obtain ⟨x, d, hx, rfl⟩ := stepAtomic_some h
    obtain ⟨i, hi, hset⟩ := hp.backward j _ hx
    have h' := stepAtomic_start fetcher hi
    obtain ⟨e1, e2⟩ := crawl_dropLink fetcher p u x d s.cache
    refine ⟨[i], ?_, ?_⟩
    · simp only [runAtomic, h, h', Option.getD_some, ← hc, e1]
    · simp only [runAtomic, h, h', Option.getD_some, ← hc]
      exact (hset Task.done).append e2

theorem sim_backward (fetcher : Fetcher) (p u : String) (sched' : List Nat) :
    ∀ s s' : State, s.cache = s'.cache → Skips u s.pool s'.pool →
    ∃ sched, (runAtomic fetcher s sched).cache =
        (runAtomic (dropLink fetcher p u) s' sched').cache ∧
      Skips u (runAtomic fetcher s sched).pool
        (runAtomic (dropLink fetcher p u) s' sched').pool := by
  induction sched' with
  | nil => exact fun s s' hc hp => ⟨[], hc, hp⟩
  | cons j sched' ih =>
    intro s s' hc hp
    obtain ⟨a, ha1, ha2⟩ := sim_backward_step fetcher p u hc hp j
    obtain ⟨b, hb1, hb2⟩ := ih _ _ ha1 ha2
    refine ⟨a ++ b, ?_, ?_⟩
    · rw [runAtomic_append]
      exact hb1
    · rw [runAtomic_append]
      exact hb2

theorem liveCount_set {l : List Task} {i : Nat} {u : String} {d : Int}
    (hi : l[i]? = some (Task.start u d)) :
    liveCount (l.set i Task.done) + 1 = liveCount l := by
  have h := sum_map_set (g := fun t => if t = Task.done then 0 else 1) Task.done hi
  simp only [reduceCtorEq, if_false, if_true] at h
  simp only [liveCount]
  omega

/-- The goroutines for a URL whose fetch fails can all be run to their end without a
change to the cache. -/
theorem flush_failing {fetcher : Fetcher} {u : String}
    (hfail : (fetcher.Fetch u).err ≠ none) (n : Nat) :
    ∀ s : State, liveCount s.pool ≤ n →
      (∀ t ∈ s.pool, t = Task.done ∨ ∃ d, t = Task.start u d) →
      ∃ sched, (runAtomic fetcher s sched).allDone ∧
        (runAtomic fetcher s sched).cache = s.cache := by
  induction n with
  | zero =>
    intro s hn hall
    refine ⟨[], ?_, rfl⟩
    show ∀ t ∈ s.pool, t = Task.done
    intro t ht
    rcases hall t ht with h1 | ⟨d, h1⟩
    · exact h1
    · subst h1
      obtain ⟨i, hi⟩ := List.getElem?_of_mem ht
      have := liveCount_set hi
      omega
  | succ n ih =>
    intro s hn hall
    by_cases hdone : s.allDone
    · exact ⟨[], hdone, rfl⟩
    · simp only [State.allDone, not_forall] at hdone
      obtain ⟨t, ht, hne⟩ := hdone
      rcases hall t ht with h1 | ⟨d, h1⟩
      · exact absurd h1 hne
      · subst h1
        obtain ⟨i, hi⟩ := List.getElem?_of_mem ht
        have hstep := stepAtomic_start fetcher hi
        obtain ⟨e1, e2⟩ := crawl_failing_noop d s.cache hfail
        rw [e1, e2] at hstep
        simp only [List.map_nil, List.append_nil] at hstep
        have hcount := liveCount_set hi
        obtain ⟨sched, h2, h3⟩ := ih
          ⟨s.cache, s.pool.set i Task.done, s.trace ++ (crawl u d fetcher s.cache).trace⟩
          (by show liveCount (s.pool.set i Task.done) ≤ n; omega)
          (by
            intro t' ht'
            rcases List.mem_or_eq_of_mem_set ht' with h4 | h4
            · exact hall t' h4
            · exact Or.inl h4)
        refine ⟨i :: sched, ?_, ?_⟩
        · simpa [runAtomic, hstep] using h2
        · simpa [runAtomic, hstep] using h3

/-! ## The crawl of `ConcurrencyMain` -/

theorem crawl_cache_mono (x : String) (d : Int) (fetcher : Fetcher) (c : SafeCache)
    {y : String} (h : (c.cache y).isSome) : ((crawl x d fetcher c).cache.cache y).isSome := by
  rcases crawl_cases x d fetcher c with
    ⟨_, e⟩ | ⟨_, b, _, e⟩ | ⟨_, _, _, _, e⟩ | ⟨_, _, _, e⟩
  · rw [e]; exact h
  · rw [e]; exact h
  · rw [e]; exact h
  · rw [e]
    simp only [SafeCache.Add]
    split
    · rfl
    · exact h

theorem crawl_adds {x : String} {d : Int} {fetcher : Fetcher} (c : SafeCache) (hd : 0 < d)
    (he : (fetcher.Fetch x).err = none) : ((crawl x d fetcher c).cache.cache x).isSome := by
  rcases crawl_cases x d fetcher c with
    ⟨hd', _⟩ | ⟨_, b, hc, e⟩ | ⟨_, _, e', he', _⟩ | ⟨_, _, _, e⟩
  · omega
  · rw [e]; simp [hc]
  · rw [he] at he'; cases he'
  · rw [e]; simp [SafeCache.Add]

/-- With goroutines run one at a time, every cache entry is the body of a successful
fetch of its key. -/
theorem atomic_cache_sound {fetcher : Fetcher} (s : State) (i : Nat) (s' : State)
    (hinv : ∀ x b, s.cache.cache x = some b →
      (fetcher.Fetch x).err = none ∧ b = (fetcher.Fetch x).body)
    (h : stepAtomic fetcher s i = some s') :
    ∀ x b, s'.cache.cache x = some b →
      (fetcher.Fetch x).err = none ∧ b = (fetcher.Fetch x).body := by
  obtain ⟨y, d, _, rfl⟩ := stepAtomic_some h
  intro x b hx
  simp only at hx
  rcases crawl_cases y d fetcher s.cache with
    ⟨_, e⟩ | ⟨_, _, _, e⟩ | ⟨_, _, _, _, e⟩ | ⟨_, _, he, e⟩
  · rw [e] at hx; exact hinv x b hx
  · rw [e] at hx; exact hinv x b hx
  · rw [e] at hx; exact hinv x b hx
  · rw [e] at hx
    simp only [SafeCache.Add] at hx
    split at hx
    · rename_i hxy
      subst hxy
      cases hx
      exact ⟨he, rfl⟩
    · exact hinv x b hx

theorem main_cmd_fails :
    (mainFetcher.Fetch "https://golang.org/cmd/").err = some "not found: https://golang.org/cmd/" := by
  decide

theorem main_find_cases {x : String} {res : FakeResult}
    (h : FakeFetcher.find FakeFetcherImpl x = some res) :
    x = "https://golang.org/" ∨ x = "https://golang.org/pkg/" ∨ x = "https://golang.org/pkg/fmt/" ∨ x = "https://golang.org/pkg/os/" := by
  by_cases h1 : x = "https://golang.org/"
  · exact Or.inl h1
  · by_cases h2 : x = "https://golang.org/pkg/"
    · exact Or.inr (Or.inl h2)
    · by_cases h3 : x = "https://golang.org/pkg/fmt/"
      · exact Or.inr (Or.inr (Or.inl h3))
      · by_cases h4 : x = "https://golang.org/pkg/os/"
        · exact Or.inr (Or.inr (Or.inr h4))
        · simp [FakeFetcherImpl, FakeFetcher.find, h1, h2, h3, h4] at h

/-- A goroutine for `cmd/` with depth left prints the error, the page being in no
sound cache. -/
theorem main_cmd_prints {c : SafeCache} {d : Int} (hd : 0 < d)
    (hc : c.cache "https://golang.org/cmd/" = none) :
    mainErr ∈ (crawl "https://golang.org/cmd/" d mainFetcher c).trace := by
  rw [crawl_failed hd hc main_cmd_fails]
  simp [mainErr]

theorem main_cmd_uncached {s : State}
    (hsound : ∀ x b, s.cache.cache x = some b →
      (mainFetcher.Fetch x).err = none ∧ b = (mainFetcher.Fetch x).body) :
    s.cache.cache "https://golang.org/cmd/" = none := by
  cases hc : s.cache.cache "https://golang.org/cmd/" with
  | none => rfl
  | some b =>
    have := (hsound _ b hc).1
    rw [main_cmd_fails] at this
    cases this

theorem main_root_page :
    (mainFetcher.Fetch "https://golang.org/").err = none ∧
    (mainFetcher.Fetch "https://golang.org/").urls = ["https://golang.org/pkg/", "https://golang.org/cmd/"] := by
  decide

theorem main_pkg_page :
    (mainFetcher.Fetch "https://golang.org/pkg/").err = none ∧
    (mainFetcher.Fetch "https://golang.org/pkg/").urls = ["https://golang.org/", "https://golang.org/cmd/", "https://golang.org/pkg/fmt/", "https://golang.org/pkg/os/"] := by
  decide

theorem main_leaf_pages :
    (mainFetcher.Fetch "https://golang.org/pkg/fmt/").err = none ∧ (mainFetcher.Fetch "https://golang.org/pkg/os/").err = none := by
  decide

/-- A waiting goroutine stays in the pool when another goroutine runs, and is served
when it runs itself. -/
theorem waiting_or_served {pool z : List Task} {i : Nat} {t w : Task}
    (hw : w ∈ pool) (hi : pool[i]? = some t) :
    t = w ∨ w ∈ pool.set i Task.done ++ z := by
  by_cases h : w = t
  · exact Or.inl h.symm
  · exact Or.inr (List.mem_append_left _ (mem_set_of_ne hw hi h))

theorem main_phase_step (s : State) (i : Nat) (s' : State)
    (hsound : ∀ x b, s.cache.cache x = some b →
      (mainFetcher.Fetch x).err = none ∧ b = (mainFetcher.Fetch x).body)
    (hph : MainPhase s) (h : stepAtomic mainFetcher s i = some s') : MainPhase s' := by
  obtain ⟨x, d, hx, rfl⟩ := stepAtomic_some h
  have hC := main_cmd_uncached hsound
  rcases hph with ⟨hempty, hpool⟩ | ⟨hR, hP, hmem, hall, herr⟩ | ⟨hR, hP, hF, hO, herr⟩
  · -- the root goroutine runs
    rw [hpool] at hx
    cases i with
    | succ i => simp at hx
    | zero =>
      simp at hx
      obtain ⟨rfl, rfl⟩ := hx
      have e := @crawl_fetched "https://golang.org/" 4 mainFetcher s.cache (by decide) (hempty _) main_root_page.1
      rw [main_root_page.2] at e
      right; left
      rw [e, hpool]
      simp only [SafeCache.Add]
      refine ⟨by simp, by simp [hempty], by simp [spawnsOf], ?_, Or.inr (by simp [spawnsOf])⟩
      intro t ht
      simp [spawnsOf] at ht
      rcases ht with h1 | h1 | h1
      · exact Or.inl h1
      · exact Or.inr (Or.inl h1)
      · exact Or.inr (Or.inr h1)
  · -- the root is cached, `pkg/` is not
    rcases hall _ (List.getElem?_mem hx) with h1 | h1 | h1
    · cases h1
    · cases h1
      have e := @crawl_fetched "https://golang.org/pkg/" 3 mainFetcher s.cache (by decide) hP main_pkg_page.1
      rw [main_pkg_page.2] at e
      right; right
      rw [e]
      simp only [SafeCache.Add]
      refine ⟨by simpa using hR, by simp, Or.inr (by simp [spawnsOf]),
        Or.inr (by simp [spawnsOf]), Or.inr ⟨2, by decide, by simp [spawnsOf]⟩⟩
    · cases h1
      have e := @crawl_failed "https://golang.org/cmd/" 3 mainFetcher s.cache _ (by decide) hC main_cmd_fails
      right; left
      rw [e]
      refine ⟨hR, hP, ?_, ?_, Or.inl (by simp [mainErr])⟩
      · exact List.mem_append_left _ (mem_set_of_ne hmem hx (by decide))
      · intro t ht
        rcases mem_set_append ht with h2 | h2 | h2
        · exact hall t h2
        · exact Or.inl h2
        · simp [spawnsOf] at h2
  · -- the root and `pkg/` are cached
    right; right
    refine ⟨crawl_cache_mono _ _ _ _ hR, crawl_cache_mono _ _ _ _ hP, ?_, ?_, ?_⟩
    · rcases hF with h1 | h1
      · exact Or.inl (crawl_cache_mono _ _ _ _ h1)
      · rcases waiting_or_served h1 hx with h2 | h2
        · cases h2
          exact Or.inl (crawl_adds _ (by decide) main_leaf_pages.1)
        · exact Or.inr h2
    · rcases hO with h1 | h1
      · exact Or.inl (crawl_cache_mono _ _ _ _ h1)
      · rcases waiting_or_served h1 hx with h2 | h2
        · cases h2
          exact Or.inl (crawl_adds _ (by decide) main_leaf_pages.2)
        · exact Or.inr h2
    · rcases herr with h1 | ⟨d', hd', h1⟩
      · exact Or.inl (List.mem_append_left _ h1)
      · rcases waiting_or_served h1 hx with h2 | h2
        · cases h2
          exact Or.inl (List.mem_append_right _ (main_cmd_prints hd' hC))
        · exact Or.inr ⟨d', hd', h2⟩

theorem main_invariant (sched : List Nat) :
    (∀ x b, (runAtomic mainFetcher mainInit sched).cache.cache x = some b →
      (mainFetcher.Fetch x).err = none ∧ b = (mainFetcher.Fetch x).body) ∧
    MainPhase (runAtomic mainFetcher mainInit sched) := by
  apply runAtomic_invariant
    (fun s => (∀ x b, s.cache.cache x = some b →
      (mainFetcher.Fetch x).err = none ∧ b = (mainFetcher.Fetch x).body) ∧ MainPhase s)
  · intro s i s' hs h
    exact ⟨atomic_cache_sound s i s' hs.1 h, main_phase_step s i s' hs.1 hs.2 h⟩
  · refine ⟨?_, Or.inl ⟨fun x => rfl, rfl⟩⟩
    intro x b hx
    simp [mainInit, State.init, SafeCache.empty] at hx

/-- Once every goroutine of the crawl of `ConcurrencyMain` has returned, the error
for `cmd/` is printed and the cache holds the four pages of `FakeFetcherImpl` with
their bodies, and nothing else. -/
theorem main_final (sched : List Nat)
    (hdone : (runAtomic mainFetcher mainInit sched).allDone) :
    mainErr ∈ (runAtomic mainFetcher mainInit sched).trace ∧
    ∀ x, (runAtomic mainFetcher mainInit sched).cache.cache x =
      (FakeFetcher.find FakeFetcherImpl x).map (fun r => r.body) := by
  obtain ⟨hsound, hph⟩ := main_invariant sched
  rcases hph with ⟨_, hpool⟩ | ⟨_, _, hmem, _, _⟩ | ⟨hR, hP, hF, hO, herr⟩
  · have := hdone (Task.start "https://golang.org/" 4) (by rw [hpool]; simp)
    cases this
  · cases hdone _ hmem
  · have hF' : ((runAtomic mainFetcher mainInit sched).cache.cache "https://golang.org/pkg/fmt/").isSome := by
      rcases hF with h1 | h1
      · exact h1
      · cases hdone _ h1
    have hO' : ((runAtomic mainFetcher mainInit sched).cache.cache "https://golang.org/pkg/os/").isSome := by
      rcases hO with h1 | h1
      · exact h1
      · cases hdone _ h1
    refine ⟨?_, ?_⟩
    · rcases herr with h1 | ⟨d, _, h1⟩
      · exact h1
      · cases hdone _ h1
    · intro x
      cases hfind : FakeFetcher.find FakeFetcherImpl x with
      | none =>
        cases hc : (runAtomic mainFetcher mainInit sched).cache.cache x with
        | none => rfl
        | some b =>
          have := (hsound x b hc).1
          simp [mainFetcher, FakeFetcher.toFetcher, FakeFetcher.Fetch, hfind] at this
      | some res =>
        have hsome : ((runAtomic mainFetcher mainInit sched).cache.cache x).isSome := by
          rcases main_find_cases hfind with h1 | h1 | h1 | h1 <;> subst h1 <;> assumption
        obtain ⟨b, hb⟩ := Option.isSome_iff_exists.mp hsome
        have := (hsound x b hb).2
        simp [mainFetcher, FakeFetcher.toFetcher, FakeFetcher.Fetch, hfind] at this
        simp [hb, this]

/-! ## A goroutine run to completion is a run of the interleaving semantics -/

theorem set_self {l : List Task} {i : Nat} {t : Task} (h : l[i]? = some t) :
    l.set i t = l := by
  induction l generalizing i with
  | nil => rfl
  | cons a l ih =>
    cases i with
    | zero =>
      simp at h
      simp [h]
    | succ i => simp [ih (by simpa using h)]

theorem get_set_append {l : List Task} {i : Nat} {t : Task} (x : Task) (z : List Task)
    (h : l[i]? = some t) : (l.set i x ++ z)[i]? = some x := by
  induction l generalizing i with
  | nil => simp at h
  | cons a l ih =>
    cases i with
    | zero => simp
    | succ i => simpa using ih (by simpa using h)

theorem set_append_set {l : List Task} {i : Nat} {t : Task} (x y : Task) (z : List Task)
    (h : l[i]? = some t) : (l.set i x ++ z).set i y = l.set i y ++ z := by
  induction l generalizing i with
  | nil => simp at h
  | cons a l ih =>
    cases i with
    | zero => simp
    | succ i => simpa using ih (by simpa using h)

/-- The loop over the links, run without interruption: one goroutine per link, in
order, and then the return. -/
theorem exec_loop (fetcher : Fetcher) (url : String) (d : Int) (rest : List String) :
    ∀ (c : SafeCache) (pool : List Task) (tr : List Ev) (i : Nat),
      pool[i]? = some (afterLoop url d rest) →
      exec fetcher ⟨c, pool, tr⟩ (List.replicate rest.length i) =
        some ⟨c, pool.set i Task.done ++ rest.map (fun v => Task.start v (d - 1)),
              tr ++ rest.map (fun v => Ev.spawn v (d - 1))⟩ := by
  induction rest with
  | nil =>
    intro c pool tr i h
    simp only [afterLoop] at h
    simp [exec, set_self h]
  | cons v rest ih =>
    intro c pool tr i h
    have hs : step fetcher ⟨c, pool, tr⟩ i =
        some ⟨c, pool.set i (afterLoop url d rest) ++ [Task.start v (d - 1)],
              tr ++ [Ev.spawn v (d - 1)]⟩ := by
      simp only [afterLoop] at h
      simp [step, h, act]
    simp only [List.length_cons, List.replicate_succ, exec, hs]
    rw [ih c _ _ i (get_set_append _ _ h), set_append_set _ _ _ h]
    simp

theorem step_quiet (fetcher : Fetcher) (c : SafeCache) {pool : List Task} (tr : List Ev)
    {i : Nat} {t : Task} (t' : Task) (c' : SafeCache) (evs : List Ev)
    (ht : pool[i]? = some t) (ha : act fetcher c t = some ⟨t', c', evs, []⟩) :
    step fetcher ⟨c, pool, tr⟩ i = some ⟨c', pool.set i t', tr ++ evs⟩ := by
  simp [step, ht, ha]

theorem get_set {l : List Task} {i : Nat} {t : Task} (x : Task) (h : l[i]? = some t) :
    (l.set i x)[i]? = some x := by
  simpa using get_set_append x [] h

theorem exec_cons_of_step {fetcher : Fetcher} {s s1 : State} {i : Nat} (sched : List Nat)
    (h : step fetcher s i = some s1) : exec fetcher s (i :: sched) = exec fetcher s1 sched := by
  simp [exec, h]

/-- The goroutine `i`, not yet started, run through all its steps with no other
goroutine in between, leaves the state that `stepAtomic` computes from `crawl`. -/
theorem stepAtomic_is_exec {fetcher : Fetcher} {s s' : State} {i : Nat}
    (h : stepAtomic fetcher s i = some s') :
    ∃ n, exec fetcher s (List.replicate n i) = some s' := by
  obtain ⟨x, d, hx, rfl⟩ := stepAtomic_some h
  obtain ⟨c, pool, tr⟩ := s
  simp only at hx ⊢
  rcases crawl_cases x d fetcher c with
    ⟨hd, e⟩ | ⟨hd, b, hc, e⟩ | ⟨hd, hc, er, he, e⟩ | ⟨hd, hc, he, e⟩
  · refine ⟨1, ?_⟩
    rw [e]
    simp [exec, step, hx, act, hd, spawnsOf]
  · refine ⟨1, ?_⟩
    rw [e]
    simp [exec, step, hx, act, not_le.mpr hd, Get_of_some hc, spawnsOf]
  · refine ⟨2, ?_⟩
    rw [e]
    have h1 := step_quiet fetcher c tr (Task.got x d) c [Ev.get x] hx
      (by simp [act, not_le.mpr hd, Get_of_none hc])
    have h2 := step_quiet fetcher c (tr ++ [Ev.get x]) Task.done c
      [Ev.fetch x, Ev.err er] (get_set (Task.got x d) hx) (by simp [act, he])
    rw [List.set_set] at h2
    rw [List.replicate_succ, exec_cons_of_step _ h1, List.replicate_succ,
      exec_cons_of_step _ h2]
    simp [exec, spawnsOf]
  · refine ⟨(fetcher.Fetch x).urls.length + 3, ?_⟩
    rw [e, spawns_fetched]
    have h1 := step_quiet fetcher c tr (Task.got x d) c [Ev.get x] hx
      (by simp [act, not_le.mpr hd, Get_of_none hc])
    have h2 := step_quiet fetcher c (tr ++ [Ev.get x])
      (Task.fetched x d (fetcher.Fetch x).body (fetcher.Fetch x).urls) c
      [Ev.fetch x, Ev.ok x (fetcher.Fetch x).body] (get_set (Task.got x d) hx)
      (by simp [act, he])
    rw [List.set_set] at h2
    have h3 := step_quiet fetcher c
      (tr ++ [Ev.get x] ++ [Ev.fetch x, Ev.ok x (fetcher.Fetch x).body])
      (afterLoop x d (fetcher.Fetch x).urls) (c.Add x (fetcher.Fetch x).body)
      [Ev.add x (fetcher.Fetch x).body]
      (get_set (Task.fetched x d (fetcher.Fetch x).body (fetcher.Fetch x).urls) hx)
      (by simp [act])
    rw [List.set_set] at h3
    rw [List.replicate_succ, exec_cons_of_step _ h1, List.replicate_succ,
      exec_cons_of_step _ h2, List.replicate_succ, exec_cons_of_step _ h3,
      exec_loop fetcher x d _ _ _ _ i (get_set _ hx), List.set_set]
    simp

/-- Every state reached with goroutines run one at a time is reached by a schedule of
the interleaving semantics. -/
theorem runAtomic_is_run (fetcher : Fetcher) (sched : List Nat) :
    ∀ s : State, ∃ sched', run fetcher s sched' = runAtomic fetcher s sched := by
  induction sched with
  | nil => exact fun s => ⟨[], rfl⟩
  | cons i sched ih =>
    intro s
    cases h : stepAtomic fetcher s i with
    | none =>
      obtain ⟨b, hb⟩ := ih s
      exact ⟨b, by simpa [runAtomic, h] using hb⟩
    | some s1 =>
      obtain ⟨n, hn⟩ := stepAtomic_is_exec h
      obtain ⟨b, hb⟩ := ih s1
      refine ⟨List.replicate n i ++ b, ?_⟩
      rw [run_append, exec_eq_run hn]
      simpa [runAtomic, h] using hb

/-! ## The cache and the canned fetcher on their own -/

/-- C11 as stated fails: a second `Add` on a key replaces the body that the first one
stored. -/
theorem Add_replaces_entry :
    (SafeCache.empty.Add "https://golang.org/" "first").cache "https://golang.org/" =
      some "first" ∧
    ((SafeCache.empty.Add "https://golang.org/" "first").Add "https://golang.org/"
      "second").cache "https://golang.org/" ≠ some "first" := by
  refine ⟨rfl, ?_⟩
  simp [SafeCache.Add]

/-- C11, amended (last writer wins). When the cache holds a body `b` for `url`, after
`Add(url, b')` it maps `url` to `b'`: the entry is still `b` exactly when `b' = b`;
every other key is as before. -/
theorem Add_last_writer_wins (c : SafeCache) (url b b' : String)
    (h : c.cache url = some b) :
    (c.Add url b').cache url = some b' ∧
    ((c.Add url b').cache url = some b ↔ b' = b) ∧
    (∀ u, u ≠ url → (c.Add url b').cache u = c.cache u) := by
  have _ := h
  refine ⟨by simp [SafeCache.Add], by simp [SafeCache.Add], ?_⟩
  intro u hu
  simp [SafeCache.Add, hu]

theorem Add_last_writer_wins_witness :
    (SafeCache.empty.Add "https://golang.org/" "first").cache "https://golang.org/" =
      some "first" ∧
    ((SafeCache.empty.Add "https://golang.org/" "first").Add "https://golang.org/"
      "second").cache "https://golang.org/" = some "second" :=
  ⟨rfl, (Add_last_writer_wins (SafeCache.empty.Add "https://golang.org/" "first")
    "https://golang.org/" "first" "second" rfl).1⟩

theorem addAll_other (adds : List (String × String)) :
    ∀ (c : SafeCache) (u : String), u ∉ adds.map Prod.fst →
      (addAll c adds).cache u = c.cache u := by
  induction adds with
  | nil => intro c u _; rfl
  | cons kv adds ih =>
    intro c u hu
    obtain ⟨k, v⟩ := kv
    simp only [List.map_cons, List.mem_cons, not_or] at hu
    rw [addAll, ih (c.Add k v) u hu.2]
    simp [SafeCache.Add, hu.1]

/-- C12 as stated fails on the zero value `SafeCache{}`: `Add` panics on its nil
map, so no `Get` after the `Add` returns `(body, true)`. -/
theorem Add_panics_on_zero_cache :
    Go.SafeCache.Add Go.SafeCache.zero "https://golang.org/" "The Go Programming Language" =
      none ∧
    ¬ ∃ c, Go.SafeCache.Add Go.SafeCache.zero "https://golang.org/"
        "The Go Programming Language" = some c ∧
      Go.SafeCache.Get c "https://golang.org/" = ("The Go Programming Language", true) := by
  refine ⟨rfl, ?_⟩
  rintro ⟨c, h, _⟩
  simp [Go.SafeCache.Add] at h

/-- C12, amended (round trip of `Get` and `Add` on a made cache). `Get` never fails,
on the zero value it returns `("", false)`, and the step of `crawl` that calls it
leaves the cache as it was. On a cache whose map was made, `Add` returns, `Get(url)`
after `Add(url, body)` returns `(body, true)`, `Get(u)` for any other `u` returns what
it returned before the `Add`, and in a cache built from the made empty one by calls of
`Add`, `Get` of a URL that was never added returns `("", false)`. On the zero value
`Add` panics. -/
theorem Get_Add_round_trip (c : SafeCache) (url body : String) :
    Go.SafeCache.Add (Go.SafeCache.made c) url body =
      some (Go.SafeCache.made (c.Add url body)) ∧
    Go.SafeCache.Get (Go.SafeCache.made (c.Add url body)) url = (body, true) ∧
    (∀ u, u ≠ url → Go.SafeCache.Get (Go.SafeCache.made (c.Add url body)) u =
      Go.SafeCache.Get (Go.SafeCache.made c) u) ∧
    (∀ (adds : List (String × String)) (u : String), u ∉ adds.map Prod.fst →
      Go.SafeCache.Get (Go.SafeCache.made (addAll SafeCache.empty adds)) u = ("", false)) ∧
    Go.SafeCache.Get Go.SafeCache.zero url = ("", false) ∧
    Go.SafeCache.Add Go.SafeCache.zero url body = none ∧
    (∀ (fetcher : Fetcher) (depth : Int) (a : Action),
      act fetcher c (Task.start url depth) = some a → a.cache = c) := by
  refine ⟨rfl, by simp [Go.SafeCache.Get, SafeCache.Get, SafeCache.Add], ?_, ?_, rfl, rfl, ?_⟩
  · intro u hu
    simp [Go.SafeCache.Get, SafeCache.Get, SafeCache.Add, hu]
  · intro adds u hu
    exact Get_of_none (by rw [addAll_other adds SafeCache.empty u hu]; rfl)
  · intro fetcher depth a ha
    simp only [act] at ha
    split at ha
    · cases ha; rfl
    · split at ha <;> cases ha <;> rfl

theorem Get_Add_round_trip_witness :
    Go.SafeCache.Get (Go.SafeCache.made (addAll SafeCache.empty
      [("https://golang.org/", "The Go Programming Language"),
       ("https://golang.org/pkg/", "Packages")])) "https://golang.org/cmd/" = ("", false) ∧
    Go.SafeCache.Get (Go.SafeCache.made
      ((SafeCache.empty.Add "https://golang.org/" "The Go Programming Language").Add
        "https://golang.org/pkg/" "Packages")) "https://golang.org/" =
      Go.SafeCache.Get (Go.SafeCache.made
        (SafeCache.empty.Add "https://golang.org/" "The Go Programming Language"))
        "https://golang.org/" :=
  ⟨(Get_Add_round_trip SafeCache.empty "" "").2.2.2.1 _ _ (by decide),
   (Get_Add_round_trip (SafeCache.empty.Add "https://golang.org/" "The Go Programming Language")
     "https://golang.org/pkg/" "Packages").2.2.1 _ (by decide)⟩

theorem find_eq_none_iff (f : Go.FakeFetcher) (url : String) :
    Go.FakeFetcher.find f url = none ↔ url ∉ f.map Prod.fst := by
  induction f with
  | nil => simp [Go.FakeFetcher.find]
  | cons kv f ih =>
    obtain ⟨k, v⟩ := kv
    by_cases h : url = k
    · simp [Go.FakeFetcher.find, h]
    · simp [Go.FakeFetcher.find, h, ih]

theorem find_of_mem_nodup (f : Go.FakeFetcher) (url : String) (v : Option FakeResult)
    (hnd : (f.map Prod.fst).Nodup) (hm : (url, v) ∈ f) :
    Go.FakeFetcher.find f url = some v := by
  induction f with
  | nil => simp at hm
  | cons kv f ih =>
    obtain ⟨k, w⟩ := kv
    simp only [List.map_cons, List.nodup_cons] at hnd
    rcases List.mem_cons.mp hm with h | h
    · cases h
      simp [Go.FakeFetcher.find]
    · have hne : url ≠ k := by
        intro e
        subst e
        exact hnd.1 (List.mem_map.mpr ⟨(url, v), h, rfl⟩)
      simp [Go.FakeFetcher.find, hne, ih hnd.2 h]

theorem find_mem (f : Go.FakeFetcher) (url : String) (v : Option FakeResult)
    (h : Go.FakeFetcher.find f url = some v) : (url, v) ∈ f := by
  induction f with
  | nil => simp [Go.FakeFetcher.find] at h
  | cons kv f ih =>
    obtain ⟨k, w⟩ := kv
    by_cases hk : url = k
    · simp [Go.FakeFetcher.find, hk] at h
      simp [hk, h]
    · simp [Go.FakeFetcher.find, hk] at h
      exact List.mem_cons_of_mem _ (ih h)

/-- On a map of results, none of its pointers nil, `Go.FakeFetcher.Fetch` returns what
`FakeFetcher.Fetch` returns. -/
theorem Fetch_toGo (g : FakeFetcher) (url : String) :
    Go.FakeFetcher.Fetch (FakeFetcher.toGo g) url = some (FakeFetcher.Fetch g url) := by
  have hfind : Go.FakeFetcher.find (FakeFetcher.toGo g) url =
      (FakeFetcher.find g url).map some := by
    induction g with
    | nil => rfl
    | cons kv g ih =>
      obtain ⟨k, v⟩ := kv
      by_cases hk : url = k
      · simp [FakeFetcher.toGo, Go.FakeFetcher.find, FakeFetcher.find, hk]
      · simpa [FakeFetcher.toGo, Go.FakeFetcher.find, FakeFetcher.find, hk] using ih
  simp only [Go.FakeFetcher.Fetch, FakeFetcher.Fetch, hfind]
  cases FakeFetcher.find g url <;> rfl

/-- C13 as stated fails on a map with a nil pointer: `url` is a key, and `Fetch`
panics at `res.body` instead of returning the entry's body with a nil error. -/
theorem Fetch_panics_on_nil_entry :
    "https://golang.org/" ∈
      ([("https://golang.org/", none)] : Go.FakeFetcher).map Prod.fst ∧
    Go.FakeFetcher.Fetch [("https://golang.org/", none)] "https://golang.org/" = none := by
  decide

/-- C13, amended (the canned fetcher without nil pointers). For a url that is not a
key `Fetch` returns the empty body, no urls and the error `not found: <url>`; for a
key whose entry is a pointer to a result it returns the body and the url list of the
entry, in order, with a nil error; for a key whose entry is a nil pointer it panics.
So on a map without nil pointers `Fetch` returns, with an error exactly when `url` is
not a key. The result is a function of the map and the url alone, so a repeated fetch
returns the same result; on the maps of results that the crawls use it is
`FakeFetcher.Fetch`. -/
theorem FakeFetcher_Fetch_spec (f : Go.FakeFetcher) (url : String) :
    (url ∉ f.map Prod.fst →
      Go.FakeFetcher.Fetch f url = some ⟨"", [], some ("not found: " ++ url)⟩) ∧
    (∀ res, Go.FakeFetcher.find f url = some (some res) →
      Go.FakeFetcher.Fetch f url = some ⟨res.body, res.urls, none⟩) ∧
    ((f.map Prod.fst).Nodup → ∀ res, (url, some res) ∈ f →
      Go.FakeFetcher.Fetch f url = some ⟨res.body, res.urls, none⟩) ∧
    (Go.FakeFetcher.find f url = some none → Go.FakeFetcher.Fetch f url = none) ∧
    ((∀ kv ∈ f, kv.2 ≠ none) →
      ∃ r, Go.FakeFetcher.Fetch f url = some r ∧ (r.err ≠ none ↔ url ∉ f.map Prod.fst)) ∧
    (∀ g : FakeFetcher,
      Go.FakeFetcher.Fetch (FakeFetcher.toGo g) url = some (FakeFetcher.Fetch g url)) := by
  have hfound : ∀ res, Go.FakeFetcher.find f url = some (some res) →
      Go.FakeFetcher.Fetch f url = some ⟨res.body, res.urls, none⟩ := by
    intro res h
    simp [Go.FakeFetcher.Fetch, h]
  have hmiss : url ∉ f.map Prod.fst →
      Go.FakeFetcher.Fetch f url = some ⟨"", [], some ("not found: " ++ url)⟩ := by
    intro h
    simp [Go.FakeFetcher.Fetch, (find_eq_none_iff f url).mpr h]
  refine ⟨hmiss, hfound,
    fun hnd res hm => hfound res (find_of_mem_nodup f url (some res) hnd hm), ?_, ?_,
    fun g => Fetch_toGo g url⟩
  · intro h
    simp [Go.FakeFetcher.Fetch, h]
  · intro hnil
    cases hf : Go.FakeFetcher.find f url with
    | none =>
      have hk := (find_eq_none_iff f url).mp hf
      exact ⟨_, hmiss hk, by simp [hk]⟩
    | some v =>
      cases v with
      | none => exact absurd rfl (hnil _ (find_mem f url none hf))
      | some res =>
        refine ⟨_, hfound res hf, ?_⟩
        have hk : ¬ url ∉ f.map Prod.fst := by
          intro hk
          rw [(find_eq_none_iff f url).mpr hk] at hf
          cases hf
        exact ⟨fun h => absurd rfl h, fun h => absurd h hk⟩

theorem FakeFetcher_Fetch_spec_witness :
    Go.FakeFetcher.Fetch (FakeFetcher.toGo FakeFetcherImpl) "https://golang.org/pkg/os/" =
      some ⟨"Package os", ["https://golang.org/", "https://golang.org/pkg/"], none⟩ ∧
    Go.FakeFetcher.Fetch (FakeFetcher.toGo FakeFetcherImpl) "https://golang.org/cmd/" =
      some ⟨"", [], some "not found: https://golang.org/cmd/"⟩ ∧
    ∃ r, Go.FakeFetcher.Fetch (FakeFetcher.toGo FakeFetcherImpl) "https://golang.org/" =
      some r ∧ (r.err ≠ none ↔ "https://golang.org/" ∉
        (FakeFetcher.toGo FakeFetcherImpl).map Prod.fst) :=
  ⟨(FakeFetcher_Fetch_spec (FakeFetcher.toGo FakeFetcherImpl)
      "https://golang.org/pkg/os/").2.2.1 (by decide)
    ⟨"Package os", ["https://golang.org/", "https://golang.org/pkg/"]⟩ (by decide),
   (FakeFetcher_Fetch_spec (FakeFetcher.toGo FakeFetcherImpl)
      "https://golang.org/cmd/").1 (by decide),
   (FakeFetcher_Fetch_spec (FakeFetcher.toGo FakeFetcherImpl)
      "https://golang.org/").2.2.2.2.1 (by decide)⟩

/-! ## Deduplication when goroutines do not interleave -/

theorem addsOf_append (a b : List Ev) : addsOf (a ++ b) = addsOf a ++ addsOf b := by
  induction a with
  | nil => rfl
  | cons e a ih => cases e <;> simp [addsOf, ih]

theorem addsOf_map_spawn (urls : List String) (d : Int) :
    addsOf (urls.map (fun u => Ev.spawn u d)) = [] := by
  induction urls with
  | nil => rfl
  | cons u urls ih => simp [addsOf, ih]

theorem fetchCount_append (u : String) (a b : List Ev) :
    fetchCount u (a ++ b) = fetchCount u a + fetchCount u b := by
  simp [fetchCount, fetchesOf_append]

theorem addCount_append (u : String) (a b : List Ev) :
    addCount u (a ++ b) = addCount u a + addCount u b := by
  simp [addCount, addsOf_append]

/-- With goroutines run one at a time: a URL that is not in the cache has not been
added, nor fetched if its fetch succeeds; and no URL is added twice, nor fetched twice
if its fetch succeeds. -/
theorem dedup_step {fetcher : Fetcher} (s : State) (i : Nat) (s' : State)
    (hinv : ∀ u, (s.cache.cache u = none →
        ((fetcher.Fetch u).err = none → fetchCount u s.trace = 0) ∧ addCount u s.trace = 0) ∧
      ((fetcher.Fetch u).err = none → fetchCount u s.trace ≤ 1) ∧ addCount u s.trace ≤ 1)
    (h : stepAtomic fetcher s i = some s') :
    ∀ u, (s'.cache.cache u = none →
        ((fetcher.Fetch u).err = none → fetchCount u s'.trace = 0) ∧ addCount u s'.trace = 0) ∧
      ((fetcher.Fetch u).err = none → fetchCount u s'.trace ≤ 1) ∧ addCount u s'.trace ≤ 1 := by
  obtain ⟨x, d, _, rfl⟩ := stepAtomic_some h
  intro u
  obtain ⟨h1, h2, h3⟩ := hinv u
  simp only [fetchCount_append, addCount_append]
  rcases crawl_cases x d fetcher s.cache with
    ⟨_, e⟩ | ⟨_, b, _, e⟩ | ⟨_, _, er, he, e⟩ | ⟨_, hc, he, e⟩
  · rw [e]
    simpa [fetchCount, addCount, fetchesOf, addsOf] using ⟨h1, h2, h3⟩
  · rw [e]
    simpa [fetchCount, addCount, fetchesOf, addsOf] using ⟨h1, h2, h3⟩
  · rw [e]
    have hfail : (fetcher.Fetch u).err = none → ¬ x = u := by
      intro hu hxu
      rw [hxu, hu] at he
      cases he
    refine ⟨fun hcu => ⟨fun hu => ?_, ?_⟩, fun hu => ?_, ?_⟩
    · simpa [fetchCount, fetchesOf, List.count_cons, hfail hu] using (h1 hcu).1 hu
    · simpa [addCount, addsOf] using (h1 hcu).2
    · simpa [fetchCount, fetchesOf, List.count_cons, hfail hu] using h2 hu
    · simpa [addCount, addsOf] using h3
  · rw [e]
    by_cases hxu : x = u
    · subst hxu
      have h0 := h1 hc
      refine ⟨fun hcu => ?_, fun hu => ?_, ?_⟩
      · simp [SafeCache.Add] at hcu
      · have := h0.1 hu
        simp [fetchCount, fetchesOf, fetchesOf_append, fetchesOf_map_spawn] at this ⊢
        omega
      · have := h0.2
        simp [addCount, addsOf, addsOf_append, addsOf_map_spawn] at this ⊢
        omega
    · have hux : ¬ u = x := fun e' => hxu e'.symm
      refine ⟨fun hcu => ?_, fun hu => ?_, ?_⟩
      · have hcu' : s.cache.cache u = none := by simpa [SafeCache.Add, hux] using hcu
        refine ⟨fun hu => ?_, ?_⟩
        · simpa [fetchCount, fetchesOf, fetchesOf_append, fetchesOf_map_spawn,
            List.count_cons, hxu] using (h1 hcu').1 hu
        · simpa [addCount, addsOf, addsOf_append, addsOf_map_spawn, List.count_cons, hxu]
            using (h1 hcu').2
      · simpa [fetchCount, fetchesOf, fetchesOf_append, fetchesOf_map_spawn,
          List.count_cons, hxu] using h2 hu
      · simpa [addCount, addsOf, addsOf_append, addsOf_map_spawn, List.count_cons, hxu]
          using h3

/-- C17 (sequential dedup). When the goroutines of a crawl started on an empty cache
run to completion one at a time, in any order: a URL whose `Fetch` succeeds is fetched
at most once, `Add` is called at most once per URL, and a URL fetched more than once
is one whose `Fetch` fails. Such a URL can indeed be fetched repeatedly: the crawl of
`ConcurrencyMain` fetches `https://golang.org/cmd/` twice. -/
theorem sequential_dedup (fetcher : Fetcher) (root : String) (depth : Int)
    (sched : List Nat) :
    (∀ u, (fetcher.Fetch u).err = none →
      fetchCount u (runAtomic fetcher (State.init root depth) sched).trace ≤ 1) ∧
    (∀ u, addCount u (runAtomic fetcher (State.init root depth) sched).trace ≤ 1) ∧
    (∀ u, 1 < fetchCount u (runAtomic fetcher (State.init root depth) sched).trace →
      (fetcher.Fetch u).err ≠ none) ∧
    fetchCount "https://golang.org/cmd/"
      (runAtomic mainFetcher mainInit mainSchedule).trace = 2 := by
  have hinv := runAtomic_invariant
    (fun s => ∀ u, (s.cache.cache u = none →
        ((fetcher.Fetch u).err = none → fetchCount u s.trace = 0) ∧ addCount u s.trace = 0) ∧
      ((fetcher.Fetch u).err = none → fetchCount u s.trace ≤ 1) ∧ addCount u s.trace ≤ 1)
    dedup_step (State.init root depth)
    (by intro u; simp [State.init, fetchCount, addCount, fetchesOf, addsOf]) sched
  refine ⟨fun u hu => (hinv u).2.1 hu, fun u => (hinv u).2.2, ?_, by decide⟩
  intro u hu he
  have := (hinv u).2.1 he
  omega

theorem sequential_dedup_witness :
    fetchCount "https://golang.org/pkg/"
      (runAtomic mainFetcher mainInit mainSchedule).trace ≤ 1 ∧
    fetchCount "https://golang.org/pkg/"
      (runAtomic mainFetcher mainInit mainSchedule).trace = 1 :=
  ⟨(sequential_dedup mainFetcher "https://golang.org/" 4 mainSchedule).1
    "https://golang.org/pkg/" (by decide), by decide⟩

/-! ## The race between `Get` and `Add` -/

/-- C14 (the race of the source). In `crawl("root", 4, raceFetcher, ...)` on an empty
cache there is an interleaving in which two goroutines for the same URL `c`, started
by the pages `a` and `b`, both miss in `Get` before either has fetched; at the end
`Get` was called twice on `c` with no hit, `Fetch` and `Add` were each called twice on
`c`, and the goroutine for its link `d` was started twice. Every pick of the schedule
is a real step and every goroutine has returned at its end. -/
theorem crawl_race_duplicates :
    (run raceFetcher (State.init "root" 4) (raceSchedule.take 13)).pool =
      [Task.done, Task.done, Task.done, Task.start "c" 2, Task.start "c" 2] ∧
    (run raceFetcher (State.init "root" 4) (raceSchedule.take 15)).pool =
      [Task.done, Task.done, Task.done, Task.got "c" 2, Task.got "c" 2] ∧
    (exec raceFetcher (State.init "root" 4) raceSchedule).isSome = true ∧
    ((run raceFetcher (State.init "root" 4) raceSchedule).trace.filter
      (fun e => decide (e = Ev.get "c" ∨ e = Ev.hit "c" "z"))) =
      [Ev.get "c", Ev.get "c"] ∧
    fetchCount "c" (run raceFetcher (State.init "root" 4) raceSchedule).trace = 2 ∧
    addCount "c" (run raceFetcher (State.init "root" 4) raceSchedule).trace = 2 ∧
    (spawnsOf (run raceFetcher (State.init "root" 4) raceSchedule).trace).count ("d", 1) = 2 ∧
    (run raceFetcher (State.init "root" 4) raceSchedule).pool = List.replicate 7 Task.done := by
  refine ⟨by decide, by decide, by decide, by decide, by decide, by decide, by decide,
    by decide⟩

/-! ## How complete a crawl is -/

theorem act_cache_mono {fetcher : Fetcher} {c : SafeCache} {t : Task} {a : Action}
    {v : String} (hv : (c.cache v).isSome) (h : act fetcher c t = some a) :
    (a.cache.cache v).isSome := by
  cases t with
  | start u d =>
    simp only [act] at h
    split at h
    · cases h; exact hv
    · split at h <;> cases h <;> exact hv
  | got u d =>
    simp only [act] at h
    split at h <;> cases h <;> exact hv
  | fetched u d b urls =>
    simp only [act] at h
    cases h
    simp only [SafeCache.Add]
    split
    · rfl
    · exact hv
  | spawning u d rest =>
    cases rest <;> simp only [act] at h <;> cases h <;> exact hv
  | done => simp [act] at h

/-- A goroutine that serves `v` caches it or still serves it after its step. -/
theorem act_serves {fetcher : Fetcher} {c : SafeCache} {t : Task} {a : Action} {v : String}
    (hs : Task.serves v t) (he : (fetcher.Fetch v).err = none)
    (h : act fetcher c t = some a) :
    (a.cache.cache v).isSome ∨ Task.serves v a.task := by
  cases t with
  | start u d =>
    obtain ⟨rfl, hd⟩ := hs
    simp only [act] at h
    split at h
    · omega
    · split at h
      · rename_i b hget
        cases h
        left
        simp only [SafeCache.Get] at hget
        split at hget
        · rename_i b' hb
          simp [hb]
        · cases hget
      · cases h
        exact Or.inr rfl
  | got u d =>
    have hu : u = v := hs
    subst hu
    simp only [act] at h
    split at h
    · rename_i e he'
      rw [he] at he'
      cases he'
    · cases h
      exact Or.inr rfl
  | fetched u d b urls =>
    have hu : u = v := hs
    subst hu
    simp only [act] at h
    cases h
    left
    simp [SafeCache.Add]
  | spawning u d rest => exact absurd hs (by simp [Task.serves])
  | done => exact absurd hs (by simp [Task.serves])

theorem served_step {fetcher : Fetcher} {s s' : State} {i : Nat} {v : String}
    (hs : Served s v) (he : (fetcher.Fetch v).err = none)
    (h : step fetcher s i = some s') : Served s' v := by
  obtain ⟨t, a, ht, ha, rfl⟩ := step_some h
  rcases hs with h1 | ⟨t1, hm, h1⟩
  · exact Or.inl (act_cache_mono h1 ha)
  · by_cases heq : t1 = t
    · subst heq
      rcases act_serves h1 he ha with h2 | h2
      · exact Or.inl h2
      · exact Or.inr ⟨a.task, List.mem_append_left _ (mem_set_self ht), h2⟩
    · exact Or.inr ⟨t1, List.mem_append_left _ (mem_set_of_ne hm ht heq), h1⟩

/-- A `spawn` event that a step adds comes with its goroutine in the pool. -/
theorem spawn_step {fetcher : Fetcher} {s s' : State} {i : Nat} {v : String} {d : Int}
    (h : step fetcher s i = some s') (hv : Ev.spawn v d ∈ s'.trace) :
    Ev.spawn v d ∈ s.trace ∨ Task.start v d ∈ s'.pool := by
  obtain ⟨t, a, ht, ha, rfl⟩ := step_some h
  rcases List.mem_append.mp hv with h1 | h1
  · exact Or.inl h1
  · right
    cases t with
    | start u e =>
      simp only [act] at ha
      split at ha
      · cases ha; simp at h1
      · split at ha <;> cases ha <;> simp at h1
    | got u e =>
      simp only [act] at ha
      split at ha <;> cases ha <;> simp at h1
    | fetched u e b urls =>
      simp only [act] at ha
      cases ha
      simp at h1
    | spawning u e rest =>
      cases rest with
      | nil =>
        simp only [act] at ha
        cases ha
        simp at h1
      | cons w rest =>
        simp only [act] at ha
        cases ha
        simp at h1
        obtain ⟨rfl, rfl⟩ := h1
        simp
    | done => simp [act] at ha

theorem served_run (fetcher : Fetcher) (root : String) (depth : Int) (sched : List Nat) :
    (0 < depth → (fetcher.Fetch root).err = none →
      Served (run fetcher (State.init root depth) sched) root) ∧
    ∀ v d, Ev.spawn v d ∈ (run fetcher (State.init root depth) sched).trace → 0 < d →
      (fetcher.Fetch v).err = none → Served (run fetcher (State.init root depth) sched) v := by
  have hroot : 0 < depth → (fetcher.Fetch root).err = none →
      Served (run fetcher (State.init root depth) sched) root := by
    intro hd he
    exact run_invariant (fun s => Served s root) (fun s i s' hs h => served_step hs he h) _
      (Or.inr ⟨Task.start root depth, by simp [State.init], rfl, hd⟩) sched
  have hspawn := run_invariant
    (fun s => ∀ v d, Ev.spawn v d ∈ s.trace → 0 < d → (fetcher.Fetch v).err = none → Served s v)
    (by
      intro s i s' hs h v d hv hd he
      rcases spawn_step h hv with h1 | h1
      · exact served_step (hs v d h1 hd he) he h
      · exact Or.inr ⟨Task.start v d, h1, rfl, hd⟩)
    (State.init root depth) (by intro v d hv; simp [State.init] at hv) sched
  exact ⟨hroot, hspawn⟩

theorem head_set_succ {l z : List Task} {j : Nat} {y : Task} (x : Task)
    (h : l[0]? = some y) : (l.set (j + 1) x ++ z)[0]? = some y := by
  cases l with
  | nil => simp at h
  | cons a l => simpa using h

theorem afterLoop_ne_done {url : String} {d : Int} {rest : List String}
    (h : afterLoop url d rest = Task.done) : rest = [] := by
  cases rest with
  | nil => rfl
  | cons v rest => simp [afterLoop] at h

theorem rootStage_step {fetcher : Fetcher} {root : String} {depth : Int} (hd : 0 < depth)
    (he : (fetcher.Fetch root).err = none) (s : State) (i : Nat) (s' : State)
    (hs : RootStage fetcher root depth s) (h : step fetcher s i = some s') :
    RootStage fetcher root depth s' := by
  obtain ⟨t, a, ht, ha, rfl⟩ := step_some h
  rcases hs with ⟨hc, hp⟩ | ⟨rest, h0, hall⟩
  · have hi : i = 0 := by
      rcases hp with hp | hp | hp <;> rw [hp] at ht <;> cases i <;> simp at ht <;> rfl
    subst hi
    rcases hp with hp | hp | hp
    · rw [hp] at ht
      simp at ht
      subst ht
      simp only [act, not_le.mpr hd, if_false, Get_of_none hc] at ha
      cases ha
      exact Or.inl ⟨hc, Or.inr (Or.inl (by simp [hp]))⟩
    · rw [hp] at ht
      simp at ht
      subst ht
      simp only [act, he] at ha
      cases ha
      exact Or.inl ⟨hc, Or.inr (Or.inr (by simp [hp]))⟩
    · rw [hp] at ht
      simp at ht
      subst ht
      simp only [act] at ha
      cases ha
      exact Or.inr ⟨(fetcher.Fetch root).urls, by simp [hp], fun v hv => Or.inl hv⟩
  · right
    cases i with
    | zero =>
      rw [h0] at ht
      cases ht
      cases rest with
      | nil => simp [afterLoop, act] at ha
      | cons w rest =>
        simp only [afterLoop, act] at ha
        cases ha
        refine ⟨rest, get_set_append _ _ h0, ?_⟩
        intro v hv
        rcases hall v hv with h1 | h1
        · rcases List.mem_cons.mp h1 with h2 | h2
          · subst h2
            exact Or.inr (by simp)
          · exact Or.inl h2
        · exact Or.inr (List.mem_append_left _ h1)
    | succ j =>
      refine ⟨rest, head_set_succ _ h0, ?_⟩
      intro v hv
      rcases hall v hv with h1 | h1
      · exact Or.inl h1
      · exact Or.inr (List.mem_append_left _ h1)

theorem served_of_allDone {s : State} {v : String} (hdone : s.allDone) (h : Served s v) :
    (s.cache.cache v).isSome := by
  rcases h with h | ⟨t, hm, hs⟩
  · exact h
  · rw [hdone t hm] at hs
    exact absurd hs (by simp [Task.serves])

/-- C16 as stated fails: in `crawl("root", 3, gapFetcher, ...)`, goroutines run one at
a time, the page `c` is two links from the root through pages that are fetched with
success, its own fetch succeeds, and it is not in the cache when every goroutine has
returned: `b` was first cached by the goroutine that `a` started, with depth 1. -/
theorem crawl_misses_page_within_depth :
    (runAtomic gapFetcher (State.init "root" 3) gapSchedule).pool =
      List.replicate 5 Task.done ∧
    ReachIn gapFetcher "root" 2 "c" ∧ ((2 : Nat) : Int) < 3 ∧
    (gapFetcher.Fetch "c").err = none ∧
    (runAtomic gapFetcher (State.init "root" 3) gapSchedule).cache.cache "c" = none := by
  refine ⟨by decide, ?_, by decide, by decide, rfl⟩
  exact @ReachIn.link gapFetcher "root" 1 "b" "c"
    (@ReachIn.link gapFetcher "root" 0 "root" "b" ReachIn.root (by decide) (by decide))
    (by decide) (by decide)

/-- C16, amended. After a crawl on an empty cache has finished, whatever the order of
the goroutines: every URL that is the root or is linked from the root page (a chain of
at most one link, and of fewer than `depth` links), and whose own `Fetch` succeeds, is
in the cache with its body; and so is every URL whose `Fetch` succeeds and for which a
goroutine was started with a depth greater than 0. -/
theorem crawl_complete_near_root (fetcher : Fetcher) (root : String) (depth : Int)
    (sched : List Nat) (hdone : (run fetcher (State.init root depth) sched).allDone) :
    (∀ (k : Nat) (v : String), ReachIn fetcher root k v → k ≤ 1 → (k : Int) < depth →
      (fetcher.Fetch v).err = none →
      (run fetcher (State.init root depth) sched).cache.cache v =
        some (fetcher.Fetch v).body) ∧
    (∀ v d, Ev.spawn v d ∈ (run fetcher (State.init root depth) sched).trace → 0 < d →
      (fetcher.Fetch v).err = none →
      (run fetcher (State.init root depth) sched).cache.cache v =
        some (fetcher.Fetch v).body) := by
  obtain ⟨hroot, hspawn⟩ := served_run fetcher root depth sched
  obtain ⟨_, _, hcache, _⟩ := Inv_run fetcher root depth sched
  have hbody : ∀ v, ((run fetcher (State.init root depth) sched).cache.cache v).isSome →
      (run fetcher (State.init root depth) sched).cache.cache v =
        some (fetcher.Fetch v).body := by
    intro v hv
    obtain ⟨b, hb⟩ := Option.isSome_iff_exists.mp hv
    rw [hb, (hcache v b hb).2.2]
  have hsp : ∀ v d, Ev.spawn v d ∈ (run fetcher (State.init root depth) sched).trace → 0 < d →
      (fetcher.Fetch v).err = none →
      (run fetcher (State.init root depth) sched).cache.cache v =
        some (fetcher.Fetch v).body :=
    fun v d hv hd he => hbody v (served_of_allDone hdone (hspawn v d hv hd he))
  refine ⟨?_, hsp⟩
  intro k v hreach hk hlt he
  cases hreach with
  | root => exact hbody _ (served_of_allDone hdone (hroot (by simpa using hlt) he))
  | link hprev heu hmem =>
    rename_i k' u
    have hk0 : k' = 0 := by omega
    subst hk0
    cases hprev
    have hd : 0 < depth := by
      push_cast at hlt
      omega
    have hstage := run_invariant (RootStage fetcher root depth)
      (rootStage_step hd heu) (State.init root depth)
      (Or.inl ⟨rfl, Or.inl rfl⟩) sched
    rcases hstage with ⟨_, hp⟩ | ⟨rest, h0, hall⟩
    · exfalso
      rcases hp with hp | hp | hp
      all_goals
        have := hdone _ (by rw [hp]; exact List.mem_singleton.mpr rfl)
        cases this
    · have hd0 := hdone _ (List.getElem?_mem h0)
      have hrest := afterLoop_ne_done hd0
      subst hrest
      rcases hall v hmem with h1 | h1
      · simp at h1
      · exact hsp v (depth - 1) h1 (by push_cast at hlt; omega) he

theorem crawl_complete_near_root_witness :
    (run twinFetcher (State.init "root" 2) twinSchedule).pool = List.replicate 3 Task.done ∧
    (run twinFetcher (State.init "root" 2) twinSchedule).cache.cache "a" = some "x" := by
  have hpool : (run twinFetcher (State.init "root" 2) twinSchedule).pool =
      List.replicate 3 Task.done := by decide
  refine ⟨hpool, ?_⟩
  exact (crawl_complete_near_root twinFetcher "root" 2 twinSchedule
    (by intro t ht; rw [hpool] at ht; exact List.eq_of_mem_replicate ht)).1
    1 "a" (@ReachIn.link twinFetcher "root" 0 "root" "a" ReachIn.root (by decide) (by decide))
    le_rfl (by decide) (by decide)

/-! ## Channels -/

/-- A step of the sending goroutine keeps the walk accounted for, keeps the kind of
goroutine, closes nothing unless the goroutine is `WalkAndClose`, and lowers the
bound. -/
theorem send_ok {w pre : List Int} {c c' : Chan} (h : ChanOk w pre c)
    (hs : c.send = some c') :
    ChanOk w pre c' ∧ c'.closes = c.closes ∧ (c.closes = false → c'.closed = c.closed) ∧
    c'.cost < c.cost := by
  obtain ⟨todo, closes, buf, closed⟩ := c
  obtain ⟨hw, hcl⟩ := h
  simp only at hw hcl
  cases todo with
  | nil =>
    simp only [Chan.send] at hs
    split at hs
    · rename_i hflag
      cases hs
      refine ⟨⟨by simpa using hw, fun _ => rfl⟩, rfl, ?_, ?_⟩
      · intro hc
        simp only at hc
        simp [hc] at hflag
      · simp [Chan.cost, hflag]
    · cases hs
  | cons v rest =>
    simp only [Chan.send] at hs
    split at hs
    · cases hs
      refine ⟨⟨by simpa using hw, ?_⟩, rfl, fun _ => rfl, ?_⟩
      · intro hc
        simp only at hc
        have := hcl hc
        cases this
      · simp only [Chan.cost, List.length_cons, List.length_append, List.length_nil]
        omega
    · cases hs

/-- A receive takes the next value of the walk, or finds the channel closed with the
whole walk received. -/
theorem recv_ok {w pre : List Int} {c c' : Chan} {v : Int} {ok : Bool} (h : ChanOk w pre c)
    (hr : c.recv = some (v, ok, c')) :
    (ok = true ∧ ChanOk w (pre ++ [v]) c' ∧ c'.closes = c.closes ∧ c'.closed = c.closed ∧
      c'.cost + 2 = c.cost) ∨
    (ok = false ∧ v = 0 ∧ c' = c ∧ w = pre ∧ c.closed = true) := by
  obtain ⟨todo, closes, buf, closed⟩ := c
  obtain ⟨hw, hcl⟩ := h
  simp only at hw hcl
  cases buf with
  | nil =>
    simp only [Chan.recv] at hr
    split at hr
    · rename_i hc
      simp only [Option.some.injEq, Prod.mk.injEq] at hr
      obtain ⟨rfl, rfl, rfl⟩ := hr
      right
      have := hcl hc
      subst this
      exact ⟨rfl, rfl, rfl, by simpa using hw, hc⟩
    · cases hr
  | cons x rest =>
    simp only [Chan.recv, Option.some.injEq, Prod.mk.injEq] at hr
    obtain ⟨rfl, rfl, rfl⟩ := hr
    left
    refine ⟨rfl, ⟨by simpa using hw, hcl⟩, rfl, rfl, ?_⟩
    simp only [Chan.cost, List.length_cons]
    omega

/-- A channel whose goroutine is `WalkAndClose` never blocks both ends. -/
theorem chan_live_closing (c : Chan) (hcl : c.closes = true) :
    (∃ r, c.recv = some r) ∨ (∃ c', c.send = some c') := by
  obtain ⟨todo, closes, buf, closed⟩ := c
  simp only at hcl
  subst hcl
  cases buf with
  | cons x rest => exact Or.inl ⟨_, rfl⟩
  | nil =>
    cases closed with
    | true =>
      left
      simp [Chan.recv]
    | false =>
      right
      cases todo with
      | nil => simp [Chan.send]
      | cons v rest => simp [Chan.send]

theorem walks_differ_at {pre x y : List Int} {a b : Int} (hab : a ≠ b) :
    (pre ++ [a]) ++ x ≠ (pre ++ [b]) ++ y := by
  intro h
  simp only [List.append_assoc, List.singleton_append] at h
  have := List.append_cancel_left h
  simp only [List.cons.injEq] at this
  exact hab this.1

theorem walk_longer {pre x : List Int} {a : Int} : (pre ++ [a]) ++ x ≠ pre := by
  intro h
  have := congrArg List.length h
  simp at this

/-! ## `SameInOrderTraversalGeneric` -/

theorem generic_init_ok (t1 t2 : Tree) :
    GenericOk (Walk t1) (Walk t2) (GenericState.init t1 t2) :=
  ⟨rfl, rfl, [], [], ⟨by simp [GenericState.init, goWalkAndClose], by
      simp [GenericState.init, goWalkAndClose]⟩,
    ⟨by simp [GenericState.init, goWalkAndClose], by
      simp [GenericState.init, goWalkAndClose]⟩, rfl⟩

/-- Every step of a call of `SameInOrderTraversalGeneric` keeps the invariant and
lowers the bound. -/
theorem generic_step_ok {w1 w2 : List Int} {s s' : GenericState} {i : Nat}
    (h : GenericOk w1 w2 s) (hs : genericStep s i = some s') :
    GenericOk w1 w2 s' ∧ s'.cost < s.cost := by
  obtain ⟨ch, ch2, pc⟩ := s
  obtain ⟨hc1, hc2, pre1, pre2, ho1, ho2, hpc⟩ := h
  simp only at hc1 hc2 ho1 ho2 hpc
  rcases i with _ | _ | _ | i
  · simp only [genericStep, Option.map_eq_some'] at hs
    obtain ⟨c, hsend, rfl⟩ := hs
    obtain ⟨hok, hcl, _, hcost⟩ := send_ok ho1 hsend
    refine ⟨⟨by rw [hcl]; exact hc1, hc2, pre1, pre2, hok, ho2, hpc⟩, ?_⟩
    simp only [GenericState.cost]
    omega
  · simp only [genericStep, Option.map_eq_some'] at hs
    obtain ⟨c, hsend, rfl⟩ := hs
    obtain ⟨hok, hcl, _, hcost⟩ := send_ok ho2 hsend
    refine ⟨⟨hc1, by rw [hcl]; exact hc2, pre1, pre2, ho1, hok, hpc⟩, ?_⟩
    simp only [GenericState.cost]
    omega
  · simp only [genericStep, genericCaller] at hs
    cases pc with
    | recvFirst =>
      simp only at hs hpc
      cases hr : ch.recv with
      | none => simp [hr] at hs
      | some r =>
        obtain ⟨first, ok, c⟩ := r
        simp only [hr, Option.some.injEq] at hs
        subst hs
        rcases recv_ok ho1 hr with ⟨rfl, hok, hcl, _, hcost⟩ | ⟨rfl, rfl, rfl, hw, _⟩
        · refine ⟨⟨by rw [hcl]; exact hc1, hc2, pre1 ++ [first], pre2, hok, ho2,
            Or.inl ⟨rfl, by rw [hpc]⟩⟩, ?_⟩
          simp only [GenericState.cost]
          omega
        · refine ⟨⟨hc1, hc2, pre1, pre2, ho1, ho2, Or.inr ⟨rfl, rfl, hpc, hw⟩⟩, ?_⟩
          simp only [GenericState.cost]
          omega
    | recvSecond first ok =>
      simp only at hs hpc
      cases hr : ch2.recv with
      | none => simp [hr] at hs
      | some r =>
        obtain ⟨second, ok2, c2⟩ := r
        simp only [hr] at hs
        rcases recv_ok ho2 hr with ⟨rfl, hok2, hcl2, _, hcost2⟩ | ⟨rfl, rfl, rfl, hw2, _⟩
        · rcases hpc with ⟨rfl, hpre⟩ | ⟨rfl, rfl, hpre, hw1⟩
          · by_cases hfs : first = second
            · subst hfs
              simp at hs
              subst hs
              refine ⟨⟨hc1, by rw [hcl2]; exact hc2, pre1, pre2 ++ [first], ho1, hok2, hpre⟩,
                ?_⟩
              simp only [GenericState.cost]
              omega
            · simp [hfs] at hs
              subst hs
              refine ⟨⟨hc1, by rw [hcl2]; exact hc2, pre1, pre2 ++ [second], ho1, hok2, ?_⟩,
                ?_⟩
              · have hne : w1 ≠ w2 := by
                  rw [ho1.1, hok2.1, hpre, List.append_assoc (pre2 ++ [first]),
                    List.append_assoc (pre2 ++ [second])]
                  exact walks_differ_at hfs
                simp [hne]
              · simp only [GenericState.cost]
                omega
          · simp at hs
            subst hs
            refine ⟨⟨hc1, by rw [hcl2]; exact hc2, pre1, pre2 ++ [second], ho1, hok2, ?_⟩, ?_⟩
            · have hne : w1 ≠ w2 := by
                rw [hw1, hok2.1, hpre, List.append_assoc (pre2 ++ [second])]
                exact fun e => walk_longer e.symm
              simp [hne]
            · simp only [GenericState.cost]
              omega
        · rcases hpc with ⟨rfl, hpre⟩ | ⟨rfl, rfl, hpre, hw1⟩
          · simp at hs
            subst hs
            refine ⟨⟨hc1, hc2, pre1, pre2, ho1, ho2, ?_⟩, ?_⟩
            · have hne : w1 ≠ w2 := by
                rw [ho1.1, hw2, hpre, List.append_assoc (pre2 ++ [first])]
                exact walk_longer
              simp [hne]
            · simp only [GenericState.cost]
              omega
          · simp at hs
            subst hs
            refine ⟨⟨hc1, hc2, pre1, pre2, ho1, ho2, ?_⟩, ?_⟩
            · have he : w1 = w2 := by rw [hw1, hw2, hpre]
              simp [he]
            · simp only [GenericState.cost]
              omega
    | returned b => simp at hs
  · simp [genericStep] at hs

theorem generic_run_ok {w1 w2 : List Int} (sched : List Nat) :
    ∀ s : GenericState, GenericOk w1 w2 s → GenericOk w1 w2 (genericRun s sched) := by
  induction sched with
  | nil => exact fun s h => h
  | cons i sched ih =>
    intro s h
    simp only [genericRun]
    apply ih
    cases hs : genericStep s i with
    | none => simpa using h
    | some s' => simpa using (generic_step_ok h hs).1

/-- While the caller of `SameInOrderTraversalGeneric` has not returned, one of the
three processes can move. -/
theorem generic_progress {w1 w2 : List Int} {s : GenericState} (h : GenericOk w1 w2 s)
    (hpc : ∀ b, s.pc ≠ GenericPc.returned b) :
    (∃ s', genericStep s 0 = some s') ∨ (∃ s', genericStep s 1 = some s') ∨
    (∃ s', genericStep s 2 = some s') := by
  obtain ⟨ch, ch2, pc⟩ := s
  obtain ⟨hc1, hc2, _⟩ := h
  simp only at hc1 hc2 hpc
  cases pc with
  | recvFirst =>
    rcases chan_live_closing ch hc1 with ⟨r, hr⟩ | ⟨c, hsend⟩
    · right; right
      obtain ⟨first, ok, c⟩ := r
      simp only [genericStep, genericCaller, hr]
      exact ⟨_, rfl⟩
    · left
      simp only [genericStep, hsend, Option.map_some']
      exact ⟨_, rfl⟩
  | recvSecond first ok =>
    rcases chan_live_closing ch2 hc2 with ⟨r, hr⟩ | ⟨c, hsend⟩
    · right; right
      obtain ⟨second, ok2, c2⟩ := r
      simp only [genericStep, genericCaller, hr]
      split
      · exact ⟨_, rfl⟩
      · split
        · exact ⟨_, rfl⟩
        · split <;> exact ⟨_, rfl⟩
    · right; left
      simp only [genericStep, hsend, Option.map_some']
      exact ⟨_, rfl⟩
  | returned b => exact absurd rfl (hpc b)

theorem generic_pick_ok {w1 w2 : List Int} {s : GenericState} (i : Nat)
    (h : GenericOk w1 w2 s) :
    GenericOk w1 w2 ((genericStep s i).getD s) ∧
    ((genericStep s i).getD s).cost ≤ s.cost ∧
    ((∃ s', genericStep s i = some s') → ((genericStep s i).getD s).cost < s.cost) := by
  cases hs : genericStep s i with
  | none => exact ⟨by simpa using h, by simp, fun ⟨s', h'⟩ => by cases h'⟩
  | some s' =>
    obtain ⟨h1, h2⟩ := generic_step_ok h hs
    exact ⟨by simpa using h1, by simpa using le_of_lt h2, fun _ => by simpa using h2⟩

theorem generic_returned_step {s : GenericState} {b : Bool} (i : Nat)
    (h : s.pc = GenericPc.returned b) :
    ((genericStep s i).getD s).pc = GenericPc.returned b := by
  obtain ⟨ch, ch2, pc⟩ := s
  simp only at h
  subst h
  rcases i with _ | _ | _ | i
  · simp only [genericStep]
    cases ch.send <;> rfl
  · simp only [genericStep]
    cases ch2.send <;> rfl
  · rfl
  · rfl

theorem generic_returned_run {b : Bool} (sched : List Nat) :
    ∀ s : GenericState, s.pc = GenericPc.returned b →
      (genericRun s sched).pc = GenericPc.returned b := by
  induction sched with
  | nil => exact fun s h => h
  | cons i sched ih => exact fun s h => ih _ (generic_returned_step i h)

/-- One round of the round-robin schedule lowers the bound while the caller has not
returned. -/
theorem generic_round {w1 w2 : List Int} {s : GenericState} (h : GenericOk w1 w2 s)
    (hpc : ∀ b, s.pc ≠ GenericPc.returned b) :
    (genericRun s [0, 1, 2]).cost < s.cost := by
  obtain ⟨ha1, ha2, ha3⟩ := generic_pick_ok 0 h
  obtain ⟨hb1, hb2, hb3⟩ := generic_pick_ok 1 ha1
  obtain ⟨hc1, hc2, hc3⟩ := generic_pick_ok 2 hb1
  simp only [genericRun]
  by_cases h0 : ∃ s', genericStep s 0 = some s'
  · have := ha3 h0
    omega
  · have e0 : (genericStep s 0).getD s = s := by
      cases hs : genericStep s 0 with
      | none => rfl
      | some s' => exact absurd ⟨s', hs⟩ h0
    rw [e0] at hb2 hb3 hc2 hc3 ⊢
    by_cases h1 : ∃ s', genericStep s 1 = some s'
    · have := hb3 h1
      omega
    · have e1 : (genericStep s 1).getD s = s := by
        cases hs : genericStep s 1 with
        | none => rfl
        | some s' => exact absurd ⟨s', hs⟩ h1
      rw [e1] at hc2 hc3 ⊢
      rcases generic_progress h hpc with h2 | h2 | h2
      · exact absurd h2 h0
      · exact absurd h2 h1
      · exact hc3 h2

/-- Under the round-robin schedule the caller of `SameInOrderTraversalGeneric`
returns within as many rounds as the bound. -/
theorem generic_returns {w1 w2 : List Int} (n : Nat) :
    ∀ s : GenericState, GenericOk w1 w2 s → s.cost ≤ n →
      ∃ b, (genericRun s (roundRobin n)).pc = GenericPc.returned b := by
  induction n with
  | zero =>
    intro s h hn
    obtain ⟨ch, ch2, pc⟩ := s
    cases pc with
    | returned b => exact ⟨b, rfl⟩
    | recvFirst => simp [GenericState.cost] at hn
    | recvSecond first ok => simp [GenericState.cost] at hn
  | succ n ih =>
    intro s h hn
    by_cases hpc : ∃ b, s.pc = GenericPc.returned b
    · obtain ⟨b, hb⟩ := hpc
      exact ⟨b, generic_returned_run _ s hb⟩
    · have hlt := generic_round h (fun b hb => hpc ⟨b, hb⟩)
      have hok := generic_run_ok [0, 1, 2] s h
      obtain ⟨b, hb⟩ := ih _ hok (by omega)
      exact ⟨b, hb⟩

/-- The result of `SameInOrderTraversalGeneric` is the equality of the two walks. -/
theorem generic_result (t1 t2 : Tree) :
    SameInOrderTraversalGeneric t1 t2 = some (decide (Walk t1 = Walk t2)) := by
  obtain ⟨b, hb⟩ := generic_returns (GenericState.init t1 t2).cost _
    (generic_init_ok t1 t2) le_rfl
  have hok := generic_run_ok (roundRobin (GenericState.init t1 t2).cost) _
    (generic_init_ok t1 t2)
  obtain ⟨_, _, _, _, _, _, hpc⟩ := hok
  rw [hb] at hpc
  simp only at hpc
  simp only [SameInOrderTraversalGeneric, hb, hpc]

/-! ## `SameInOrderTraversal` on trees with 10 values -/

theorem ten_init_ok (t1 t2 : Tree) : TenOk (Walk t1) (Walk t2) (TenState.init t1 t2) :=
  ⟨rfl, rfl, rfl, rfl, [], [], ⟨by simp [TenState.init, goWalk], by
      simp [TenState.init, goWalk]⟩,
    ⟨by simp [TenState.init, goWalk], by simp [TenState.init, goWalk]⟩, rfl, rfl⟩

/-- A channel that has not delivered the whole walk has a value buffered or its
goroutine can send one. -/
theorem chan_live_open {w pre : List Int} {c : Chan} (h : ChanOk w pre c)
    (hlen : pre.length < w.length) :
    (∃ r, c.recv = some r) ∨ (∃ c', c.send = some c') := by
  obtain ⟨todo, closes, buf, closed⟩ := c
  obtain ⟨hw, _⟩ := h
  simp only at hw
  cases buf with
  | cons x rest => exact Or.inl ⟨_, rfl⟩
  | nil =>
    right
    cases todo with
    | nil =>
      rw [hw] at hlen
      simp at hlen
    | cons v rest => simp [Chan.send]

theorem walk_all_received {w pre : List Int} {c : Chan} (h : ChanOk w pre c)
    (hlen : w.length ≤ pre.length) : w = pre := by
  have h1 := h.1
  have h2 := congrArg List.length h1
  simp only [List.length_append] at h2
  have hb : c.buf = [] := List.length_eq_zero.mp (by omega)
  have ht : c.todo = [] := List.length_eq_zero.mp (by omega)
  rw [hb, ht] at h1
  simpa using h1

/-- Every step of a call of `SameInOrderTraversal` on trees with 10 values keeps the
invariant and lowers the bound. -/
theorem ten_step_ok {w1 w2 : List Int} (hl1 : w1.length = 10) (hl2 : w2.length = 10)
    {s s' : TenState} {i : Nat} (h : TenOk w1 w2 s) (hs : tenStep s i = some s') :
    TenOk w1 w2 s' ∧ s'.cost < s.cost := by
  obtain ⟨ch, ch2, pc⟩ := s
  obtain ⟨hc1, hc2, hd1, hd2, pre1, pre2, ho1, ho2, hpc⟩ := h
  simp only at hc1 hc2 hd1 hd2 ho1 ho2 hpc
  rcases i with _ | _ | _ | i
  · simp only [tenStep, Option.map_eq_some'] at hs
    obtain ⟨c, hsend, rfl⟩ := hs
    obtain ⟨hok, hcl, hcd, hcost⟩ := send_ok ho1 hsend
    refine ⟨⟨by rw [hcl]; exact hc1, hc2, by rw [hcd hc1]; exact hd1, hd2, pre1, pre2, hok,
      ho2, hpc⟩, ?_⟩
    simp only [TenState.cost]
    omega
  · simp only [tenStep, Option.map_eq_some'] at hs
    obtain ⟨c, hsend, rfl⟩ := hs
    obtain ⟨hok, hcl, hcd, hcost⟩ := send_ok ho2 hsend
    refine ⟨⟨hc1, by rw [hcl]; exact hc2, hd1, by rw [hcd hc2]; exact hd2, pre1, pre2, ho1,
      hok, hpc⟩, ?_⟩
    simp only [TenState.cost]
    omega
  · simp only [tenStep, tenCaller] at hs
    cases pc with
    | loop k =>
      simp only at hs hpc
      obtain ⟨hpre, hk⟩ := hpc
      by_cases hlt : k < 10
      · simp only [hlt, if_true] at hs
        cases hr : ch.recv with
        | none => simp [hr] at hs
        | some r =>
          obtain ⟨first, ok, c⟩ := r
          simp only [hr, Option.some.injEq] at hs
          subst hs
          rcases recv_ok ho1 hr with ⟨_, hok, hcl, hcd, hcost⟩ | ⟨_, _, _, _, hclosed⟩
          · refine ⟨⟨by rw [hcl]; exact hc1, hc2, by rw [hcd]; exact hd1, hd2,
              pre1 ++ [first], pre2, hok, ho2, by rw [hpre], by rw [← hpre]; exact hk, hlt⟩, ?_⟩
            simp only [TenState.cost]
            omega
          · rw [hd1] at hclosed
            cases hclosed
      · simp only [hlt, if_false, Option.some.injEq] at hs
        subst hs
        refine ⟨⟨hc1, hc2, hd1, hd2, pre1, pre2, ho1, ho2, ?_⟩, ?_⟩
        · have e1 := walk_all_received ho1 (by omega)
          have e2 := walk_all_received ho2 (by rw [← hpre]; omega)
          have he : w1 = w2 := by rw [e1, e2, hpre]
          simp [he]
        · simp only [TenState.cost]
          omega
    | recvSecond k first =>
      simp only at hs hpc
      obtain ⟨hpre, hk, hlt⟩ := hpc
      cases hr : ch2.recv with
      | none => simp [hr] at hs
      | some r =>
        obtain ⟨second, ok2, c2⟩ := r
        simp only [hr] at hs
        rcases recv_ok ho2 hr with ⟨_, hok2, hcl2, hcd2, hcost2⟩ | ⟨_, _, _, _, hclosed⟩
        · by_cases hfs : first = second
          · subst hfs
            simp at hs
            subst hs
            refine ⟨⟨hc1, by rw [hcl2]; exact hc2, hd1, by rw [hcd2]; exact hd2, pre1,
              pre2 ++ [first], ho1, hok2, hpre, by rw [hpre]; simp [hk]⟩, ?_⟩
            simp only [TenState.cost]
            omega
          · simp [hfs] at hs
            subst hs
            refine ⟨⟨hc1, by rw [hcl2]; exact hc2, hd1, by rw [hcd2]; exact hd2, pre1,
              pre2 ++ [second], ho1, hok2, ?_⟩, ?_⟩
            · have hne : w1 ≠ w2 := by
                rw [ho1.1, hok2.1, hpre, List.append_assoc (pre2 ++ [first]),
                  List.append_assoc (pre2 ++ [second])]
                exact walks_differ_at hfs
              simp [hne]
            · simp only [TenState.cost]
              omega
        · rw [hd2] at hclosed
          cases hclosed
    | returned b => simp at hs
  · simp [tenStep] at hs

theorem ten_run_ok {w1 w2 : List Int} (hl1 : w1.length = 10) (hl2 : w2.length = 10)
    (sched : List Nat) :
    ∀ s : TenState, TenOk w1 w2 s → TenOk w1 w2 (tenRun s sched) := by
  induction sched with
  | nil => exact fun s h => h
  | cons i sched ih =>
    intro s h
    simp only [tenRun]
    apply ih
    cases hs : tenStep s i with
    | none => simpa using h
    | some s' => simpa using (ten_step_ok hl1 hl2 h hs).1

/-- While the caller of `SameInOrderTraversal` has not returned, one of the three
processes can move, the trees having 10 values. -/
theorem ten_progress {w1 w2 : List Int} (hl1 : w1.length = 10) (hl2 : w2.length = 10)
    {s : TenState} (h : TenOk w1 w2 s) (hpc : ∀ b, s.pc ≠ TenPc.returned b) :
    (∃ s', tenStep s 0 = some s') ∨ (∃ s', tenStep s 1 = some s') ∨
    (∃ s', tenStep s 2 = some s') := by
  obtain ⟨ch, ch2, pc⟩ := s
  obtain ⟨_, _, _, _, pre1, pre2, ho1, ho2, hinv⟩ := h
  simp only at ho1 ho2 hinv hpc
  cases pc with
  | loop k =>
    simp only at hinv
    obtain ⟨hpre, hk⟩ := hinv
    by_cases hlt : k < 10
    · rcases chan_live_open ho1 (by omega) with ⟨r, hr⟩ | ⟨c, hsend⟩
      · right; right
        obtain ⟨first, ok, c⟩ := r
        simp only [tenStep, tenCaller, hlt, if_true, hr]
        exact ⟨_, rfl⟩
      · left
        simp only [tenStep, hsend, Option.map_some']
        exact ⟨_, rfl⟩
    · right; right
      simp only [tenStep, tenCaller, hlt, if_false]
      exact ⟨_, rfl⟩
  | recvSecond k first =>
    simp only at hinv
    obtain ⟨hpre, hk, hlt⟩ := hinv
    rcases chan_live_open ho2 (by omega) with ⟨r, hr⟩ | ⟨c, hsend⟩
    · right; right
      obtain ⟨second, ok2, c2⟩ := r
      simp only [tenStep, tenCaller, hr]
      split <;> exact ⟨_, rfl⟩
    · right; left
      simp only [tenStep, hsend, Option.map_some']
      exact ⟨_, rfl⟩
  | returned b => exact absurd rfl (hpc b)

theorem ten_pick_ok {w1 w2 : List Int} (hl1 : w1.length = 10) (hl2 : w2.length = 10)
    {s : TenState} (i : Nat) (h : TenOk w1 w2 s) :
    TenOk w1 w2 ((tenStep s i).getD s) ∧
    ((tenStep s i).getD s).cost ≤ s.cost ∧
    ((∃ s', tenStep s i = some s') → ((tenStep s i).getD s).cost < s.cost) := by
  cases hs : tenStep s i with
  | none => exact ⟨by simpa using h, by simp, fun ⟨s', h'⟩ => by cases h'⟩
  | some s' =>
    obtain ⟨h1, h2⟩ := ten_step_ok hl1 hl2 h hs
    exact ⟨by simpa using h1, by simpa using le_of_lt h2, fun _ => by simpa using h2⟩

theorem ten_returned_step {s : TenState} {b : Bool} (i : Nat)
    (h : s.pc = TenPc.returned b) : ((tenStep s i).getD s).pc = TenPc.returned b := by
  obtain ⟨ch, ch2, pc⟩ := s
  simp only at h
  subst h
  rcases i with _ | _ | _ | i
  · simp only [tenStep]
    cases ch.send <;> rfl
  · simp only [tenStep]
    cases ch2.send <;> rfl
  · rfl
  · rfl

theorem ten_returned_run {b : Bool} (sched : List Nat) :
    ∀ s : TenState, s.pc = TenPc.returned b → (tenRun s sched).pc = TenPc.returned b := by
  induction sched with
  | nil => exact fun s h => h
  | cons i sched ih => exact fun s h => ih _ (ten_returned_step i h)

theorem ten_round {w1 w2 : List Int} (hl1 : w1.length = 10) (hl2 : w2.length = 10)
    {s : TenState} (h : TenOk w1 w2 s) (hpc : ∀ b, s.pc ≠ TenPc.returned b) :
    (tenRun s [0, 1, 2]).cost < s.cost := by
  obtain ⟨ha1, ha2, ha3⟩ := ten_pick_ok hl1 hl2 0 h
  obtain ⟨hb1, hb2, hb3⟩ := ten_pick_ok hl1 hl2 1 ha1
  obtain ⟨hc1, hc2, hc3⟩ := ten_pick_ok hl1 hl2 2 hb1
  simp only [tenRun]
  by_cases h0 : ∃ s', tenStep s 0 = some s'
  · have := ha3 h0
    omega
  · have e0 : (tenStep s 0).getD s = s := by
      cases hs : tenStep s 0 with
      | none => rfl
      | some s' => exact absurd ⟨s', hs⟩ h0
    rw [e0] at hb2 hb3 hc2 hc3 ⊢
    by_cases h1 : ∃ s', tenStep s 1 = some s'
    · have := hb3 h1
      omega
    · have e1 : (tenStep s 1).getD s = s := by
        cases hs : tenStep s 1 with
        | none => rfl
        | some s' => exact absurd ⟨s', hs⟩ h1
      rw [e1] at hc2 hc3 ⊢
      rcases ten_progress hl1 hl2 h hpc with h2 | h2 | h2
      · exact absurd h2 h0
      · exact absurd h2 h1
      · exact hc3 h2

theorem ten_returns {w1 w2 : List Int} (hl1 : w1.length = 10) (hl2 : w2.length = 10)
    (n : Nat) :
    ∀ s : TenState, TenOk w1 w2 s → s.cost ≤ n →
      ∃ b, (tenRun s (roundRobin n)).pc = TenPc.returned b := by
  induction n with
  | zero =>
    intro s h hn
    obtain ⟨ch, ch2, pc⟩ := s
    cases pc with
    | returned b => exact ⟨b, rfl⟩
    | loop k => simp [TenState.cost] at hn
    | recvSecond k first => simp [TenState.cost] at hn
  | succ n ih =>
    intro s h hn
    by_cases hpc : ∃ b, s.pc = TenPc.returned b
    · obtain ⟨b, hb⟩ := hpc
      exact ⟨b, ten_returned_run _ s hb⟩
    · have hlt := ten_round hl1 hl2 h (fun b hb => hpc ⟨b, hb⟩)
      have hok := ten_run_ok hl1 hl2 [0, 1, 2] s h
      obtain ⟨b, hb⟩ := ih _ hok (by omega)
      exact ⟨b, hb⟩

/-- On trees with 10 values the result of `SameInOrderTraversal` is the equality of
the two walks. -/
theorem ten_result (t1 t2 : Tree) (hl1 : (Walk t1).length = 10)
    (hl2 : (Walk t2).length = 10) :
    SameInOrderTraversal t1 t2 = some (decide (Walk t1 = Walk t2)) := by
  obtain ⟨b, hb⟩ := ten_returns hl1 hl2 (TenState.init t1 t2).cost _
    (ten_init_ok t1 t2) le_rfl
  have hok := ten_run_ok hl1 hl2 (roundRobin (TenState.init t1 t2).cost) _
    (ten_init_ok t1 t2)
  obtain ⟨_, _, _, _, _, _, _, _, hpc⟩ := hok
  rw [hb] at hpc
  simp only at hpc
  simp only [SameInOrderTraversal, hb, hpc]

/-- C15 (tree comparison over channels). For all trees `t1` and `t2`, the nil tree
and trees of different sizes included, `SameInOrderTraversalGeneric` returns, and it
returns true exactly when the value sequences that `Walk` sends for `t1` and `t2` are
equal; under every schedule of the two walking goroutines and the caller, a result
returned is that one. On trees with exactly 10 values `SameInOrderTraversal` returns
the same result, under every schedule. -/
theorem traversal_generic_spec (t1 t2 : Tree) :
    SameInOrderTraversalGeneric t1 t2 = some (decide (Walk t1 = Walk t2)) ∧
    (∀ sched b, (genericRun (GenericState.init t1 t2) sched).pc = GenericPc.returned b →
      (b = true ↔ Walk t1 = Walk t2)) ∧
    ((Walk t1).length = 10 → (Walk t2).length = 10 →
      SameInOrderTraversal t1 t2 = SameInOrderTraversalGeneric t1 t2 ∧
      ∀ sched b, (tenRun (TenState.init t1 t2) sched).pc = TenPc.returned b →
        (b = true ↔ Walk t1 = Walk t2)) := by
  refine ⟨generic_result t1 t2, ?_, ?_⟩
  · intro sched b hb
    obtain ⟨_, _, _, _, _, _, hpc⟩ := generic_run_ok sched _ (generic_init_ok t1 t2)
    rw [hb] at hpc
    simp only at hpc
    simp [hpc]
  · intro hl1 hl2
    refine ⟨by rw [ten_result t1 t2 hl1 hl2, generic_result], ?_⟩
    intro sched b hb
    obtain ⟨_, _, _, _, _, _, _, _, hpc⟩ := ten_run_ok hl1 hl2 sched _ (ten_init_ok t1 t2)
    rw [hb] at hpc
    simp only at hpc
    simp [hpc]

theorem traversal_generic_spec_witness :
    SameInOrderTraversalGeneric (Tree.ofList [1, 2, 3])
      (Tree.node (Tree.node Tree.nil 1 Tree.nil) 2 (Tree.node Tree.nil 3 Tree.nil)) =
      some true ∧
    SameInOrderTraversalGeneric Tree.nil Tree.nil = some true ∧
    SameInOrderTraversalGeneric (Tree.ofList [1, 2]) (Tree.ofList [1, 2, 0]) = some false ∧
    SameInOrderTraversal (Tree.ofList [1, 2, 3, 4, 5, 6, 7, 8, 9, 10])
      (Tree.ofList [2, 4, 6, 8, 10, 12, 14, 16, 18, 20]) =
      SameInOrderTraversalGeneric (Tree.ofList [1, 2, 3, 4, 5, 6, 7, 8, 9, 10])
        (Tree.ofList [2, 4, 6, 8, 10, 12, 14, 16, 18, 20]) :=
  ⟨(traversal_generic_spec _ _).1.trans (by decide),
   (traversal_generic_spec _ _).1.trans (by decide),
   (traversal_generic_spec _ _).1.trans (by decide),
   ((traversal_generic_spec (Tree.ofList [1, 2, 3, 4, 5, 6, 7, 8, 9, 10])
      (Tree.ofList [2, 4, 6, 8, 10, 12, 14, 16, 18, 20])).2.2 (by decide) (by decide)).1⟩

/-! ## Crawls with goroutines run one at a time finish -/

/-- A goroutine run to completion lowers the bound of the state. -/
theorem stepAtomic_cost_lt {fetcher : Fetcher} {s s' : State} {i : Nat}
    (h : stepAtomic fetcher s i = some s') : State.cost fetcher s' < State.cost fetcher s := by
  obtain ⟨n, hn⟩ := stepAtomic_is_exec h
  have hc := (exec_cost hn).1
  simp only [List.length_replicate] at hc
  cases n with
  | succ n => omega
  | zero =>
    exfalso
    simp only [List.replicate_zero, exec, Option.some.injEq] at hn
    obtain ⟨x, d, hx, he⟩ := stepAtomic_some h
    rw [← hn] at he
    have hp := congrArg State.pool he
    simp only at hp
    have h1 := get_set_append Task.done
      ((spawnsOf (crawl x d fetcher s.cache).trace).map (fun p => Task.start p.1 p.2)) hx
    rw [← hp, hx] at h1
    cases h1

/-- With goroutines run one at a time every goroutine has not started or has
returned; so while one has not returned, one can run. -/
theorem stepAtomic_pool {fetcher : Fetcher} (s : State) (i : Nat) (s' : State)
    (hinv : ∀ t ∈ s.pool, t = Task.done ∨ ∃ x d, t = Task.start x d)
    (h : stepAtomic fetcher s i = some s') :
    ∀ t ∈ s'.pool, t = Task.done ∨ ∃ x d, t = Task.start x d := by
  obtain ⟨x, d, hx, rfl⟩ := stepAtomic_some h
  intro t ht
  rcases mem_set_append ht with h1 | h1 | h1
  · exact hinv t h1
  · exact Or.inl h1
  · obtain ⟨q, _, rfl⟩ := List.mem_map.mp h1
    exact Or.inr ⟨q.1, q.2, rfl⟩

/-- From a state in which no goroutine is half-way, running goroutines one at a time
reaches a state in which every goroutine has returned. -/
theorem atomic_finishes (fetcher : Fetcher) (n : Nat) :
    ∀ s : State, State.cost fetcher s ≤ n →
      (∀ t ∈ s.pool, t = Task.done ∨ ∃ x d, t = Task.start x d) →
      ∃ sched, (runAtomic fetcher s sched).allDone := by
  induction n with
  | zero =>
    intro s hn hinv
    by_cases hdone : s.allDone
    · exact ⟨[], hdone⟩
    · exfalso
      simp only [State.allDone, not_forall] at hdone
      obtain ⟨t, ht, hne⟩ := hdone
      rcases hinv t ht with h1 | ⟨x, d, h1⟩
      · exact hne h1
      · subst h1
        obtain ⟨i, hi⟩ := List.getElem?_of_mem ht
        have := stepAtomic_cost_lt (stepAtomic_start fetcher hi)
        omega
  | succ n ih =>
    intro s hn hinv
    by_cases hdone : s.allDone
    · exact ⟨[], hdone⟩
    · simp only [State.allDone, not_forall] at hdone
      obtain ⟨t, ht, hne⟩ := hdone
      rcases hinv t ht with h1 | ⟨x, d, h1⟩
      · exact absurd h1 hne
      · subst h1
        obtain ⟨i, hi⟩ := List.getElem?_of_mem ht
        have hstep := stepAtomic_start fetcher hi
        have hlt := stepAtomic_cost_lt hstep
        obtain ⟨sched, hs⟩ := ih _ (by omega) (stepAtomic_pool s i _ hinv hstep)
        exact ⟨i :: sched, by simpa [runAtomic, hstep] using hs⟩

/-- Every run of a crawl with goroutines run one at a time can be continued to a
state in which every goroutine has returned. -/
theorem atomic_run_finishes (fetcher : Fetcher) (root : String) (depth : Int)
    (sched : List Nat) :
    ∃ rest, (runAtomic fetcher (State.init root depth) (sched ++ rest)).allDone := by
  have hinv := @runAtomic_invariant fetcher
    (fun s => ∀ t ∈ s.pool, t = Task.done ∨ ∃ x d, t = Task.start x d)
    (fun s i s' hs h => stepAtomic_pool s i s' hs h) (State.init root depth)
    (by
      intro t ht
      simp [State.init] at ht
      exact Or.inr ⟨root, depth, ht⟩) sched
  obtain ⟨rest, hrest⟩ := atomic_finishes fetcher _ _ le_rfl hinv
  exact ⟨rest, by rw [runAtomic_append]; exact hrest⟩

/-- C10 (failure of a link is local). Let `Fetch(u)` fail and let goroutines run to
completion one at a time, in any order. The crawl finishes, with the link to `u` in
the list of a page `p` and without it: every run can be continued until every
goroutine has returned. Removing the link does not change the caches a finished crawl
can end with: each final cache of the crawl with the link is the final cache of a
crawl without it, and conversely. And the crawl of `ConcurrencyMain` finishes and,
whatever the order, has then printed `not found: https://golang.org/cmd/` and holds in
the cache exactly the four pages of `FakeFetcherImpl` with their bodies. -/
theorem failed_link_isolated (fetcher : Fetcher) (p u root : String) (depth : Int)
    (hfail : (fetcher.Fetch u).err ≠ none) :
    (∀ sched, ∃ rest,
      (runAtomic fetcher (State.init root depth) (sched ++ rest)).allDone) ∧
    (∀ sched, ∃ rest,
      (runAtomic (dropLink fetcher p u) (State.init root depth) (sched ++ rest)).allDone) ∧
    (∀ sched, (runAtomic fetcher (State.init root depth) sched).allDone →
      ∃ sched', (runAtomic (dropLink fetcher p u) (State.init root depth) sched').allDone ∧
        (runAtomic (dropLink fetcher p u) (State.init root depth) sched').cache =
          (runAtomic fetcher (State.init root depth) sched).cache) ∧
    (∀ sched', (runAtomic (dropLink fetcher p u) (State.init root depth) sched').allDone →
      ∃ sched, (runAtomic fetcher (State.init root depth) sched).allDone ∧
        (runAtomic fetcher (State.init root depth) sched).cache =
          (runAtomic (dropLink fetcher p u) (State.init root depth) sched').cache) ∧
    (∀ sched, ∃ rest, (runAtomic mainFetcher mainInit (sched ++ rest)).allDone) ∧
    (runAtomic mainFetcher mainInit mainSchedule).allDone ∧
    (∀ sched, (runAtomic mainFetcher mainInit sched).allDone →
      Ev.err "not found: https://golang.org/cmd/" ∈
        (runAtomic mainFetcher mainInit sched).trace ∧
      ∀ x, (runAtomic mainFetcher mainInit sched).cache.cache x =
        (FakeFetcher.find FakeFetcherImpl x).map (fun r => r.body)) := by
  refine ⟨atomic_run_finishes fetcher root depth, atomic_run_finishes _ root depth, ?_, ?_,
    atomic_run_finishes mainFetcher _ 4, ?_, fun sched h => main_final sched h⟩
  · intro sched hdone
    obtain ⟨sched', h1, h2⟩ := sim_forward p hfail sched (State.init root depth)
      (State.init root depth) rfl (Skips.refl u _)
    refine ⟨sched', ?_, h1.symm⟩
    intro t ht
    exact hdone t (h2.mem_right t ht)
  · intro sched' hdone
    obtain ⟨sched, h1, h2⟩ := sim_backward fetcher p u sched' (State.init root depth)
      (State.init root depth) rfl (Skips.refl u _)
    obtain ⟨rest, h3, h4⟩ := flush_failing hfail _
      (runAtomic fetcher (State.init root depth) sched) le_rfl (by
        intro t ht
        rcases h2.mem_left t ht with h5 | h5
        · exact Or.inl (hdone t h5)
        · exact h5)
    refine ⟨sched ++ rest, ?_, ?_⟩
    · rw [runAtomic_append]
      exact h3
    · rw [runAtomic_append, h4]
      exact h1
  · intro t ht
    have hpool : (runAtomic mainFetcher mainInit mainSchedule).pool =
        List.replicate 11 Task.done := by decide
    rw [hpool] at ht
    exact List.eq_of_mem_replicate ht

theorem failed_link_isolated_witness :
    (mainFetcher.Fetch "https://golang.org/cmd/").err ≠ none ∧
    (runAtomic mainFetcher mainInit mainSchedule).allDone ∧
    Ev.err "not found: https://golang.org/cmd/" ∈
      (runAtomic mainFetcher mainInit mainSchedule).trace ∧
    (∀ x, (runAtomic mainFetcher mainInit mainSchedule).cache.cache x =
      (FakeFetcher.find FakeFetcherImpl x).map (fun r => r.body)) ∧
    ∃ sched', (runAtomic (dropLink mainFetcher "https://golang.org/" "https://golang.org/cmd/")
        (State.init "https://golang.org/" 4) sched').allDone ∧
      (runAtomic (dropLink mainFetcher "https://golang.org/" "https://golang.org/cmd/")
        (State.init "https://golang.org/" 4) sched').cache =
        (runAtomic mainFetcher (State.init "https://golang.org/" 4) mainSchedule).cache :=
  ⟨by decide,
   (failed_link_isolated mainFetcher "https://golang.org/" "https://golang.org/cmd/"
     "https://golang.org/" 4 (by decide)).2.2.2.2.2.1,
   ((failed_link_isolated mainFetcher "https://golang.org/" "https://golang.org/cmd/"
     "https://golang.org/" 4 (by decide)).2.2.2.2.2.2 mainSchedule
     (failed_link_isolated mainFetcher "https://golang.org/" "https://golang.org/cmd/"
       "https://golang.org/" 4 (by decide)).2.2.2.2.2.1).1,
   ((failed_link_isolated mainFetcher "https://golang.org/" "https://golang.org/cmd/"
     "https://golang.org/" 4 (by decide)).2.2.2.2.2.2 mainSchedule
     (failed_link_isolated mainFetcher "https://golang.org/" "https://golang.org/cmd/"
       "https://golang.org/" 4 (by decide)).2.2.2.2.2.1).2,
   (failed_link_isolated mainFetcher "https://golang.org/" "https://golang.org/cmd/"
     "https://golang.org/" 4 (by decide)).2.2.1 mainSchedule
     (failed_link_isolated mainFetcher "https://golang.org/" "https://golang.org/cmd/"
       "https://golang.org/" 4 (by decide)).2.2.2.2.2.1⟩

end TourOfGo
